import Mathlib

/-!
# Adaptive-partitioning mutual information (MUTINF_C.CPP)

A shallow embedding of `MutualInformationAdaptive` (constructor and `mut_inf`)
from `MUTINF_C.CPP`, the Darbellay-Vajda adaptive partitioning estimator.

Modelling conventions.

* C `int` values are `Int` and no wrap-around is modelled.  The one product of
  the source that can leave the range of a 32-bit `int` for ranks below `2^31`
  is `(fullXstop - fullXstart + 1) * (i+1)` of lines 540 and 543, for rank
  extents of `2^29` and more (`cut44`); `cut44_in_range` shows that it stays in
  range below that.  Integer division is `Int.tdiv` (truncation, as in C).
* A C array is a total function `Int → Int` (`IntArr`); the source never
  checks a bound, and neither does the model.  Memory returned by `malloc`
  reads as `0`.
* In the model of the loop, the `double` quantities that decide control flow
  (the chi-square tests and the tie tolerance) are computed exactly in `ℚ`:
  every finite `double` is a rational, and all the tests combine integers with
  rationals.  Division by zero is the one place where the exact model must say
  what the machine does: a chi-square term with expected count `0` is `+inf`
  on the machine, which exceeds every finite criterion (`chiExceeds`).  The
  other denominators are rank extents of a rectangle and the number of cases
  `n`; they are positive for every rectangle the loop reaches once `n ≥ 1`,
  which the theorems about the loop assume (for `n = 0` the source divides
  zero by zero).
* The machine rounds.  The section on double precision gives the tie test and
  the two chi-square tests as evaluated in IEEE 754 binary64, every operation
  rounded to nearest (`Dbl`, `roundD`, `tieCmpD`, `rankTransformD`,
  `testvalD`, `splittableD`).  The exact tests and the rounded ones disagree
  on some inputs: a sum that overflows, or two sides of a comparison that
  differ by less than a rounding error.  Statements about what the tests
  compute are made of the rounded definitions; the theorems about the loop
  hold for the loop with exact tests.
* The accumulator `MI` lives in an arbitrary field `R` with a logarithm
  `log : R → R`; the theorems instantiate `R := ℝ` and `log := Real.log`.
* `while (nstack > 0)` is a loop with fuel: `mut_inf_loop fuel` returns `none`
  when `fuel` iterations did not empty the stack.
* `stack[256]` is a list, most recently pushed first, and `nstack` is its
  length.  The source never compares `nstack` with the capacity and the model
  has no capacity either: the list agrees with the array as long as it holds
  at most 256 rectangles, and a push beyond that, a write past the end of the
  array in the source, is not modelled.  How long the list gets is the
  subject of theorems.
* `qsortdsi` is not part of the source file.  It is a parameter (`sort`) of the
  rank transform; the two parallel arrays `work` and `indices` it permutes are
  one list of pairs.
-/

namespace MutInf

/-- A C `int` array. -/
abbrev IntArr := Int → Int

/-- Contents of `malloc`ed memory before the first write. -/
def uninit : IntArr := fun _ => 0

/-! ## Rank transform (constructor lines 310-326, `mut_inf` lines 383-399) -/

/-- Modelled from the spec: `qsortdsi` (absent from the source file) sorts the
values ascending and carries the companion indices along; ties keep their
original order (stable). -/
def qsortdsi (l : List (ℚ × Int)) : List (ℚ × Int) :=
  l.insertionSort (fun a b => a.1 ≤ b.1)

/-- The contract the rank transform needs from the sort utility: the
(value, index) pairs are rearranged, and the values come out ascending. -/
def SortContract (sort : List (ℚ × Int) → List (ℚ × Int)) : Prop :=
  ∀ l, (sort l).Perm l ∧ (sort l).Pairwise (fun a b => a.1 ≤ b.1)

/-- Lines 310-313: `work[i] = dep_vals[i]; indices[i] = i` for `i < n`. -/
def loadPairs (n : Nat) (vals : List ℚ) : List (ℚ × Int) :=
  (List.range n).map (fun (i : Nat) => (vals.getD i 0, (i : Int)))

/-- The sorted `work` array. -/
def workAt (sorted : List (ℚ × Int)) (i : Nat) : ℚ := (sorted.getD i (0, 0)).1

/-- The sorted `indices` array. -/
def indexAt (sorted : List (ℚ × Int)) (i : Nat) : Int := (sorted.getD i (0, 0)).2

/-- The tie test of lines 321-322:
`i < n-1 && work[i+1] - work[i] < 1.e-12 * (1.0+fabs(work[i])+fabs(work[i+1]))`. -/
def tieTest (sorted : List (ℚ × Int)) (n : Nat) (i : Nat) : Bool :=
  decide ((i : Int) < (n : Int) - 1) &&
    decide (workAt sorted (i + 1) - workAt sorted i
      < 1 / 10 ^ 12 * (1 + |workAt sorted i| + |workAt sorted (i + 1)|))

/-- One pass of the loop of lines 317-326 on the pair (ranks, tie flags). -/
def rankStep (sorted : List (ℚ × Int)) (n : Nat) (respect_ties : Bool)
    (acc : IntArr × IntArr) (i : Nat) : IntArr × IntArr :=
  let y := Function.update acc.1 (indexAt sorted i) (i : Int)
  if !respect_ties then (y, acc.2)
  else if tieTest sorted n i then (y, Function.update acc.2 (i : Int) 1)
  else (y, Function.update acc.2 (i : Int) 0)

/-- Lines 317-326: the whole loop `for (i=0 ; i<n ; i++)`. -/
def rankLoop (sorted : List (ℚ × Int)) (n : Nat) (respect_ties : Bool) : IntArr × IntArr :=
  (List.range n).foldl (rankStep sorted n respect_ties) (uninit, uninit)

/-- Ranks and (optional) tie flags of one variable: load, sort, invert. -/
def rankTransform (sort : List (ℚ × Int) → List (ℚ × Int)) (n : Nat) (vals : List ℚ)
    (respect_ties : Bool) : IntArr × Option IntArr :=
  let r := rankLoop (sort (loadPairs n vals)) n respect_ties
  (r.1, if respect_ties then some r.2 else none)

/-- The private data of `MutualInformationAdaptive`. -/
structure MutualInformationAdaptive where
  /-- Number of cases. -/
  n : Nat
  /-- Ranks of the dependent variable. -/
  y : IntArr
  /-- Tie flags of the dependent variable, `NULL` unless ties are respected. -/
  y_tied : Option IntArr
  /-- Chi-square test criterion. -/
  chi_crit : ℚ

/-- The constructor (lines 278-330). -/
def MutualInformationAdaptive.create (sort : List (ℚ × Int) → List (ℚ × Int)) (nn : Nat)
    (dep_vals : List ℚ) (respect_ties : Bool) (crit : ℚ) : MutualInformationAdaptive :=
  let r := rankTransform sort nn dep_vals respect_ties
  { n := nn, y := r.1, y_tied := r.2, chi_crit := crit }

/-! ## The partition loop (lines 411-652) -/

/-- The rank bounds of a rectangle: the first four members of a stack entry. -/
structure Bounds where
  /-- X value (rank) at which this rectangle starts. -/
  Xstart : Int
  /-- And stops. -/
  Xstop : Int
  /-- Ditto for Y. -/
  Ystart : Int
  /-- End of the Y range. -/
  Ystop : Int
deriving DecidableEq, Repr

/-- One entry of `stack[256]`: the bounds and the span of `indices` that holds
the cases of the rectangle. -/
structure Rect extends Bounds where
  /-- Starting index into indices for the cases in this rectangle. -/
  DataStart : Int
  /-- The (inclusive) ending index. -/
  DataStop : Int
deriving DecidableEq, Repr

/-- The entries `a[s], ..., a[s+m-1]`. -/
def spanN (a : IntArr) (s : Int) (m : Nat) : List Int :=
  (List.range m).map (fun (j : Nat) => a (s + (j : Int)))

/-- The entries `a[s], ..., a[e]` read by `for (i=s ; i<=e ; i++)`. -/
def spanList (a : IntArr) (s e : Int) : List Int :=
  spanN a s (e - s + 1).toNat

/-- The search loop of lines 449-462 (465-481 for Y), started at offset `ioff`;
the result is the pair (`X_AllTied`, `centerX`).  The source loop runs at most
`center - start` times; `fuel` counts the remaining passes. -/
def tieSearch (tied : IntArr) (start stop center : Int) : Nat → Int → Bool × Int
  | 0, _ => (true, center)
  | fuel + 1, ioff =>
    if center - ioff ≥ start then
      if tied (center - ioff) = 0 then (false, center - ioff)
      else if center + ioff = stop then (true, center)
      else if tied (center + ioff) = 0 then (false, center + ioff)
      else tieSearch tied start stop center fuel (ioff + 1)
    else (true, center)

/-- Lines 446-463 (and 465-482): the trial centre of one axis, moved off a tie.
Returns (`AllTied`, `center`). -/
def tieCenter (tied : Option IntArr) (start stop : Int) : Bool × Int :=
  let center := Int.tdiv (start + stop) 2
  match tied with
  | none => (false, center)
  | some t =>
    if t center ≠ 0 then tieSearch t start stop center (center - start).toNat 1
    else (false, center)

/-- `trialXstart[i]` of lines 488-491. -/
def trialXstart (b : Bounds) (centerX : Int) (i : Nat) : Int :=
  if i < 2 then b.Xstart else centerX + 1

/-- `trialXstop[i]` of lines 488-491. -/
def trialXstop (b : Bounds) (centerX : Int) (i : Nat) : Int :=
  if i < 2 then centerX else b.Xstop

/-- `trialYstart[i]` of lines 492-495. -/
def trialYstart (b : Bounds) (centerY : Int) (i : Nat) : Int :=
  if i % 2 = 0 then b.Ystart else centerY + 1

/-- `trialYstop[i]` of lines 492-495. -/
def trialYstop (b : Bounds) (centerY : Int) (i : Nat) : Int :=
  if i % 2 = 0 then centerY else b.Ystop

/-- The bounds of trial sub-rectangle `i`. -/
def trialBounds (b : Bounds) (centerX centerY : Int) (i : Nat) : Bounds :=
  { Xstart := trialXstart b centerX i
    Xstop := trialXstop b centerX i
    Ystart := trialYstart b centerY i
    Ystop := trialYstop b centerY i }

/-- `expected[i]` of lines 498-501; `cnt` is `currentDataStop - currentDataStart + 1`. -/
def expected (b : Bounds) (cnt : Int) (centerX centerY : Int) (i : Nat) : ℚ :=
  (cnt : ℚ)
    * (((trialXstop b centerX i - trialXstart b centerX i : Int) : ℚ) + 1)
    / (((b.Xstop - b.Xstart : Int) : ℚ) + 1)
    * (((trialYstop b centerY i - trialYstart b centerY i : Int) : ℚ) + 1)
    / (((b.Ystop - b.Ystart : Int) : ℚ) + 1)

/-- The sub-rectangle counted for case `k` by lines 507-518. -/
def quadrant (x y : IntArr) (centerX centerY : Int) (k : Int) : Nat :=
  if x k ≤ centerX then
    if y k ≤ centerY then 0 else 1
  else
    if y k ≤ centerY then 2 else 3

/-- `actual[i]` after the counting loop of lines 504-519 over the cases of the
rectangle. -/
def actual (x y : IntArr) (centerX centerY : Int) (cases : List Int) (i : Nat) : Int :=
  ((cases.countP (fun k => quadrant x y centerX centerY k == i) : Nat) : Int)

/-- The Yates-corrected statistic `testval` over (actual, expected) cells
(lines 522-526 and 569-575). -/
def chiSquare (cells : List (Int × ℚ)) : ℚ :=
  (cells.map (fun c => (|(c.1 : ℚ) - c.2| - 1 / 2) * (|(c.1 : ℚ) - c.2| - 1 / 2) / c.2)).sum

/-- `testval > crit`.  A cell with expected count zero makes the source divide
a positive number by zero: the term is `+inf` and the comparison is true. -/
def chiExceeds (cells : List (Int × ℚ)) (crit : ℚ) : Bool :=
  cells.any (fun c => decide (c.2 = 0)) || decide (chiSquare cells > crit)

/-- `xcut[i]` (and `ycut[i]`) of line 540 (543). -/
def cut44 (start stop : Int) (i : Nat) : Int :=
  Int.tdiv ((stop - start + 1) * ((i : Int) + 1)) 4 + start - 1

/-- `xfrac[i]` (and `yfrac[i]`) of line 541 (544); `ipx` is the previous cut,
initially `start - 1`. -/
def frac44 (start stop : Int) (i : Nat) : ℚ :=
  ((cut44 start stop i - (if i = 0 then start - 1 else cut44 start stop (i - 1)) : Int) : ℚ)
    / (((stop - start : Int) : ℚ) + 1)

/-- The value of `ix` (`iy`) after the loop of lines 558-561 (562-565). -/
def cell44 (start stop : Int) (v : Int) : Nat :=
  if v ≤ cut44 start stop 0 then 0
  else if v ≤ cut44 start stop 1 then 1
  else if v ≤ cut44 start stop 2 then 2
  else 3

/-- `expected[j]` of lines 548-551, `j = ix*4+iy`. -/
def expected44 (b : Bounds) (cnt : Int) (j : Nat) : ℚ :=
  frac44 b.Xstart b.Xstop (j / 4) * frac44 b.Ystart b.Ystop (j % 4) * (cnt : ℚ)

/-- `actual44[j]` after the counting loop of lines 556-567. -/
def actual44 (x y : IntArr) (b : Bounds) (cases : List Int) (j : Nat) : Int :=
  ((cases.countP (fun k =>
    cell44 b.Xstart b.Xstop (x k) * 4 + cell44 b.Ystart b.Ystop (y k) == j) : Nat) : Int)

/-- Lines 521-577: the 2x2 test, followed by the 4x4 test when the 2x2 test
did not split and both rank extents exceed 30. -/
def chiTests (x y : IntArr) (chi_crit : ℚ) (b : Bounds) (cnt : Int) (centerX centerY : Int)
    (cases : List Int) : Bool :=
  let splittable := chiExceeds
    ((List.range 4).map
      (fun i => (actual x y centerX centerY cases i, expected b cnt centerX centerY i)))
    chi_crit
  if !splittable && decide (b.Xstop - b.Xstart > 30) && decide (b.Ystop - b.Ystart > 30) then
    chiExceeds ((List.range 16).map (fun j => (actual44 x y b cases j, expected44 b cnt j)))
      (3 * chi_crit)
  else splittable

/-- Lines 446-578: the value of `splittable` for a rectangle with bounds `b`
whose span holds the `cnt` cases `cases`. -/
def splittable (x y : IntArr) (x_tied y_tied : Option IntArr) (chi_crit : ℚ) (b : Bounds)
    (cnt : Int) (cases : List Int) : Bool :=
  let cx := tieCenter x_tied b.Xstart b.Xstop
  let cy := tieCenter y_tied b.Ystart b.Ystop
  if cx.1 || cy.1 then false
  else chiTests x y chi_crit b cnt cx.2 cy.2 cases

/-- The membership tests of the four regrouping loops (lines 606-633). -/
def inSubRec (x y : IntArr) (centerX centerY : Int) (iSubRec : Nat) (k : Int) : Bool :=
  match iSubRec with
  | 0 => decide (x k ≤ centerX) && decide (y k ≤ centerY)
  | 1 => decide (x k ≤ centerX) && decide (y k > centerY)
  | 2 => decide (x k > centerX) && decide (y k ≤ centerY)
  | _ => decide (x k > centerX) && decide (y k > centerY)

/-- One regrouping loop: every case `k` of the saved span that passes the test
is stored at `indices[ipos++]`.  Returns the new `indices` and `ipos`. -/
def regroup (p : Int → Bool) (current : List Int) (indices : IntArr) (ipos : Int) :
    IntArr × Int :=
  current.foldl
    (fun acc k => if p k then (Function.update acc.1 acc.2 k, acc.2 + 1) else acc)
    (indices, ipos)

/-- The variables of `mut_inf` that live across iterations of the main loop. -/
structure State (R : Type) where
  /-- The array of case indices. -/
  indices : IntArr
  /-- The rectangle stack, most recently pushed first (`nstack` is its length). -/
  stack : List Rect
  /-- The accumulated mutual information. -/
  MI : R

section Accumulate

variable {R : Type} [Field R]

/-- The contribution `pxy * log ( pxy / (px * py) )` of a cell with `cnt` cases
and rank extents `xext`, `yext` (lines 638-641 and 647-650). -/
def miTerm (log : R → R) (n : Nat) (cnt xext yext : Int) : R :=
  let px := (xext : R) / (n : R)
  let py := (yext : R) / (n : R)
  let pxy := (cnt : R) / (n : R)
  pxy * log (pxy / (px * py))

/-- The stack entry written by lines 597-602 for sub-rectangle `iSubRec`. -/
def pushedRect (b : Bounds) (centerX centerY : Int) (iSubRec : Nat) (ipos a : Int) : Rect :=
  { Xstart := trialXstart b centerX iSubRec
    Xstop := trialXstop b centerX iSubRec
    Ystart := trialYstart b centerY iSubRec
    Ystop := trialYstop b centerY iSubRec
    DataStart := ipos
    DataStop := ipos + a - 1 }

/-- One pass of `for (iSubRec=0 ; iSubRec<4 ; iSubRec++)` (lines 592-644) on
the state and `ipos`; `current` is the saved copy of the span. -/
def splitSub (log : R → R) (n : Nat) (x y : IntArr) (b : Bounds) (centerX centerY : Int)
    (current : List Int) (acc : State R × Int) (iSubRec : Nat) : State R × Int :=
  let a := actual x y centerX centerY current iSubRec
  if a ≥ 3 then
    let w := regroup (inSubRec x y centerX centerY iSubRec) current acc.1.indices acc.2
    ({ indices := w.1
       stack := pushedRect b centerX centerY iSubRec acc.2 a :: acc.1.stack
       MI := acc.1.MI }, w.2)
  else if a > 0 then
    ({ indices := acc.1.indices
       stack := acc.1.stack
       MI := acc.1.MI + miTerm log n a
          (trialXstop b centerX iSubRec - trialXstart b centerX iSubRec + 1)
          (trialYstop b centerY iSubRec - trialYstart b centerY iSubRec + 1) }, acc.2)
  else acc

/-- The body of `while (nstack > 0)` (lines 436-651) after `r` has been popped;
`s.stack` is what remains below it. -/
def step (log : R → R) (n : Nat) (x y : IntArr) (x_tied y_tied : Option IntArr)
    (chi_crit : ℚ) (r : Rect) (s : State R) : State R :=
  let current := spanList s.indices r.DataStart r.DataStop
  if splittable x y x_tied y_tied chi_crit r.toBounds (r.DataStop - r.DataStart + 1) current then
    let centerX := (tieCenter x_tied r.Xstart r.Xstop).2
    let centerY := (tieCenter y_tied r.Ystart r.Ystop).2
    ((List.range 4).foldl (splitSub log n x y r.toBounds centerX centerY current)
      (s, r.DataStart)).1
  else
    { indices := s.indices
      stack := s.stack
      MI := s.MI + miTerm log n (r.DataStop - r.DataStart + 1)
          (r.Xstop - r.Xstart + 1) (r.Ystop - r.Ystart + 1) }

/-- The main loop `while (nstack > 0)`, at most `fuel` iterations. -/
def mut_inf_loop (log : R → R) (n : Nat) (x y : IntArr) (x_tied y_tied : Option IntArr)
    (chi_crit : ℚ) : Nat → State R → Option R
  | fuel, s =>
    match s.stack with
    | [] => some s.MI
    | r :: rest =>
      match fuel with
      | 0 => none
      | fuel + 1 =>
        mut_inf_loop log n x y x_tied y_tied chi_crit fuel
          (step log n x y x_tied y_tied chi_crit r
            { indices := s.indices, stack := rest, MI := s.MI })

/-- The state after at most `k` iterations of the main loop. -/
def loopState (log : R → R) (n : Nat) (x y : IntArr) (x_tied y_tied : Option IntArr)
    (chi_crit : ℚ) : Nat → State R → State R
  | 0, s => s
  | k + 1, s =>
    match s.stack with
    | [] => s
    | r :: rest =>
      loopState log n x y x_tied y_tied chi_crit k
        (step log n x y x_tied y_tied chi_crit r
          { indices := s.indices, stack := rest, MI := s.MI })

/-- The whole rank plane with the whole of `indices` (lines 418-423). -/
def rootRect (n : Nat) : Rect :=
  { Xstart := 0, Xstop := (n : Int) - 1, Ystart := 0, Ystop := (n : Int) - 1,
    DataStart := 0, DataStop := (n : Int) - 1 }

/-- Lines 411-424 and 432: identity `indices`, the whole rank plane as the one
stacked rectangle, `MI = 0`. -/
def initState (n : Nat) : State R :=
  { indices := fun i => i, stack := [rootRect n], MI := 0 }

/-- The member function `mut_inf` (lines 339-662); `none` when `fuel` iterations
of the main loop were not enough. -/
def mut_inf (sort : List (ℚ × Int) → List (ℚ × Int)) (log : R → R)
    (self : MutualInformationAdaptive) (xraw : List ℚ) (respect_ties : Bool) (fuel : Nat) :
    Option R :=
  let xr := rankTransform sort self.n xraw respect_ties
  mut_inf_loop log self.n xr.1 self.y xr.2 self.y_tied self.chi_crit fuel (initState self.n)

end Accumulate

/-! ## Specification-level notions used by the theorems -/

/-- The array restricted to `0..n-1` is a permutation of `0..n-1`. -/
def IsRankPerm (x : IntArr) (n : Nat) : Prop :=
  ((List.range n).map (fun (k : Nat) => x (k : Int))).Perm ((List.range n).map (fun (k : Nat) => (k : Int)))

instance (x : IntArr) (n : Nat) : Decidable (IsRankPerm x n) :=
  inferInstanceAs (Decidable
    (((List.range n).map (fun (k : Nat) => x (k : Int))).Perm ((List.range n).map (fun (k : Nat) => (k : Int)))))

/-- Case `k` has both ranks inside the bounds. -/
def inBounds (x y : IntArr) (b : Bounds) (k : Int) : Bool :=
  decide (b.Xstart ≤ x k) && decide (x k ≤ b.Xstop) &&
    decide (b.Ystart ≤ y k) && decide (y k ≤ b.Ystop)

/-- The cases `k` of `0..n-1` whose ranks lie inside the bounds, ascending. -/
def casesIn (x y : IntArr) (n : Nat) (b : Bounds) : List Int :=
  ((List.range n).map (fun (k : Nat) => (k : Int))).filter (inBounds x y b)

/-- The rectangle invariant: the span of `indices` given by the data bounds
holds, without repetition, exactly the cases inside the rank bounds. -/
structure RectInv (x y : IntArr) (n : Nat) (indices : IntArr) (r : Rect) : Prop where
  /-- The X range starts at a rank. -/
  xstart_nonneg : 0 ≤ r.Xstart
  /-- The X range is not empty. -/
  x_le : r.Xstart ≤ r.Xstop
  /-- The Y range starts at a rank. -/
  ystart_nonneg : 0 ≤ r.Ystart
  /-- The Y range is not empty. -/
  y_le : r.Ystart ≤ r.Ystop
  /-- The span has nonnegative length. -/
  span_le : r.DataStart ≤ r.DataStop + 1
  /-- The entries of the span are pairwise distinct. -/
  nodup : (spanList indices r.DataStart r.DataStop).Nodup
  /-- The entries of the span are exactly the cases inside the bounds. -/
  mem_iff : ∀ k, k ∈ spanList indices r.DataStart r.DataStop ↔
    (0 ≤ k ∧ k < (n : Int) ∧ inBounds x y r.toBounds k = true)

/-- The data spans of two rectangles do not overlap. -/
def SpanDisjoint (a b : Rect) : Prop :=
  a.DataStop < b.DataStart ∨ b.DataStop < a.DataStart

/-- Every stacked rectangle satisfies the rectangle invariant and the data
spans of the stacked rectangles are pairwise disjoint. -/
def StackInv (x y : IntArr) (n : Nat) (indices : IntArr) (stack : List Rect) : Prop :=
  stack.Pairwise SpanDisjoint ∧ ∀ r ∈ stack, RectInv x y n indices r

/-- Iterations that always suffice for a rectangle of X extent at most `d`:
`1 + 4 + ... + 4^(d-1)`. -/
def fuelBound : Nat → Nat
  | 0 => 0
  | d + 1 => 1 + 4 * fuelBound d

/-- Sum of a list of optional values, `none` as soon as one is missing. -/
def sumOpt {R : Type} [Add R] [Zero R] : List (Option R) → Option R
  | [] => some 0
  | none :: _ => none
  | some v :: l =>
    match sumOpt l with
    | none => none
    | some w => some (v + w)

section Recursive

variable {R : Type} [Field R]

/-- The depth-first recursion of the specification, to depth `d`.  A rectangle
is its bounds together with the cases inside them.  `MI(R)` is the leaf term of
`R` when `R` is not splittable; otherwise the sum over the four sub-rectangles
of `MI(child)` for a child with at least 3 cases, of the leaf term for a child
with 1 or 2 cases, and of 0 for an empty child. -/
def MI_rec (log : R → R) (n : Nat) (x y : IntArr) (x_tied y_tied : Option IntArr)
    (chi_crit : ℚ) : Nat → Bounds → Option R
  | 0, _ => none
  | d + 1, b =>
    let cases := casesIn x y n b
    if splittable x y x_tied y_tied chi_crit b (cases.length : Int) cases then
      let centerX := (tieCenter x_tied b.Xstart b.Xstop).2
      let centerY := (tieCenter y_tied b.Ystart b.Ystop).2
      sumOpt ((List.range 4).map (fun i =>
        let child := trialBounds b centerX centerY i
        let c := ((casesIn x y n child).length : Int)
        if c ≥ 3 then MI_rec log n x y x_tied y_tied chi_crit d child
        else if c > 0 then
          some (miTerm log n c (child.Xstop - child.Xstart + 1) (child.Ystop - child.Ystart + 1))
        else some 0))
    else
      some (miTerm log n (cases.length : Int) (b.Xstop - b.Xstart + 1) (b.Ystop - b.Ystart + 1))

end Recursive

/-- The stack entries pushed while the sub-rectangles `is` are processed
starting with `ipos`, in pushing order. -/
def pushedRects (x y : IntArr) (b : Bounds) (centerX centerY : Int) (current : List Int) :
    List Nat → Int → List Rect
  | [], _ => []
  | i :: is, ipos =>
    if actual x y centerX centerY current i ≥ 3 then
      pushedRect b centerX centerY i ipos (actual x y centerX centerY current i)
        :: pushedRects x y b centerX centerY current is
            (ipos + actual x y centerX centerY current i)
    else pushedRects x y b centerX centerY current is ipos

/-- The number of cases moved to pushed sub-rectangles among `is`. -/
def pushedTotal (x y : IntArr) (centerX centerY : Int) (current : List Int) : List Nat → Int
  | [] => 0
  | i :: is =>
    (if actual x y centerX centerY current i ≥ 3 then actual x y centerX centerY current i else 0)
      + pushedTotal x y centerX centerY current is

/-- The contributions added directly for the sub-rectangles among `is` that
hold one or two cases. -/
def foldedSum {R : Type} [Field R] (log : R → R) (n : Nat) (x y : IntArr) (b : Bounds)
    (centerX centerY : Int) (current : List Int) : List Nat → R
  | [] => 0
  | i :: is =>
    (if actual x y centerX centerY current i ≥ 3 then 0
     else if actual x y centerX centerY current i > 0 then
       miTerm log n (actual x y centerX centerY current i)
         (trialXstop b centerX i - trialXstart b centerX i + 1)
         (trialYstop b centerY i - trialYstart b centerY i + 1)
     else 0)
      + foldedSum log n x y b centerX centerY current is

/-- Processing the rectangles `cs` on top of the stack, and everything they
push, takes `j` iterations of the main loop, leaves `indices` as `a'` and adds
`v` to the accumulator, whatever lies below them on the stack. -/
def RunsTo {R : Type} [Field R] (log : R → R) (n : Nat) (x y : IntArr)
    (x_tied y_tied : Option IntArr) (chi_crit : ℚ) (j : Nat) (a : IntArr) (cs : List Rect)
    (a' : IntArr) (v : R) : Prop :=
  ∀ (rest : List Rect) (mi : R) (f : Nat),
    mut_inf_loop log n x y x_tied y_tied chi_crit (j + f)
        { indices := a, stack := cs ++ rest, MI := mi }
      = mut_inf_loop log n x y x_tied y_tied chi_crit f
        { indices := a', stack := rest, MI := mi + v }

/-- What the rank loop is given: the loaded (value, index) pairs of `vals`,
rearranged so that the values ascend. -/
structure IsSortedLoad (sorted : List (ℚ × Int)) (n : Nat) (vals : List ℚ) : Prop where
  /-- The pairs are those loaded from `vals`. -/
  perm : sorted.Perm (loadPairs n vals)
  /-- The values ascend. -/
  ascending : sorted.Pairwise (fun a b => a.1 ≤ b.1)

/-- The state of the rank loop after `m` passes. -/
def rankFold (sorted : List (ℚ × Int)) (n : Nat) (respect_ties : Bool) (m : Nat) :
    IntArr × IntArr :=
  (List.range m).foldl (rankStep sorted n respect_ties) (uninit, uninit)

/-- The sample with its cases taken in the order `pi`: case `j` of the result
is case `pi[j]` of `vals`. -/
def permute (pi : List Nat) (vals : List ℚ) : List ℚ :=
  pi.map (fun i => vals.getD i 0)

/-- The argument `pxy / (px * py)` handed to `log` in lines 641 and 650. -/
def logArg {R : Type} [Field R] (n : Nat) (cnt xext yext : Int) : R :=
  ((cnt : R) / (n : R)) / (((xext : R) / (n : R)) * ((yext : R) / (n : R)))

/-- The runs written by the regrouping loops for the sub-rectangles among `is`:
for each one with at least 3 cases, its cases in the order of the saved span. -/
def pushedRuns (x y : IntArr) (centerX centerY : Int) (current : List Int) : List Nat → List Int
  | [] => []
  | i :: is =>
    (if actual x y centerX centerY current i ≥ 3
      then current.filter (inSubRec x y centerX centerY i) else [])
      ++ pushedRuns x y centerX centerY current is

/-- The X rank extent `Xstop - Xstart + 1` of a rectangle. -/
def xExtent (r : Rect) : Nat := (r.Xstop - r.Xstart + 1).toNat

/-- The depth invariant of the stack, most recently pushed first: below a
rectangle whose X extent needs `j` halvings to reach 1 there are at most
`3 * (ceil(log2 n) - j)` rectangles. -/
def DepthInv (n : Nat) : List Rect → Prop
  | [] => True
  | r :: tl => tl.length + 3 * Nat.clog 2 (xExtent r) ≤ 3 * Nat.clog 2 n ∧ DepthInv n tl

/-- The bounds with the two axes exchanged. -/
def transpose (b : Bounds) : Bounds :=
  { Xstart := b.Ystart, Xstop := b.Ystop, Ystart := b.Xstart, Ystop := b.Xstop }

/-- The sub-rectangle number after the two axes are exchanged: sub-rectangles 1
and 2 trade places. -/
def swapSub (i : Nat) : Nat :=
  if i = 1 then 2 else if i = 2 then 1 else i

/-- The cell number `ix*4+iy` of the 4x4 test after the two axes are exchanged. -/
def swapCell (j : Nat) : Nat := (j % 4) * 4 + j / 4

/-! ## Double precision (the tie test of lines 321-322 and the chi-square tests
of lines 498-577 as the machine computes them)

The definitions above compute these tests exactly.  The definitions of this
section follow IEEE 754 binary64 with round to nearest, ties to even: every
operation on finite operands returns the rounding of its exact result.  The
sign of a zero is not modelled; the zeros of the computations modelled here
arise from non-negative operands. -/

/-- A value of type `double`: a finite number, an infinity with its sign, or
NaN. -/
inductive Dbl where
  /-- A finite value. -/
  | fin (q : ℚ)
  /-- An infinity, negative when the flag is set. -/
  | inf (neg : Bool)
  /-- Not a number. -/
  | nan
deriving DecidableEq

/-- The power `2^e`. -/
def pow2 (e : Int) : ℚ :=
  if 0 ≤ e then ((2 ^ e.toNat : Nat) : ℚ) else 1 / ((2 ^ (-e).toNat : Nat) : ℚ)

/-- Binary search for the exponent: `lo` is raised by each of the steps that
keeps `2^lo ≤ a` and `lo ≤ 1023`. -/
def expSearch (a : ℚ) : List Int → Int → Int
  | [], lo => lo
  | s :: ss, lo =>
    if lo + s ≤ 1023 ∧ pow2 (lo + s) ≤ a then expSearch a ss (lo + s) else expSearch a ss lo

/-- The exponent used to round `a`: the largest `e` of `-1022 .. 1023` with
`2^e ≤ a`, and `-1022` (subnormal numbers) when there is none. -/
def expOf (a : ℚ) : Int :=
  expSearch a [1024, 512, 256, 128, 64, 32, 16, 8, 4, 2, 1] (-1022)

/-- The nearest integer, a half going to the even neighbour. -/
def roundHalfEven (y : ℚ) : Int :=
  if y - ⌊y⌋ < 1 / 2 then ⌊y⌋
  else if 1 / 2 < y - ⌊y⌋ then ⌊y⌋ + 1
  else if ⌊y⌋ % 2 = 0 then ⌊y⌋ else ⌊y⌋ + 1

/-- The `double` nearest to the exact value `q`: 53 significant bits, and an
infinity when the rounded value reaches `2^1024`. -/
def roundD (q : ℚ) : Dbl :=
  let quantum : ℚ := pow2 (expOf |q| - 52)
  let v : ℚ := (roundHalfEven (q / quantum) : ℚ) * quantum
  if pow2 1024 ≤ |v| then Dbl.inf (decide (q < 0)) else Dbl.fin v

/-- Unary minus. -/
def Dbl.neg : Dbl → Dbl
  | Dbl.fin q => Dbl.fin (-q)
  | Dbl.inf s => Dbl.inf (!s)
  | Dbl.nan => Dbl.nan

/-- The function `fabs`. -/
def Dbl.abs : Dbl → Dbl
  | Dbl.fin q => Dbl.fin |q|
  | Dbl.inf _ => Dbl.inf false
  | Dbl.nan => Dbl.nan

/-- The sum `a + b`. -/
def Dbl.add : Dbl → Dbl → Dbl
  | Dbl.fin a, Dbl.fin b => roundD (a + b)
  | Dbl.fin _, Dbl.inf t => Dbl.inf t
  | Dbl.inf s, Dbl.fin _ => Dbl.inf s
  | Dbl.inf s, Dbl.inf t => if s = t then Dbl.inf s else Dbl.nan
  | Dbl.nan, _ => Dbl.nan
  | Dbl.fin _, Dbl.nan => Dbl.nan
  | Dbl.inf _, Dbl.nan => Dbl.nan

/-- The difference `a - b`. -/
def Dbl.sub (a b : Dbl) : Dbl := Dbl.add a (Dbl.neg b)

/-- The product `a * b`. -/
def Dbl.mul : Dbl → Dbl → Dbl
  | Dbl.fin a, Dbl.fin b => roundD (a * b)
  | Dbl.fin a, Dbl.inf t => if a = 0 then Dbl.nan else Dbl.inf (xor (decide (a < 0)) t)
  | Dbl.inf s, Dbl.fin b => if b = 0 then Dbl.nan else Dbl.inf (xor s (decide (b < 0)))
  | Dbl.inf s, Dbl.inf t => Dbl.inf (xor s t)
  | Dbl.nan, _ => Dbl.nan
  | Dbl.fin _, Dbl.nan => Dbl.nan
  | Dbl.inf _, Dbl.nan => Dbl.nan

/-- The quotient `a / b`. -/
def Dbl.div : Dbl → Dbl → Dbl
  | Dbl.fin a, Dbl.fin b =>
    if b = 0 then (if a = 0 then Dbl.nan else Dbl.inf (decide (a < 0))) else roundD (a / b)
  | Dbl.fin _, Dbl.inf _ => Dbl.fin 0
  | Dbl.inf s, Dbl.fin b => Dbl.inf (xor s (decide (b < 0)))
  | Dbl.inf _, Dbl.inf _ => Dbl.nan
  | Dbl.nan, _ => Dbl.nan
  | Dbl.fin _, Dbl.nan => Dbl.nan
  | Dbl.inf _, Dbl.nan => Dbl.nan

/-- The comparison `a < b`, false when an operand is NaN. -/
def Dbl.lt : Dbl → Dbl → Bool
  | Dbl.fin a, Dbl.fin b => decide (a < b)
  | Dbl.fin _, Dbl.inf t => !t
  | Dbl.inf s, Dbl.fin _ => s
  | Dbl.inf s, Dbl.inf t => s && !t
  | Dbl.nan, _ => false
  | Dbl.fin _, Dbl.nan => false
  | Dbl.inf _, Dbl.nan => false

/-- The conversion of an `int` to `double`. -/
def Dbl.ofInt (i : Int) : Dbl := roundD (i : ℚ)

/-- The comparison `b - a < 1.e-12 * (1.0+fabs(a)+fabs(b))` of lines 321-322
for two `double` values `a = work[i]` and `b = work[i+1]`. -/
def tieCmpD (a b : ℚ) : Bool :=
  Dbl.lt (Dbl.sub (Dbl.fin b) (Dbl.fin a))
    (Dbl.mul (roundD (1 / 10 ^ 12))
      (Dbl.add (Dbl.add (Dbl.fin 1) (Dbl.abs (Dbl.fin a))) (Dbl.abs (Dbl.fin b))))

/-- The tie test of lines 321-322 in double precision. -/
def tieTestD (sorted : List (ℚ × Int)) (n : Nat) (i : Nat) : Bool :=
  decide ((i : Int) < (n : Int) - 1) && tieCmpD (workAt sorted i) (workAt sorted (i + 1))

/-- One pass of the loop of lines 317-326 with the tie test in double
precision. -/
def rankStepD (sorted : List (ℚ × Int)) (n : Nat) (respect_ties : Bool)
    (acc : IntArr × IntArr) (i : Nat) : IntArr × IntArr :=
  let y := Function.update acc.1 (indexAt sorted i) (i : Int)
  if !respect_ties then (y, acc.2)
  else if tieTestD sorted n i then (y, Function.update acc.2 (i : Int) 1)
  else (y, Function.update acc.2 (i : Int) 0)

/-- Lines 317-326 with the tie test in double precision. -/
def rankLoopD (sorted : List (ℚ × Int)) (n : Nat) (respect_ties : Bool) : IntArr × IntArr :=
  (List.range n).foldl (rankStepD sorted n respect_ties) (uninit, uninit)

/-- Ranks and (optional) tie flags of one variable, the tie test in double
precision; the values of `vals` are taken to be finite `double` values. -/
def rankTransformD (sort : List (ℚ × Int) → List (ℚ × Int)) (n : Nat) (vals : List ℚ)
    (respect_ties : Bool) : IntArr × Option IntArr :=
  let r := rankLoopD (sort (loadPairs n vals)) n respect_ties
  (r.1, if respect_ties then some r.2 else none)

/-- The state of the rank loop after `m` passes, the tie test in double
precision. -/
def rankFoldD (sorted : List (ℚ × Int)) (n : Nat) (respect_ties : Bool) (m : Nat) :
    IntArr × IntArr :=
  (List.range m).foldl (rankStepD sorted n respect_ties) (uninit, uninit)

/-- `expected[i]` of lines 498-501 in double precision: the count and each
difference of ranks are converted to `double`, and the products and quotients
are taken from left to right. -/
def expectedD (b : Bounds) (cnt : Int) (centerX centerY : Int) (i : Nat) : Dbl :=
  Dbl.div
    (Dbl.mul
      (Dbl.div
        (Dbl.mul (Dbl.ofInt cnt)
          (Dbl.add (Dbl.ofInt (trialXstop b centerX i - trialXstart b centerX i)) (Dbl.fin 1)))
        (Dbl.add (Dbl.ofInt (b.Xstop - b.Xstart)) (Dbl.fin 1)))
      (Dbl.add (Dbl.ofInt (trialYstop b centerY i - trialYstart b centerY i)) (Dbl.fin 1)))
    (Dbl.add (Dbl.ofInt (b.Ystop - b.Ystart)) (Dbl.fin 1))

/-- The term `diff * diff / expected[i]` of lines 524-525 (572-573), with
`diff = fabs ( actual[i] - expected[i] ) - 0.5`. -/
def chiTermD (c : Int × Dbl) : Dbl :=
  let diff := Dbl.sub (Dbl.abs (Dbl.sub (Dbl.ofInt c.1) c.2)) (Dbl.fin (1 / 2))
  Dbl.div (Dbl.mul diff diff) c.2

/-- The statistic `testval` of lines 522-526 (569-575) in double precision:
the terms are added to `0.0` one after the other. -/
def testvalD (cells : List (Int × Dbl)) : Dbl :=
  cells.foldl (fun tv c => Dbl.add tv (chiTermD c)) (Dbl.fin 0)

/-- `xfrac[i]` (and `yfrac[i]`) of line 541 (544) in double precision. -/
def frac44D (start stop : Int) (i : Nat) : Dbl :=
  Dbl.div
    (Dbl.ofInt (cut44 start stop i - (if i = 0 then start - 1 else cut44 start stop (i - 1))))
    (Dbl.add (Dbl.ofInt (stop - start)) (Dbl.fin 1))

/-- `expected[j]` of lines 548-551 in double precision, `j = ix*4+iy`. -/
def expected44D (b : Bounds) (cnt : Int) (j : Nat) : Dbl :=
  Dbl.mul (Dbl.mul (frac44D b.Xstart b.Xstop (j / 4)) (frac44D b.Ystart b.Ystop (j % 4)))
    (Dbl.ofInt cnt)

/-- Lines 521-577 in double precision: `testval > chi_crit`, followed by the
4x4 test and `testval > 3 * chi_crit` when the 2x2 test did not split and
`fullXstop-fullXstart > 30 && fullYstop-fullYstart > 30`.  The criterion
`chi_crit` is taken to be a `double` value. -/
def chiTestsD (x y : IntArr) (chi_crit : ℚ) (b : Bounds) (cnt : Int) (centerX centerY : Int)
    (cases : List Int) : Bool :=
  let splittable := Dbl.lt (Dbl.fin chi_crit)
    (testvalD ((List.range 4).map
      (fun i => (actual x y centerX centerY cases i, expectedD b cnt centerX centerY i))))
  if !splittable && decide (b.Xstop - b.Xstart > 30) && decide (b.Ystop - b.Ystart > 30) then
    Dbl.lt (Dbl.mul (Dbl.ofInt 3) (Dbl.fin chi_crit))
      (testvalD ((List.range 16).map (fun j => (actual44 x y b cases j, expected44D b cnt j))))
  else splittable

/-- Lines 446-578 with the chi-square tests in double precision. -/
def splittableD (x y : IntArr) (x_tied y_tied : Option IntArr) (chi_crit : ℚ) (b : Bounds)
    (cnt : Int) (cases : List Int) : Bool :=
  let cx := tieCenter x_tied b.Xstart b.Xstop
  let cy := tieCenter y_tied b.Ystart b.Ystop
  if cx.1 || cy.1 then false
  else chiTestsD x y chi_crit b cnt cx.2 cy.2 cases

/-! ## Theorems -/

/-! ### Spans of an array -/

theorem spanN_length (a : IntArr) (s : Int) (m : Nat) : (spanN a s m).length = m := by
  simp [spanN]

theorem spanN_succ (a : IntArr) (s : Int) (m : Nat) :
    spanN a s (m + 1) = a s :: spanN a (s + 1) m := by
  simp only [spanN, List.range_succ_eq_map, List.map_cons, List.map_map]
  refine congrArg₂ _ (by simp) (List.map_congr_left ?_)
  intro j _
  simp only [Function.comp, Nat.cast_succ]
  congr 1; ring

theorem mem_spanN {a : IntArr} {s : Int} {m : Nat} {k : Int} :
    k ∈ spanN a s m ↔ ∃ q, s ≤ q ∧ q < s + m ∧ a q = k := by
  simp only [spanN, List.mem_map, List.mem_range]
  constructor
  · rintro ⟨j, hj, rfl⟩
    exact ⟨s + j, by omega, by omega, rfl⟩
  · rintro ⟨q, h1, h2, rfl⟩
    refine ⟨(q - s).toNat, by omega, ?_⟩
    congr 1; omega

theorem spanN_congr {a b : IntArr} {s : Int} {m : Nat}
    (h : ∀ q, s ≤ q → q < s + m → a q = b q) : spanN a s m = spanN b s m := by
  simp only [spanN]
  refine List.map_congr_left ?_
  intro j hj
  rw [List.mem_range] at hj
  exact h _ (by omega) (by omega)

theorem spanList_congr {a b : IntArr} {s e : Int}
    (h : ∀ q, s ≤ q → q ≤ e → a q = b q) : spanList a s e = spanList b s e := by
  unfold spanList
  refine spanN_congr ?_
  intro q h1 h2
  exact h q h1 (by omega)

theorem spanList_length (a : IntArr) (s e : Int) :
    (spanList a s e).length = (e - s + 1).toNat := by
  simp [spanList, spanN_length]

theorem mem_spanList {a : IntArr} {s e : Int} {k : Int} :
    k ∈ spanList a s e ↔ ∃ q, s ≤ q ∧ q ≤ e ∧ a q = k := by
  unfold spanList
  rw [mem_spanN]
  constructor
  · rintro ⟨q, h1, h2, h3⟩
    exact ⟨q, h1, by omega, h3⟩
  · rintro ⟨q, h1, h2, h3⟩
    exact ⟨q, h1, by omega, h3⟩

/-! ### The regrouping loop -/

theorem regroup_nil (p : Int → Bool) (a : IntArr) (pos : Int) :
    regroup p [] a pos = (a, pos) := rfl

theorem regroup_cons (p : Int → Bool) (k : Int) (cur : List Int) (a : IntArr) (pos : Int) :
    regroup p (k :: cur) a pos =
      if p k then regroup p cur (Function.update a pos k) (pos + 1) else regroup p cur a pos := by
  unfold regroup
  rw [List.foldl_cons]
  split <;> rfl

theorem regroup_snd (p : Int → Bool) (cur : List Int) (a : IntArr) (pos : Int) :
    (regroup p cur a pos).2 = pos + ((cur.filter p).length : Int) := by
  induction cur generalizing a pos with
  | nil => simp [regroup_nil]
  | cons k cur ih =>
    rw [regroup_cons]
    by_cases hk : p k = true
    · simp only [hk, if_true, List.filter_cons_of_pos, List.length_cons, ih]
      push_cast; ring
    · simp only [hk, Bool.false_eq_true, if_false, ih]
      simp [hk]

theorem regroup_outside (p : Int → Bool) (cur : List Int) (a : IntArr) (pos : Int) (q : Int)
    (hq : q < pos ∨ pos + ((cur.filter p).length : Int) ≤ q) :
    (regroup p cur a pos).1 q = a q := by
  induction cur generalizing a pos with
  | nil => simp [regroup_nil]
  | cons k cur ih =>
    rw [regroup_cons]
    by_cases hk : p k = true
    · simp only [hk, if_true]
      simp only [hk, List.filter_cons_of_pos, List.length_cons, Nat.cast_succ] at hq
      rw [ih _ _ (by omega)]
      exact Function.update_noteq (by omega) _ _
    · simp only [hk, Bool.false_eq_true, if_false]
      simp only [List.filter_cons, hk, Bool.false_eq_true, if_false] at hq
      exact ih a pos hq

theorem regroup_span (p : Int → Bool) (cur : List Int) (a : IntArr) (pos : Int) :
    spanN (regroup p cur a pos).1 pos (cur.filter p).length = cur.filter p := by
  induction cur generalizing a pos with
  | nil => simp [regroup_nil, spanN]
  | cons k cur ih =>
    rw [regroup_cons]
    by_cases hk : p k = true
    · simp only [hk, if_true, List.filter_cons_of_pos, List.length_cons, spanN_succ, ih]
      rw [regroup_outside _ _ _ _ _ (Or.inl (by omega))]
      simp
    · simp only [List.filter_cons, hk, Bool.false_eq_true, if_false]
      exact ih a pos

/-! ### The tie-aware centre -/

theorem tieSearch_true_center (tied : IntArr) (start stop center : Int) (fuel : Nat) (ioff : Int)
    (c : Int) (h : tieSearch tied start stop center fuel ioff = (true, c)) : c = center := by
  induction fuel generalizing ioff with
  | zero => simp only [tieSearch, Prod.mk.injEq] at h; exact h.2.symm
  | succ fuel ih =>
    simp only [tieSearch] at h
    split at h
    · split at h
      · simp at h
      · split at h
        · simp only [Prod.mk.injEq] at h; exact h.2.symm
        · split at h
          · simp at h
          · exact ih _ h
    · simp only [Prod.mk.injEq] at h; exact h.2.symm

theorem tieSearch_false (tied : IntArr) (start stop center : Int) (fuel : Nat) (ioff : Int)
    (c : Int) (h1 : 1 ≤ ioff) (h2 : center + ioff ≤ stop)
    (h : tieSearch tied start stop center fuel ioff = (false, c)) :
    tied c = 0 ∧ start ≤ c ∧ c < stop := by
  induction fuel generalizing ioff with
  | zero => simp [tieSearch] at h
  | succ fuel ih =>
    simp only [tieSearch] at h
    split at h
    · rename_i hge
      split at h
      · rename_i ht
        simp only [Prod.mk.injEq, true_and] at h
        subst h
        exact ⟨ht, hge, by omega⟩
      · split at h
        · simp at h
        · rename_i hne
          split at h
          · rename_i ht
            simp only [Prod.mk.injEq, true_and] at h
            subst h
            exact ⟨ht, by omega, by omega⟩
          · exact ih (ioff + 1) (by omega) (by omega) h
    · simp at h

theorem tdiv_two_bounds {s e : Int} (h0 : 0 ≤ s) (h : s ≤ e) :
    s ≤ Int.tdiv (s + e) 2 ∧ Int.tdiv (s + e) 2 ≤ e ∧ (s < e → Int.tdiv (s + e) 2 < e) := by
  rw [Int.tdiv_eq_ediv (by omega) (by omega)]
  omega

/-- The centre returned for a splittable axis lies inside the range, leaves
both halves non-empty when the range has more than one rank, and carries no tie
flag. -/
theorem tieCenter_false {tied : Option IntArr} {start stop c : Int} (h0 : 0 ≤ start)
    (hle : start ≤ stop) (h : tieCenter tied start stop = (false, c)) :
    start ≤ c ∧ c ≤ stop ∧ (start < stop → c < stop) ∧ ∀ t, tied = some t → t c = 0 := by
  have hb := tdiv_two_bounds h0 hle
  unfold tieCenter at h
  cases tied with
  | none =>
    simp only [Prod.mk.injEq, true_and] at h
    subst h
    exact ⟨hb.1, hb.2.1, hb.2.2, by intro t ht; cases ht⟩
  | some t =>
    simp only at h
    split at h
    · by_cases hlt : start < stop
      · have := tieSearch_false t start stop _ _ 1 c (by omega) (by have := hb.2.2 hlt; omega) h
        exact ⟨this.2.1, by omega, fun _ => this.2.2, by intro t' ht'; cases ht'; exact this.1⟩
      · have hse : start = stop := by omega
        subst hse
        have hc : Int.tdiv (start + start) 2 = start := by omega
        rw [hc] at h
        simp [tieSearch] at h
    · rename_i ht
      simp only [Prod.mk.injEq, true_and] at h
      subst h
      refine ⟨hb.1, hb.2.1, hb.2.2, ?_⟩
      intro t' ht'
      cases ht'
      simpa using ht

/-! ### Quadrants and counts -/

theorem quadrant_lt (x y : IntArr) (cX cY k : Int) : quadrant x y cX cY k < 4 := by
  unfold quadrant
  split <;> split <;> omega

theorem inSubRec_eq_quadrant (x y : IntArr) (cX cY : Int) {i : Nat} (hi : i < 4) (k : Int) :
    inSubRec x y cX cY i k = (quadrant x y cX cY k == i) := by
  have h4 : i = 0 ∨ i = 1 ∨ i = 2 ∨ i = 3 := by omega
  rcases h4 with rfl | rfl | rfl | rfl <;>
    by_cases h1 : x k ≤ cX <;> by_cases h2 : y k ≤ cY <;>
    simp [inSubRec, quadrant, h1, h2, not_le.mp, not_lt.mpr]

theorem filter_inSubRec_length (x y : IntArr) (cX cY : Int) {i : Nat} (hi : i < 4)
    (cur : List Int) :
    (((cur.filter (inSubRec x y cX cY i)).length : Nat) : Int) = actual x y cX cY cur i := by
  unfold actual
  rw [List.countP_eq_length_filter]
  congr 2
  refine List.filter_congr ?_
  intro k _
  exact inSubRec_eq_quadrant x y cX cY hi k

theorem actual_nonneg (x y : IntArr) (cX cY : Int) (cur : List Int) (i : Nat) :
    0 ≤ actual x y cX cY cur i := by
  unfold actual; exact Int.natCast_nonneg _

theorem actual_sum (x y : IntArr) (cX cY : Int) (cur : List Int) :
    actual x y cX cY cur 0 + actual x y cX cY cur 1 + actual x y cX cY cur 2
      + actual x y cX cY cur 3 = (cur.length : Int) := by
  unfold actual
  induction cur with
  | nil => simp
  | cons k cur ih =>
    have h4 := quadrant_lt x y cX cY k
    have : quadrant x y cX cY k = 0 ∨ quadrant x y cX cY k = 1 ∨ quadrant x y cX cY k = 2
        ∨ quadrant x y cX cY k = 3 := by omega
    simp only [List.countP_cons, List.length_cons]
    rcases this with h | h | h | h <;> simp only [h] <;> push_cast <;> simp <;> omega

theorem actual_perm (x y : IntArr) (cX cY : Int) {l₁ l₂ : List Int} (h : l₁.Perm l₂) (i : Nat) :
    actual x y cX cY l₁ i = actual x y cX cY l₂ i := by
  unfold actual; rw [h.countP_eq]

theorem actual44_perm (x y : IntArr) (b : Bounds) {l₁ l₂ : List Int} (h : l₁.Perm l₂) (j : Nat) :
    actual44 x y b l₁ j = actual44 x y b l₂ j := by
  unfold actual44; rw [h.countP_eq]

theorem splittable_perm (x y : IntArr) (xt yt : Option IntArr) (crit : ℚ) (b : Bounds) (cnt : Int)
    {l₁ l₂ : List Int} (h : l₁.Perm l₂) :
    splittable x y xt yt crit b cnt l₁ = splittable x y xt yt crit b cnt l₂ := by
  unfold splittable chiTests
  simp only [actual_perm x y _ _ h, actual44_perm x y b h]

/-- Inside a rectangle whose centres lie within its bounds, being counted for
sub-rectangle `i` is the same as lying inside the bounds of sub-rectangle `i`. -/
theorem inBounds_trial (x y : IntArr) (b : Bounds) (cX cY : Int) {i : Nat} (hi : i < 4)
    (hx1 : b.Xstart ≤ cX) (hx2 : cX ≤ b.Xstop) (hy1 : b.Ystart ≤ cY) (hy2 : cY ≤ b.Ystop)
    (k : Int) :
    inBounds x y (trialBounds b cX cY i) k
      = (inBounds x y b k && (quadrant x y cX cY k == i)) := by
  have h4 : i = 0 ∨ i = 1 ∨ i = 2 ∨ i = 3 := by omega
  rw [Bool.eq_iff_iff]
  simp only [inBounds, trialBounds, trialXstart, trialXstop, trialYstart, trialYstop, quadrant,
    Bool.and_eq_true, decide_eq_true_eq, beq_iff_eq]
  rcases h4 with rfl | rfl | rfl | rfl <;>
    by_cases h1 : x k ≤ cX <;> by_cases h2 : y k ≤ cY <;>
    simp [h1, h2] <;> omega

/-! ### The loop over the four sub-rectangles -/

theorem pushedTotal_nonneg (x y : IntArr) (cX cY : Int) (cur : List Int) (is : List Nat) :
    0 ≤ pushedTotal x y cX cY cur is := by
  induction is with
  | nil => simp [pushedTotal]
  | cons i is ih =>
    simp only [pushedTotal]
    split <;> omega

theorem pushedRects_length (x y : IntArr) (b : Bounds) (cX cY : Int) (cur : List Int)
    (is : List Nat) (ipos : Int) : (pushedRects x y b cX cY cur is ipos).length ≤ is.length := by
  induction is generalizing ipos with
  | nil => simp [pushedRects]
  | cons i is ih =>
    simp only [pushedRects]
    split
    · simp only [List.length_cons]; have := ih (ipos + actual x y cX cY cur i); omega
    · simp only [List.length_cons]; have := ih ipos; omega

theorem pushedRects_mem (x y : IntArr) (b : Bounds) (cX cY : Int) (cur : List Int)
    (is : List Nat) (ipos : Int) (c : Rect) (hc : c ∈ pushedRects x y b cX cY cur is ipos) :
    ∃ i ∈ is, 3 ≤ actual x y cX cY cur i ∧
      c = pushedRect b cX cY i c.DataStart (actual x y cX cY cur i) ∧
      ipos ≤ c.DataStart ∧
      c.DataStart + actual x y cX cY cur i ≤ ipos + pushedTotal x y cX cY cur is := by
  induction is generalizing ipos with
  | nil => simp [pushedRects] at hc
  | cons i is ih =>
    simp only [pushedRects] at hc
    have hnn := pushedTotal_nonneg x y cX cY cur is
    split at hc
    · rename_i h3
      rcases List.mem_cons.mp hc with rfl | hc
      · refine ⟨i, List.mem_cons_self _ _, h3, rfl, le_refl _, ?_⟩
        simp only [pushedTotal, pushedRect, h3, if_true]
        omega
      · obtain ⟨j, hj, h1, h2, h3', h4⟩ := ih _ hc
        refine ⟨j, List.mem_cons_of_mem _ hj, h1, h2, by omega, ?_⟩
        simp only [pushedTotal, h3, if_true]
        omega
    · rename_i h3
      obtain ⟨j, hj, h1, h2, h3', h4⟩ := ih _ hc
      refine ⟨j, List.mem_cons_of_mem _ hj, h1, h2, h3', ?_⟩
      simp only [pushedTotal, h3, if_false]
      omega

theorem pushedRects_pairwise (x y : IntArr) (b : Bounds) (cX cY : Int) (cur : List Int)
    (is : List Nat) (ipos : Int) :
    (pushedRects x y b cX cY cur is ipos).Pairwise (fun c c' => c.DataStop < c'.DataStart) := by
  induction is generalizing ipos with
  | nil => simp [pushedRects]
  | cons i is ih =>
    simp only [pushedRects]
    split
    · refine List.Pairwise.cons ?_ (ih _)
      intro c hc
      obtain ⟨j, _, _, _, h3, _⟩ := pushedRects_mem x y b cX cY cur is _ c hc
      simp only [pushedRect]
      omega
    · exact ih _

section Fold

variable {R : Type} [Field R] (log : R → R) (n : Nat) (x y : IntArr) (b : Bounds)
  (cX cY : Int) (cur : List Int)

theorem splitSub_push (acc : State R × Int) (i : Nat) (h : 3 ≤ actual x y cX cY cur i) :
    splitSub log n x y b cX cY cur acc i =
      ({ indices := (regroup (inSubRec x y cX cY i) cur acc.1.indices acc.2).1
         stack := pushedRect b cX cY i acc.2 (actual x y cX cY cur i) :: acc.1.stack
         MI := acc.1.MI },
        (regroup (inSubRec x y cX cY i) cur acc.1.indices acc.2).2) := by
  simp [splitSub, h]

theorem splitSub_small (acc : State R × Int) (i : Nat) (h : ¬ 3 ≤ actual x y cX cY cur i) :
    splitSub log n x y b cX cY cur acc i =
      ({ indices := acc.1.indices
         stack := acc.1.stack
         MI := acc.1.MI + (if actual x y cX cY cur i > 0 then
            miTerm log n (actual x y cX cY cur i)
              (trialXstop b cX i - trialXstart b cX i + 1)
              (trialYstop b cY i - trialYstart b cY i + 1) else 0) }, acc.2) := by
  unfold splitSub
  simp only [ge_iff_le, h, if_false]
  split
  · rfl
  · simp

/-- What the loop over the sub-rectangles `is` does to the state and `ipos`. -/
theorem foldl_splitSub (is : List Nat) (his : ∀ i ∈ is, i < 4) (acc : State R × Int) :
    (is.foldl (splitSub log n x y b cX cY cur) acc).1.stack
        = (pushedRects x y b cX cY cur is acc.2).reverse ++ acc.1.stack ∧
    (is.foldl (splitSub log n x y b cX cY cur) acc).1.MI
        = acc.1.MI + foldedSum log n x y b cX cY cur is ∧
    (is.foldl (splitSub log n x y b cX cY cur) acc).2
        = acc.2 + pushedTotal x y cX cY cur is ∧
    (∀ q, q < acc.2 ∨ acc.2 + pushedTotal x y cX cY cur is ≤ q →
        (is.foldl (splitSub log n x y b cX cY cur) acc).1.indices q = acc.1.indices q) ∧
    (∀ c ∈ pushedRects x y b cX cY cur is acc.2, ∃ i ∈ is, 3 ≤ actual x y cX cY cur i ∧
        c = pushedRect b cX cY i c.DataStart (actual x y cX cY cur i) ∧
        spanList (is.foldl (splitSub log n x y b cX cY cur) acc).1.indices c.DataStart c.DataStop
          = cur.filter (inSubRec x y cX cY i)) := by
  induction is generalizing acc with
  | nil => simp [pushedRects, foldedSum, pushedTotal]
  | cons i is ih =>
    have hi : i < 4 := his i (List.mem_cons_self _ _)
    have his' : ∀ j ∈ is, j < 4 := fun j hj => his j (List.mem_cons_of_mem _ hj)
    have hnn := pushedTotal_nonneg x y cX cY cur is
    rw [List.foldl_cons]
    by_cases h3 : 3 ≤ actual x y cX cY cur i
    · have hlen := filter_inSubRec_length x y cX cY hi cur
      obtain ⟨ih1, ih2, ih3, ih4, ih5⟩ := ih his' (splitSub log n x y b cX cY cur acc i)
      rw [splitSub_push log n x y b cX cY cur acc i h3] at ih1 ih2 ih3 ih4 ih5 ⊢
      simp only [regroup_snd, hlen] at ih1 ih2 ih3 ih4 ih5 ⊢
      refine ⟨?_, ?_, ?_, ?_, ?_⟩
      · rw [ih1]; simp [pushedRects, h3]
      · rw [ih2]; simp [foldedSum, h3]
      · rw [ih3]; simp only [pushedTotal, h3, ge_iff_le, if_true]; ring
      · intro q hq
        simp only [pushedTotal, h3, ge_iff_le, if_true] at hq
        rw [ih4 q (by omega)]
        exact regroup_outside _ _ _ _ _ (by rw [hlen]; omega)
      · intro c hc
        simp only [pushedRects, h3, ge_iff_le, if_true] at hc
        rcases List.mem_cons.mp hc with rfl | hc
        · refine ⟨i, List.mem_cons_self _ _, h3, rfl, ?_⟩
          simp only [pushedRect]
          unfold spanList
          have e1 : (acc.2 + actual x y cX cY cur i - 1 - acc.2 + 1).toNat
              = (cur.filter (inSubRec x y cX cY i)).length := by omega
          rw [e1]
          refine Eq.trans (spanN_congr ?_)
            (regroup_span (inSubRec x y cX cY i) cur acc.1.indices acc.2)
          intro q hq1 hq2
          exact ih4 q (Or.inl (by omega))
        · obtain ⟨j, hj, h1, h2, h3'⟩ := ih5 c hc
          exact ⟨j, List.mem_cons_of_mem _ hj, h1, h2, h3'⟩
    · obtain ⟨ih1, ih2, ih3, ih4, ih5⟩ := ih his' (splitSub log n x y b cX cY cur acc i)
      rw [splitSub_small log n x y b cX cY cur acc i h3] at ih1 ih2 ih3 ih4 ih5 ⊢
      simp only at ih1 ih2 ih3 ih4 ih5 ⊢
      refine ⟨?_, ?_, ?_, ?_, ?_⟩
      · rw [ih1]; simp [pushedRects, h3]
      · rw [ih2]; simp only [foldedSum, ge_iff_le, h3, if_false, gt_iff_lt]; ring
      · rw [ih3]; simp only [pushedTotal, h3, ge_iff_le, if_false]; ring
      · intro q hq
        simp only [pushedTotal, h3, ge_iff_le, if_false, zero_add] at hq
        exact ih4 q hq
      · intro c hc
        simp only [pushedRects, h3, ge_iff_le, if_false] at hc
        obtain ⟨j, hj, h1, h2, h3'⟩ := ih5 c hc
        exact ⟨j, List.mem_cons_of_mem _ hj, h1, h2, h3'⟩

end Fold

/-! ### One iteration of the main loop and the rectangle invariant -/

theorem range_four : List.range 4 = [0, 1, 2, 3] := by decide

theorem mem_range_four_lt : ∀ i ∈ [0, 1, 2, 3], i < 4 := by decide

theorem RectInv.congr {x y : IntArr} {n : Nat} {a a' : IntArr} {r : Rect}
    (h : RectInv x y n a r) (hcongr : ∀ q, r.DataStart ≤ q → q ≤ r.DataStop → a' q = a q) :
    RectInv x y n a' r := by
  have e : spanList a' r.DataStart r.DataStop = spanList a r.DataStart r.DataStop :=
    spanList_congr hcongr
  exact ⟨h.xstart_nonneg, h.x_le, h.ystart_nonneg, h.y_le, h.span_le, e ▸ h.nodup,
    fun k => e ▸ h.mem_iff k⟩

theorem RectInv.length_eq {x y : IntArr} {n : Nat} {a : IntArr} {r : Rect}
    (h : RectInv x y n a r) :
    ((spanList a r.DataStart r.DataStop).length : Int) = r.DataStop - r.DataStart + 1 := by
  rw [spanList_length]
  have := h.span_le
  omega

theorem splittable_centers {x y : IntArr} {xt yt : Option IntArr} {crit : ℚ} {b : Bounds}
    {cnt : Int} {cases : List Int} (h : splittable x y xt yt crit b cnt cases = true) :
    tieCenter xt b.Xstart b.Xstop = (false, (tieCenter xt b.Xstart b.Xstop).2) ∧
    tieCenter yt b.Ystart b.Ystop = (false, (tieCenter yt b.Ystart b.Ystop).2) := by
  unfold splittable at h
  simp only at h
  split at h
  · simp at h
  · rename_i hn
    simp only [Bool.or_eq_true, not_or, Bool.not_eq_true] at hn
    constructor
    · exact Prod.ext hn.1 rfl
    · exact Prod.ext hn.2 rfl

section Step

variable {R : Type} [Field R] (log : R → R) (n : Nat) (x y : IntArr) (xt yt : Option IntArr)
  (crit : ℚ)

theorem step_leaf (r : Rect) (s : State R)
    (h : splittable x y xt yt crit r.toBounds (r.DataStop - r.DataStart + 1)
      (spanList s.indices r.DataStart r.DataStop) = false) :
    step log n x y xt yt crit r s =
      { indices := s.indices, stack := s.stack,
        MI := s.MI + miTerm log n (r.DataStop - r.DataStart + 1)
          (r.Xstop - r.Xstart + 1) (r.Ystop - r.Ystart + 1) } := by
  simp [step, h]

theorem step_split (r : Rect) (s : State R)
    (h : splittable x y xt yt crit r.toBounds (r.DataStop - r.DataStart + 1)
      (spanList s.indices r.DataStart r.DataStop) = true) :
    step log n x y xt yt crit r s =
      ([0, 1, 2, 3].foldl (splitSub log n x y r.toBounds
          (tieCenter xt r.Xstart r.Xstop).2 (tieCenter yt r.Ystart r.Ystop).2
          (spanList s.indices r.DataStart r.DataStop)) (s, r.DataStart)).1 := by
  simp [step, h, range_four]

/-- The facts about a split that the invariants need. -/
theorem step_split_spec (r : Rect) (s : State R) (hr : RectInv x y n s.indices r)
    (h : splittable x y xt yt crit r.toBounds (r.DataStop - r.DataStart + 1)
      (spanList s.indices r.DataStart r.DataStop) = true) :
    let cX := (tieCenter xt r.Xstart r.Xstop).2
    let cY := (tieCenter yt r.Ystart r.Ystop).2
    let cur := spanList s.indices r.DataStart r.DataStop
    let s' := step log n x y xt yt crit r s
    s'.stack = (pushedRects x y r.toBounds cX cY cur [0, 1, 2, 3] r.DataStart).reverse ++ s.stack ∧
    s'.MI = s.MI + foldedSum log n x y r.toBounds cX cY cur [0, 1, 2, 3] ∧
    (∀ q, q < r.DataStart ∨ r.DataStop < q → s'.indices q = s.indices q) ∧
    (∀ c ∈ pushedRects x y r.toBounds cX cY cur [0, 1, 2, 3] r.DataStart,
      RectInv x y n s'.indices c ∧ r.DataStart ≤ c.DataStart ∧ c.DataStop ≤ r.DataStop ∧
      3 ≤ c.DataStop - c.DataStart + 1 ∧
      ∃ i, i < 4 ∧ c.toBounds = trialBounds r.toBounds cX cY i) := by
  intro cX cY cur s'
  have hs' : s' = ([0, 1, 2, 3].foldl (splitSub log n x y r.toBounds cX cY cur)
      (s, r.DataStart)).1 := step_split log n x y xt yt crit r s h
  obtain ⟨f1, f2, f3, f4, f5⟩ :=
    foldl_splitSub log n x y r.toBounds cX cY cur [0, 1, 2, 3] mem_range_four_lt (s, r.DataStart)
  rw [← hs'] at f1 f2 f4 f5
  have hcen := splittable_centers h
  have hcx := tieCenter_false hr.xstart_nonneg hr.x_le hcen.1
  have hcy := tieCenter_false hr.ystart_nonneg hr.y_le hcen.2
  have hsum := actual_sum x y cX cY cur
  have hlen := hr.length_eq
  have htot : pushedTotal x y cX cY cur [0, 1, 2, 3] ≤ r.DataStop - r.DataStart + 1 := by
    have a0 := actual_nonneg x y cX cY cur 0
    have a1 := actual_nonneg x y cX cY cur 1
    have a2 := actual_nonneg x y cX cY cur 2
    have a3 := actual_nonneg x y cX cY cur 3
    rw [← hlen, ← hsum]
    simp only [pushedTotal]
    split_ifs <;> omega
  refine ⟨f1, f2, ?_, ?_⟩
  · intro q hq
    exact f4 q (by simp only at hq ⊢; omega)
  · intro c hc
    obtain ⟨i, hi, h3, hceq, hspan⟩ := f5 c hc
    obtain ⟨j, hj, _, _, hge, hle⟩ :=
      pushedRects_mem x y r.toBounds cX cY cur [0, 1, 2, 3] r.DataStart c hc
    have hi4 : i < 4 := mem_range_four_lt i hi
    have hstop : c.DataStop = c.DataStart + actual x y cX cY cur i - 1 := by
      rw [hceq]; rfl
    have hbnd : c.toBounds = trialBounds r.toBounds cX cY i := by
      rw [hceq]; rfl
    have hflen := filter_inSubRec_length x y cX cY hi4 cur
    have hmem : ∀ k, k ∈ spanList s'.indices c.DataStart c.DataStop ↔
        (0 ≤ k ∧ k < (n : Int) ∧ inBounds x y c.toBounds k = true) := by
      intro k
      rw [hspan, List.mem_filter, hr.mem_iff k, hbnd,
        inBounds_trial x y r.toBounds cX cY hi4 hcx.1 hcx.2.1 hcy.1 hcy.2.1 k,
        inSubRec_eq_quadrant x y cX cY hi4 k, Bool.and_eq_true]
      tauto
    have hne : ∃ k, k ∈ spanList s'.indices c.DataStart c.DataStop := by
      rw [hspan]
      apply List.exists_mem_of_length_pos
      have : (0 : Int) < ((cur.filter (inSubRec x y cX cY i)).length : Nat) := by
        rw [hflen]; omega
      exact_mod_cast this
    obtain ⟨k, hk⟩ := hne
    have hkb := ((hmem k).mp hk).2.2
    simp only [inBounds, Bool.and_eq_true, decide_eq_true_eq] at hkb
    have hxs : 0 ≤ c.Xstart := by
      have : c.Xstart = trialXstart r.toBounds cX i := by rw [hceq]; rfl
      rw [this]; unfold trialXstart
      have := hr.xstart_nonneg
      split <;> omega
    have hys : 0 ≤ c.Ystart := by
      have : c.Ystart = trialYstart r.toBounds cY i := by rw [hceq]; rfl
      rw [this]; unfold trialYstart
      have := hr.ystart_nonneg
      split <;> omega
    refine ⟨⟨hxs, by omega, hys, by omega, by omega, ?_, hmem⟩, hge, ?_, by omega,
      i, hi4, hbnd⟩
    · rw [hspan]
      exact hr.nodup.sublist (List.filter_sublist _)
    · have := pushedRects_mem x y r.toBounds cX cY cur [0, 1, 2, 3] r.DataStart c hc
      obtain ⟨j', _, _, hceq', _, hle'⟩ := this
      have hstop' : c.DataStop = c.DataStart + actual x y cX cY cur j' - 1 := by
        rw [hceq']; rfl
      omega

theorem step_frame (r : Rect) (s : State R) (hr : RectInv x y n s.indices r) (q : Int)
    (hq : q < r.DataStart ∨ r.DataStop < q) :
    (step log n x y xt yt crit r s).indices q = s.indices q := by
  by_cases h : splittable x y xt yt crit r.toBounds (r.DataStop - r.DataStart + 1)
      (spanList s.indices r.DataStart r.DataStop) = true
  · exact (step_split_spec log n x y xt yt crit r s hr h).2.2.1 q hq
  · rw [step_leaf log n x y xt yt crit r s (by simpa using h)]

/-- The invariant of the stack is preserved by one iteration of the main loop. -/
theorem step_StackInv (r : Rect) (rest : List Rect) (a : IntArr) (mi : R)
    (h : StackInv x y n a (r :: rest)) :
    StackInv x y n
      (step log n x y xt yt crit r { indices := a, stack := rest, MI := mi }).indices
      (step log n x y xt yt crit r { indices := a, stack := rest, MI := mi }).stack := by
  obtain ⟨hpw, hall⟩ := h
  have hr : RectInv x y n a r := hall r (List.mem_cons_self _ _)
  rw [List.pairwise_cons] at hpw
  have hrest : ∀ r' ∈ rest, RectInv x y n
      (step log n x y xt yt crit r { indices := a, stack := rest, MI := mi }).indices r' := by
    intro r' hr'
    refine (hall r' (List.mem_cons_of_mem _ hr')).congr ?_
    intro q hq1 hq2
    refine step_frame log n x y xt yt crit r _ hr q ?_
    have := hpw.1 r' hr'
    unfold SpanDisjoint at this
    omega
  by_cases hsp : splittable x y xt yt crit r.toBounds (r.DataStop - r.DataStart + 1)
      (spanList a r.DataStart r.DataStop) = true
  · obtain ⟨g1, _, _, g4⟩ := step_split_spec log n x y xt yt crit r
      { indices := a, stack := rest, MI := mi } hr hsp
    simp only at g1 g4
    refine ⟨?_, ?_⟩
    · rw [g1, List.pairwise_append]
      refine ⟨?_, hpw.2, ?_⟩
      · rw [List.pairwise_reverse]
        refine (pushedRects_pairwise x y r.toBounds _ _ _ [0, 1, 2, 3] r.DataStart).imp ?_
        intro c c' hcc
        exact Or.inr hcc
      · intro c hc r' hr'
        have hc' := g4 c (List.mem_reverse.mp hc)
        have := hpw.1 r' hr'
        unfold SpanDisjoint at this ⊢
        omega
    · intro c hc
      rw [g1, List.mem_append] at hc
      rcases hc with hc | hc
      · exact (g4 c (List.mem_reverse.mp hc)).1
      · exact hrest c hc
  · have hsp' : splittable x y xt yt crit r.toBounds (r.DataStop - r.DataStart + 1)
        (spanList a r.DataStart r.DataStop) = false := by simpa using hsp
    have e := step_leaf log n x y xt yt crit r { indices := a, stack := rest, MI := mi } hsp'
    refine ⟨?_, ?_⟩
    · rw [e]; exact hpw.2
    · intro c hc
      rw [e] at hc
      exact hrest c hc

end Step

/-! ### Rank permutations and the root rectangle -/

theorem IsRankPerm.range {x : IntArr} {n : Nat} (h : IsRankPerm x n) {k : Int} (h0 : 0 ≤ k)
    (hn : k < (n : Int)) : 0 ≤ x k ∧ x k < (n : Int) := by
  have hm : x k ∈ (List.range n).map (fun (j : Nat) => x (j : Int)) := by
    refine List.mem_map.mpr ⟨k.toNat, List.mem_range.mpr (by omega), ?_⟩
    congr 1; omega
  have := (List.Perm.mem_iff h).mp hm
  obtain ⟨j, hj, hje⟩ := List.mem_map.mp this
  rw [List.mem_range] at hj
  omega

theorem IsRankPerm.inj {x : IntArr} {n : Nat} (h : IsRankPerm x n) {k k' : Int} (h0 : 0 ≤ k)
    (hn : k < (n : Int)) (h0' : 0 ≤ k') (hn' : k' < (n : Int)) (he : x k = x k') : k = k' := by
  have hnd : ((List.range n).map (fun (j : Nat) => x (j : Int))).Nodup := by
    rw [List.Perm.nodup_iff h]
    refine List.Nodup.map_on ?_ (List.nodup_range n)
    intro a _ b _ hab
    exact_mod_cast hab
  have := List.inj_on_of_nodup_map hnd (x := k.toNat) (List.mem_range.mpr (by omega))
    (y := k'.toNat) (List.mem_range.mpr (by omega))
    (by rw [Int.toNat_of_nonneg h0, Int.toNat_of_nonneg h0']; exact he)
  omega

theorem rootRect_inv {x y : IntArr} {n : Nat} (hn : 1 ≤ n) (hx : IsRankPerm x n)
    (hy : IsRankPerm y n) : RectInv x y n (fun i => i) (rootRect n) := by
  have hspan : ∀ k, k ∈ spanList (fun i => i) (rootRect n).DataStart (rootRect n).DataStop ↔
      (0 ≤ k ∧ k < (n : Int)) := by
    intro k
    rw [mem_spanList]
    simp only [rootRect]
    constructor
    · rintro ⟨q, h1, h2, rfl⟩; omega
    · rintro ⟨h1, h2⟩; exact ⟨k, h1, by omega, rfl⟩
  refine ⟨le_refl _, ?_, le_refl _, ?_, ?_, ?_, ?_⟩
  · simp only [rootRect]; omega
  · simp only [rootRect]; omega
  · simp only [rootRect]; omega
  · unfold spanList spanN
    refine List.Nodup.map_on ?_ (List.nodup_range _)
    intro a _ b _ hab
    simp only [rootRect] at hab
    omega
  · intro k
    rw [hspan]
    constructor
    · rintro ⟨h1, h2⟩
      have := hx.range h1 h2
      have := hy.range h1 h2
      refine ⟨h1, h2, ?_⟩
      simp only [inBounds, rootRect, Bool.and_eq_true, decide_eq_true_eq]
      omega
    · rintro ⟨h1, h2, _⟩
      exact ⟨h1, h2⟩

theorem casesIn_nodup (x y : IntArr) (n : Nat) (b : Bounds) : (casesIn x y n b).Nodup := by
  unfold casesIn
  refine List.Nodup.filter _ ?_
  refine List.Nodup.map_on ?_ (List.nodup_range n)
  intro a _ c _ hac
  exact_mod_cast hac

theorem mem_casesIn {x y : IntArr} {n : Nat} {b : Bounds} {k : Int} :
    k ∈ casesIn x y n b ↔ (0 ≤ k ∧ k < (n : Int) ∧ inBounds x y b k = true) := by
  unfold casesIn
  rw [List.mem_filter, List.mem_map]
  constructor
  · rintro ⟨⟨j, hj, rfl⟩, hb⟩
    rw [List.mem_range] at hj
    exact ⟨by omega, by omega, hb⟩
  · rintro ⟨h0, hn, hb⟩
    exact ⟨⟨k.toNat, List.mem_range.mpr (by omega), by omega⟩, hb⟩

/-- Under the rectangle invariant the span is a rearrangement of the cases
inside the bounds. -/
theorem RectInv.perm_casesIn {x y : IntArr} {n : Nat} {a : IntArr} {r : Rect}
    (h : RectInv x y n a r) :
    (spanList a r.DataStart r.DataStop).Perm (casesIn x y n r.toBounds) := by
  rw [List.perm_ext_iff_of_nodup h.nodup (casesIn_nodup x y n r.toBounds)]
  intro k
  rw [h.mem_iff k, mem_casesIn]

theorem RectInv.count_eq {x y : IntArr} {n : Nat} {a : IntArr} {r : Rect}
    (h : RectInv x y n a r) :
    r.DataStop - r.DataStart + 1 = ((casesIn x y n r.toBounds).length : Int) := by
  rw [← h.length_eq, h.perm_casesIn.length_eq]

/-- A rectangle holding two cases or more has more than one X rank. -/
theorem RectInv.x_lt {x y : IntArr} {n : Nat} {a : IntArr} {r : Rect}
    (h : RectInv x y n a r) (hx : IsRankPerm x n) (h2 : 2 ≤ r.DataStop - r.DataStart + 1) :
    r.Xstart < r.Xstop := by
  have hlen := h.length_eq
  have hnd := h.nodup
  have hmem := h.mem_iff
  generalize spanList a r.DataStart r.DataStop = l at hlen hnd hmem
  match l, hlen, hnd, hmem with
  | [], hlen, _, _ => simp at hlen; omega
  | [_], hlen, _, _ => simp at hlen; omega
  | k1 :: k2 :: _, _, hnd, hmem =>
    have m1 := (hmem k1).mp (List.mem_cons_self _ _)
    have m2 := (hmem k2).mp (List.mem_cons_of_mem _ (List.mem_cons_self _ _))
    have hne : k1 ≠ k2 := by
      intro he
      rw [List.nodup_cons] at hnd
      exact hnd.1 (he ▸ List.mem_cons_self _ _)
    have hxne : x k1 ≠ x k2 := fun he => hne (hx.inj m1.1 m1.2.1 m2.1 m2.2.1 he)
    have b1 := m1.2.2
    have b2 := m2.2.2
    simp only [inBounds, Bool.and_eq_true, decide_eq_true_eq] at b1 b2
    omega

/-- The count of sub-rectangle `i` is the number of cases inside its bounds. -/
theorem RectInv.actual_eq {x y : IntArr} {n : Nat} {a : IntArr} {r : Rect}
    (h : RectInv x y n a r) {cX cY : Int} {i : Nat} (hi : i < 4)
    (hx1 : r.Xstart ≤ cX) (hx2 : cX ≤ r.Xstop) (hy1 : r.Ystart ≤ cY) (hy2 : cY ≤ r.Ystop) :
    actual x y cX cY (spanList a r.DataStart r.DataStop) i
      = ((casesIn x y n (trialBounds r.toBounds cX cY i)).length : Int) := by
  rw [actual_perm x y cX cY h.perm_casesIn i]
  unfold actual casesIn
  rw [List.countP_eq_length_filter, List.filter_filter]
  congr 2
  refine List.filter_congr ?_
  intro k _
  rw [inBounds_trial x y r.toBounds cX cY hi hx1 hx2 hy1 hy2 k, Bool.and_comm]

/-! ### The invariant along the run of the main loop -/

section Run

variable {R : Type} [Field R] (log : R → R) (n : Nat) (x y : IntArr) (xt yt : Option IntArr)
  (crit : ℚ)

theorem loopState_StackInv (k : Nat) (s : State R) (h : StackInv x y n s.indices s.stack) :
    StackInv x y n (loopState log n x y xt yt crit k s).indices
      (loopState log n x y xt yt crit k s).stack := by
  induction k generalizing s with
  | zero => exact h
  | succ k ih =>
    unfold loopState
    split
    · exact h
    · rename_i r rest hst
      refine ih _ ?_
      rw [hst] at h
      exact step_StackInv log n x y xt yt crit r rest s.indices s.MI h

theorem initState_StackInv (hn : 1 ≤ n) (hx : IsRankPerm x n) (hy : IsRankPerm y n) :
    StackInv x y n (initState (R := R) n).indices (initState (R := R) n).stack := by
  refine ⟨by simp [initState], ?_⟩
  intro r hr
  simp only [initState, List.mem_singleton] at hr
  subst hr
  exact rootRect_inv hn hx hy

end Run

/-! ### The stack-driven loop against the depth-first recursion -/

theorem sumOpt_cons_some {R : Type} [Add R] [Zero R] (v w : R) (l : List (Option R))
    (h : sumOpt l = some w) : sumOpt (some v :: l) = some (v + w) := by
  simp [sumOpt, h]

section Sim

variable {R : Type} [Field R] (log : R → R) (n : Nat) (x y : IntArr) (xt yt : Option IntArr)
  (crit : ℚ)

theorem mut_inf_loop_nil (fuel : Nat) (a : IntArr) (mi : R) :
    mut_inf_loop log n x y xt yt crit fuel { indices := a, stack := [], MI := mi } = some mi := by
  unfold mut_inf_loop; rfl

theorem mut_inf_loop_cons (fuel : Nat) (a : IntArr) (r : Rect) (rest : List Rect) (mi : R) :
    mut_inf_loop log n x y xt yt crit (fuel + 1) { indices := a, stack := r :: rest, MI := mi }
      = mut_inf_loop log n x y xt yt crit fuel
          (step log n x y xt yt crit r { indices := a, stack := rest, MI := mi }) := by
  rw [mut_inf_loop]

theorem RunsTo.nil (a : IntArr) : RunsTo log n x y xt yt crit 0 a [] a (0 : R) := by
  intro rest mi f
  simp

theorem RunsTo.cons {j J : Nat} {a a1 a2 : IntArr} {c : Rect} {cs : List Rect} {v V : R}
    (h1 : RunsTo log n x y xt yt crit j a [c] a1 v)
    (h2 : RunsTo log n x y xt yt crit J a1 cs a2 V) :
    RunsTo log n x y xt yt crit (j + J) a (c :: cs) a2 (v + V) := by
  intro rest mi f
  have e1 := h1 (cs ++ rest) mi (J + f)
  have e2 := h2 rest (mi + v) f
  rw [show j + J + f = j + (J + f) by ring, show c :: cs ++ rest = [c] ++ (cs ++ rest) by simp,
    e1, e2, add_assoc]

/-- Running a list of stacked rectangles, given that every rectangle of X
extent below `d` runs as the recursion of depth `d` says. -/
theorem run_children (d : Nat)
    (IH : ∀ (r : Rect) (a : IntArr), RectInv x y n a r → r.Xstop - r.Xstart < (d : Int) →
      ∃ (v : R) (j : Nat) (a' : IntArr), j ≤ fuelBound d ∧
        MI_rec log n x y xt yt crit d r.toBounds = some v ∧
        (∀ q, q < r.DataStart ∨ r.DataStop < q → a' q = a q) ∧
        RunsTo log n x y xt yt crit j a [r] a' v)
    (cs : List Rect) (a : IntArr)
    (hcs : ∀ c ∈ cs, RectInv x y n a c ∧ c.Xstop - c.Xstart < (d : Int))
    (hpw : cs.Pairwise SpanDisjoint) :
    ∃ (vs : List R) (J : Nat) (a' : IntArr), J ≤ cs.length * fuelBound d ∧
      List.Forall₂ (fun c v => MI_rec log n x y xt yt crit d c.toBounds = some v) cs vs ∧
      (∀ q, (∀ c ∈ cs, q < c.DataStart ∨ c.DataStop < q) → a' q = a q) ∧
      RunsTo log n x y xt yt crit J a cs a' vs.sum := by
  induction cs generalizing a with
  | nil =>
    exact ⟨[], 0, a, by simp, List.Forall₂.nil, fun _ _ => rfl, by
      simpa using RunsTo.nil log n x y xt yt crit a⟩
  | cons c cs ih =>
    obtain ⟨hc, hcd⟩ := hcs c (List.mem_cons_self _ _)
    rw [List.pairwise_cons] at hpw
    obtain ⟨v, j, a1, hj, hv, hframe, hrun⟩ := IH c a hc hcd
    have hcs1 : ∀ c' ∈ cs, RectInv x y n a1 c' ∧ c'.Xstop - c'.Xstart < (d : Int) := by
      intro c' hc'
      obtain ⟨h1, h2⟩ := hcs c' (List.mem_cons_of_mem _ hc')
      refine ⟨h1.congr ?_, h2⟩
      intro q hq1 hq2
      refine hframe q ?_
      have := hpw.1 c' hc'
      unfold SpanDisjoint at this
      omega
    obtain ⟨vs, J, a2, hJ, hF, hframe2, hrun2⟩ := ih a1 hcs1 hpw.2
    refine ⟨v :: vs, j + J, a2, ?_, List.Forall₂.cons hv hF, ?_, ?_⟩
    · simp only [List.length_cons, Nat.succ_mul]; omega
    · intro q hq
      rw [hframe2 q (fun c' hc' => hq c' (List.mem_cons_of_mem _ hc')),
        hframe q (hq c (List.mem_cons_self _ _))]
    · rw [List.sum_cons]
      exact RunsTo.cons log n x y xt yt crit hrun hrun2

/-- The sum over the sub-rectangles in the recursion, from the values of the
pushed sub-rectangles. -/
theorem sumOpt_children (d : Nat) (b : Bounds) (cX cY : Int) (cur : List Int)
    (hact : ∀ i, i < 4 → actual x y cX cY cur i
      = ((casesIn x y n (trialBounds b cX cY i)).length : Int))
    (is : List Nat) (his : ∀ i ∈ is, i < 4) (ipos : Int) (vs : List R)
    (hF : List.Forall₂ (fun c v => MI_rec log n x y xt yt crit d c.toBounds = some v)
      (pushedRects x y b cX cY cur is ipos) vs) :
    sumOpt (is.map (fun i =>
        if ((casesIn x y n (trialBounds b cX cY i)).length : Int) ≥ 3 then
          MI_rec log n x y xt yt crit d (trialBounds b cX cY i)
        else if ((casesIn x y n (trialBounds b cX cY i)).length : Int) > 0 then
          some (miTerm log n ((casesIn x y n (trialBounds b cX cY i)).length : Int)
            ((trialBounds b cX cY i).Xstop - (trialBounds b cX cY i).Xstart + 1)
            ((trialBounds b cX cY i).Ystop - (trialBounds b cX cY i).Ystart + 1))
        else some 0))
      = some (foldedSum log n x y b cX cY cur is + vs.sum) := by
  induction is generalizing ipos vs with
  | nil =>
    simp only [pushedRects, List.forall₂_nil_left_iff] at hF
    subst hF
    simp [sumOpt, foldedSum]
  | cons i is ih =>
    have hi : i < 4 := his i (List.mem_cons_self _ _)
    have his' : ∀ j ∈ is, j < 4 := fun j hj => his j (List.mem_cons_of_mem _ hj)
    rw [List.map_cons]
    simp only [← hact i hi]
    by_cases h3 : 3 ≤ actual x y cX cY cur i
    · simp only [pushedRects, ge_iff_le, h3, if_true] at hF
      obtain ⟨v, vs', hv, hF', rfl⟩ := List.forall₂_cons_left_iff.mp hF
      have hrec := ih his' _ vs' hF'
      have hv' : MI_rec log n x y xt yt crit d (trialBounds b cX cY i) = some v := hv
      simp only [ge_iff_le, h3, if_true, hv']
      rw [sumOpt_cons_some v _ _ hrec]
      simp only [foldedSum, ge_iff_le, h3, if_true, List.sum_cons]
      congr 1; ring
    · simp only [pushedRects, ge_iff_le, h3, if_false] at hF
      have hrec := ih his' _ vs hF
      simp only [ge_iff_le, h3, if_false]
      by_cases h0 : actual x y cX cY cur i > 0
      · simp only [h0, if_true]
        rw [sumOpt_cons_some _ _ _ hrec]
        simp only [foldedSum, ge_iff_le, h3, if_false, h0, if_true, trialBounds]
        congr 1; ring
      · simp only [h0, if_false]
        rw [sumOpt_cons_some _ _ _ hrec]
        simp only [foldedSum, ge_iff_le, h3, if_false, h0]
        congr 1; ring

end Sim

section FoldIndices

variable {R : Type} [Field R] (log : R → R) (n : Nat) (x y : IntArr) (b : Bounds)
  (cX cY : Int) (cur : List Int)

/-- The array `indices` and `ipos` after the loop over the sub-rectangles do
not depend on the stack nor on the accumulator. -/
theorem foldl_splitSub_indices (is : List Nat) (acc acc' : State R × Int)
    (h1 : acc.1.indices = acc'.1.indices) (h2 : acc.2 = acc'.2) :
    (is.foldl (splitSub log n x y b cX cY cur) acc).1.indices
        = (is.foldl (splitSub log n x y b cX cY cur) acc').1.indices ∧
    (is.foldl (splitSub log n x y b cX cY cur) acc).2
        = (is.foldl (splitSub log n x y b cX cY cur) acc').2 := by
  induction is generalizing acc acc' with
  | nil => exact ⟨h1, h2⟩
  | cons i is ih =>
    rw [List.foldl_cons, List.foldl_cons]
    refine ih _ _ ?_ ?_
    · by_cases h3 : 3 ≤ actual x y cX cY cur i
      · rw [splitSub_push log n x y b cX cY cur acc i h3,
          splitSub_push log n x y b cX cY cur acc' i h3, h1, h2]
      · rw [splitSub_small log n x y b cX cY cur acc i h3,
          splitSub_small log n x y b cX cY cur acc' i h3]
        exact h1
    · by_cases h3 : 3 ≤ actual x y cX cY cur i
      · rw [splitSub_push log n x y b cX cY cur acc i h3,
          splitSub_push log n x y b cX cY cur acc' i h3, h1, h2]
      · rw [splitSub_small log n x y b cX cY cur acc i h3,
          splitSub_small log n x y b cX cY cur acc' i h3]
        exact h2

end FoldIndices


section SplitState

variable {R : Type} [Field R] (log : R → R) (n : Nat) (x y : IntArr) (xt yt : Option IntArr)
  (crit : ℚ)

omit [Field R] in
theorem State.ext_fields (s t : State R) (h1 : s.indices = t.indices) (h2 : s.stack = t.stack)
    (h3 : s.MI = t.MI) : s = t := by
  cases s; cases t
  simp only at h1 h2 h3
  subst h1; subst h2; subst h3
  rfl

/-- The state after a split: the new `indices` do not depend on the stack nor
on the accumulator, the pushed rectangles go on top of the stack and the folded
contributions are added. -/
theorem step_split_state (r : Rect) (a : IntArr)
    (hsp : splittable x y xt yt crit r.toBounds (r.DataStop - r.DataStart + 1)
      (spanList a r.DataStart r.DataStop) = true) (rest : List Rect) (mi : R) :
    step log n x y xt yt crit r { indices := a, stack := rest, MI := mi }
      = { indices := (step log n x y xt yt crit r
            { indices := a, stack := ([] : List Rect), MI := (0 : R) }).indices
          stack := (pushedRects x y r.toBounds (tieCenter xt r.Xstart r.Xstop).2
            (tieCenter yt r.Ystart r.Ystop).2 (spanList a r.DataStart r.DataStop)
            [0, 1, 2, 3] r.DataStart).reverse ++ rest
          MI := mi + foldedSum log n x y r.toBounds (tieCenter xt r.Xstart r.Xstop).2
            (tieCenter yt r.Ystart r.Ystop).2 (spanList a r.DataStart r.DataStop)
            [0, 1, 2, 3] } := by
  have e1 := step_split log n x y xt yt crit r { indices := a, stack := rest, MI := mi } hsp
  have e2 := step_split log n x y xt yt crit r
    { indices := a, stack := ([] : List Rect), MI := (0 : R) } hsp
  have f := foldl_splitSub log n x y r.toBounds
    (tieCenter xt r.Xstart r.Xstop).2 (tieCenter yt r.Ystart r.Ystop).2
    (spanList a r.DataStart r.DataStop) [0, 1, 2, 3] mem_range_four_lt
    ({ indices := a, stack := rest, MI := mi }, r.DataStart)
  have f3 := foldl_splitSub_indices log n x y r.toBounds
    (tieCenter xt r.Xstart r.Xstop).2 (tieCenter yt r.Ystart r.Ystop).2
    (spanList a r.DataStart r.DataStop) [0, 1, 2, 3]
    ({ indices := a, stack := rest, MI := mi }, r.DataStart)
    ({ indices := a, stack := ([] : List Rect), MI := (0 : R) }, r.DataStart) rfl rfl
  refine State.ext_fields _ _ ?_ ?_ ?_
  · show (step log n x y xt yt crit r { indices := a, stack := rest, MI := mi }).indices
      = (step log n x y xt yt crit r
          { indices := a, stack := ([] : List Rect), MI := (0 : R) }).indices
    rw [e1, e2]
    exact f3.1
  · show (step log n x y xt yt crit r { indices := a, stack := rest, MI := mi }).stack = _
    rw [e1]
    exact f.1
  · show (step log n x y xt yt crit r { indices := a, stack := rest, MI := mi }).MI = _
    rw [e1]
    exact f.2.1

end SplitState

section Main

variable {R : Type} [Field R] (log : R → R) (n : Nat) (x y : IntArr) (xt yt : Option IntArr)
  (crit : ℚ)

theorem MI_rec_leaf (d : Nat) (b : Bounds)
    (h : splittable x y xt yt crit b ((casesIn x y n b).length : Int) (casesIn x y n b) = false) :
    MI_rec log n x y xt yt crit (d + 1) b
      = some (miTerm log n ((casesIn x y n b).length : Int)
          (b.Xstop - b.Xstart + 1) (b.Ystop - b.Ystart + 1)) := by
  simp [MI_rec, h]

theorem MI_rec_split (d : Nat) (b : Bounds)
    (h : splittable x y xt yt crit b ((casesIn x y n b).length : Int) (casesIn x y n b) = true) :
    MI_rec log n x y xt yt crit (d + 1) b
      = sumOpt ([0, 1, 2, 3].map (fun i =>
        if ((casesIn x y n (trialBounds b (tieCenter xt b.Xstart b.Xstop).2
            (tieCenter yt b.Ystart b.Ystop).2 i)).length : Int) ≥ 3 then
          MI_rec log n x y xt yt crit d (trialBounds b (tieCenter xt b.Xstart b.Xstop).2
            (tieCenter yt b.Ystart b.Ystop).2 i)
        else if ((casesIn x y n (trialBounds b (tieCenter xt b.Xstart b.Xstop).2
            (tieCenter yt b.Ystart b.Ystop).2 i)).length : Int) > 0 then
          some (miTerm log n ((casesIn x y n (trialBounds b (tieCenter xt b.Xstart b.Xstop).2
              (tieCenter yt b.Ystart b.Ystop).2 i)).length : Int)
            ((trialBounds b (tieCenter xt b.Xstart b.Xstop).2
              (tieCenter yt b.Ystart b.Ystop).2 i).Xstop
              - (trialBounds b (tieCenter xt b.Xstart b.Xstop).2
              (tieCenter yt b.Ystart b.Ystop).2 i).Xstart + 1)
            ((trialBounds b (tieCenter xt b.Xstart b.Xstop).2
              (tieCenter yt b.Ystart b.Ystop).2 i).Ystop
              - (trialBounds b (tieCenter xt b.Xstart b.Xstop).2
              (tieCenter yt b.Ystart b.Ystop).2 i).Ystart + 1))
        else some 0)) := by
  simp only [MI_rec, h, if_true, range_four]

/-- A stacked rectangle of X extent below `d` that satisfies the rectangle
invariant is processed, with all its descendants, in at most `fuelBound d`
iterations; the accumulator grows by the value of the recursion, and `indices`
changes only inside the span of the rectangle. -/
theorem sim_rect (hx : IsRankPerm x n) (d : Nat) :
    ∀ (r : Rect) (a : IntArr), RectInv x y n a r → r.Xstop - r.Xstart < (d : Int) →
      ∃ (v : R) (j : Nat) (a' : IntArr), j ≤ fuelBound d ∧
        MI_rec log n x y xt yt crit d r.toBounds = some v ∧
        (∀ q, q < r.DataStart ∨ r.DataStop < q → a' q = a q) ∧
        RunsTo log n x y xt yt crit j a [r] a' v := by
  induction d with
  | zero =>
    intro r a hr hd
    have := hr.x_le
    omega
  | succ d ih =>
    intro r a hr hd
    have hperm := hr.perm_casesIn
    have hcnt := hr.count_eq
    have hspl : splittable x y xt yt crit r.toBounds ((casesIn x y n r.toBounds).length : Int)
        (casesIn x y n r.toBounds)
        = splittable x y xt yt crit r.toBounds (r.DataStop - r.DataStart + 1)
          (spanList a r.DataStart r.DataStop) := by
      rw [hcnt, splittable_perm x y xt yt crit r.toBounds _ hperm]
    by_cases hsp : splittable x y xt yt crit r.toBounds (r.DataStop - r.DataStart + 1)
        (spanList a r.DataStart r.DataStop) = true
    · -- the rectangle is split
      have hcen := splittable_centers hsp
      have hcx := tieCenter_false hr.xstart_nonneg hr.x_le hcen.1
      have hcy := tieCenter_false hr.ystart_nonneg hr.y_le hcen.2
      obtain ⟨g1, g2, g3, g4⟩ := step_split_spec log n x y xt yt crit r
        { indices := a, stack := ([] : List Rect), MI := (0 : R) } hr hsp
      simp only at g1 g2 g3 g4
      have hstep := step_split_state log n x y xt yt crit r a hsp
      generalize hps : pushedRects x y r.toBounds (tieCenter xt r.Xstart r.Xstop).2
          (tieCenter yt r.Ystart r.Ystop).2 (spanList a r.DataStart r.DataStop)
          [0, 1, 2, 3] r.DataStart = ps at g1 g4 hstep
      generalize ha1 : (step log n x y xt yt crit r
          { indices := a, stack := ([] : List Rect), MI := (0 : R) }).indices = a1 at g3 g4 hstep
      have hpl : ps.length ≤ 4 := by
        rw [← hps]
        exact pushedRects_length x y r.toBounds _ _ _ [0, 1, 2, 3] r.DataStart
      have hcs : ∀ c ∈ ps.reverse, RectInv x y n a1 c ∧ c.Xstop - c.Xstart < (d : Int) := by
        intro c hc
        obtain ⟨h1, h2, h3, h4, i, hi, hb⟩ := g4 c (List.mem_reverse.mp hc)
        refine ⟨h1, ?_⟩
        have hlt : r.Xstart < r.Xstop := hr.x_lt hx (by omega)
        have hcl := hcx.2.2.1 hlt
        have e1 : c.Xstart = trialXstart r.toBounds (tieCenter xt r.Xstart r.Xstop).2 i := by
          have := congrArg Bounds.Xstart hb; exact this
        have e2 : c.Xstop = trialXstop r.toBounds (tieCenter xt r.Xstart r.Xstop).2 i := by
          have := congrArg Bounds.Xstop hb; exact this
        rw [e1, e2]
        unfold trialXstart trialXstop
        have := hcx.1
        push_cast at hd
        split <;> omega
      have hpw : ps.reverse.Pairwise SpanDisjoint := by
        rw [List.pairwise_reverse, ← hps]
        refine (pushedRects_pairwise x y r.toBounds _ _ _ [0, 1, 2, 3] r.DataStart).imp ?_
        intro c c' hcc
        exact Or.inr hcc
      obtain ⟨vs, J, a2, hJ, hF, hframe, hrun⟩ :=
        run_children log n x y xt yt crit d ih ps.reverse a1 hcs hpw
      refine ⟨foldedSum log n x y r.toBounds (tieCenter xt r.Xstart r.Xstop).2
          (tieCenter yt r.Ystart r.Ystop).2 (spanList a r.DataStart r.DataStop) [0, 1, 2, 3]
          + vs.sum, 1 + J, a2, ?_, ?_, ?_, ?_⟩
      · simp only [fuelBound]
        rw [List.length_reverse] at hJ
        have : ps.length * fuelBound d ≤ 4 * fuelBound d := Nat.mul_le_mul_right _ hpl
        omega
      · rw [MI_rec_split log n x y xt yt crit d r.toBounds (by rw [hspl]; exact hsp)]
        have hF' := List.forall₂_reverse_iff.mpr hF
        rw [List.reverse_reverse, ← hps] at hF'
        have := sumOpt_children log n x y xt yt crit d r.toBounds
          (tieCenter xt r.Xstart r.Xstop).2 (tieCenter yt r.Ystart r.Ystop).2
          (spanList a r.DataStart r.DataStop)
          (fun i hi => hr.actual_eq hi hcx.1 hcx.2.1 hcy.1 hcy.2.1)
          [0, 1, 2, 3] mem_range_four_lt r.DataStart vs.reverse hF'
        rw [this, List.sum_reverse]
      · intro q hq
        rw [hframe q ?_, g3 q hq]
        intro c hc
        obtain ⟨_, h2, h3, _⟩ := g4 c (List.mem_reverse.mp hc)
        omega
      · intro rest mi f
        rw [show 1 + J + f = (J + f) + 1 by ring, List.singleton_append, mut_inf_loop_cons,
          hstep rest mi, hrun rest _ f, add_assoc]
    · -- the rectangle is a leaf
      have hsp' : splittable x y xt yt crit r.toBounds (r.DataStop - r.DataStart + 1)
          (spanList a r.DataStart r.DataStop) = false := by simpa using hsp
      refine ⟨miTerm log n ((casesIn x y n r.toBounds).length : Int)
          (r.Xstop - r.Xstart + 1) (r.Ystop - r.Ystart + 1), 1, a, ?_, ?_, fun _ _ => rfl, ?_⟩
      · simp [fuelBound]
      · exact MI_rec_leaf log n x y xt yt crit d r.toBounds (by rw [hspl]; exact hsp')
      · intro rest mi f
        rw [show 1 + f = f + 1 by ring, List.singleton_append, mut_inf_loop_cons,
          step_leaf log n x y xt yt crit r { indices := a, stack := rest, MI := mi } hsp', hcnt]

end Main

/-! ### The rank transform -/

theorem rankFold_succ (sorted : List (ℚ × Int)) (n : Nat) (rt : Bool) (m : Nat) :
    rankFold sorted n rt (m + 1) = rankStep sorted n rt (rankFold sorted n rt m) m := by
  simp [rankFold, List.range_succ, List.foldl_append]

theorem rankLoop_eq_rankFold (sorted : List (ℚ × Int)) (n : Nat) (rt : Bool) :
    rankLoop sorted n rt = rankFold sorted n rt n := rfl

theorem rankStep_fst (sorted : List (ℚ × Int)) (n : Nat) (rt : Bool) (acc : IntArr × IntArr)
    (i : Nat) :
    (rankStep sorted n rt acc i).1 = Function.update acc.1 (indexAt sorted i) (i : Int) := by
  unfold rankStep
  simp only
  split
  · rfl
  · split <;> rfl

theorem rankStep_snd_true (sorted : List (ℚ × Int)) (n : Nat) (acc : IntArr × IntArr) (i : Nat) :
    (rankStep sorted n true acc i).2
      = Function.update acc.2 (i : Int) (if tieTest sorted n i then 1 else 0) := by
  unfold rankStep
  simp only [Bool.not_true, Bool.false_eq_true, if_false]
  split <;> rfl

/-- After `m` passes the rank of the case sorted to position `i < m` is `i`,
when the sorted indices are distinct. -/
theorem rankFold_fst (sorted : List (ℚ × Int)) (n : Nat) (rt : Bool) (m : Nat)
    (hinj : ∀ i j, i < m → j < m → indexAt sorted i = indexAt sorted j → i = j)
    (i : Nat) (hi : i < m) : (rankFold sorted n rt m).1 (indexAt sorted i) = (i : Int) := by
  induction m with
  | zero => omega
  | succ m ih =>
    rw [rankFold_succ, rankStep_fst]
    by_cases him : i = m
    · subst him; exact Function.update_same _ _ _
    · have hne : indexAt sorted i ≠ indexAt sorted m := by
        intro he
        exact him (hinj i m hi (by omega) he)
      rw [Function.update_noteq hne]
      exact ih (fun a b ha hb => hinj a b (by omega) (by omega)) (by omega)

/-- The tie flags after `m` passes. -/
theorem rankFold_snd (sorted : List (ℚ × Int)) (n : Nat) (m : Nat) (q : Int) :
    (rankFold sorted n true m).2 q
      = if 0 ≤ q ∧ q < (m : Int) ∧ tieTest sorted n q.toNat = true then 1 else 0 := by
  induction m with
  | zero =>
    simp only [rankFold, List.range_zero, List.foldl_nil, uninit]
    rw [if_neg]
    rintro ⟨h1, h2, _⟩
    simp at h2
    omega
  | succ m ih =>
    rw [rankFold_succ, rankStep_snd_true]
    by_cases hq : q = (m : Int)
    · subst hq
      rw [Function.update_same]
      simp
    · rw [Function.update_noteq hq, ih]
      have : (q < ((m + 1 : Nat) : Int)) ↔ q < (m : Int) := by
        push_cast; omega
      simp only [this]

theorem indexAt_eq (sorted : List (ℚ × Int)) {i : Nat} (hi : i < sorted.length) :
    indexAt sorted i = sorted[i].2 := by
  unfold indexAt
  rw [List.getD_eq_getElem _ _ hi]

theorem workAt_eq (sorted : List (ℚ × Int)) {i : Nat} (hi : i < sorted.length) :
    workAt sorted i = sorted[i].1 := by
  unfold workAt
  rw [List.getD_eq_getElem _ _ hi]

theorem loadPairs_length (n : Nat) (vals : List ℚ) : (loadPairs n vals).length = n := by
  simp [loadPairs]

theorem loadPairs_map_snd (n : Nat) (vals : List ℚ) :
    (loadPairs n vals).map Prod.snd = (List.range n).map (fun (k : Nat) => (k : Int)) := by
  simp [loadPairs, List.map_map, Function.comp]

theorem rangeCast_nodup (n : Nat) : ((List.range n).map (fun (k : Nat) => (k : Int))).Nodup := by
  refine List.Nodup.map_on ?_ (List.nodup_range n)
  intro a _ b _ hab
  exact_mod_cast hab

theorem IsSortedLoad.sorted_length {sorted : List (ℚ × Int)} {n : Nat} {vals : List ℚ}
    (h : IsSortedLoad sorted n vals) : sorted.length = n := by
  rw [h.perm.length_eq, loadPairs_length]

/-- Every sorted position holds a loaded pair. -/
theorem IsSortedLoad.elem {sorted : List (ℚ × Int)} {n : Nat} {vals : List ℚ}
    (h : IsSortedLoad sorted n vals) {i : Nat} (hi : i < n) :
    ∃ j : Nat, j < n ∧ indexAt sorted i = (j : Int) ∧ workAt sorted i = vals.getD j 0 := by
  have hl := h.sorted_length
  have hi' : i < sorted.length := by omega
  have hm : sorted[i] ∈ loadPairs n vals :=
    (h.perm.mem_iff).mp (List.getElem_mem _)
  unfold loadPairs at hm
  obtain ⟨j, hj, hje⟩ := List.mem_map.mp hm
  rw [List.mem_range] at hj
  refine ⟨j, hj, ?_, ?_⟩
  · rw [indexAt_eq sorted hi', ← hje]
  · rw [workAt_eq sorted hi', ← hje]

theorem IsSortedLoad.index_inj {sorted : List (ℚ × Int)} {n : Nat} {vals : List ℚ}
    (h : IsSortedLoad sorted n vals) {i j : Nat} (hi : i < n) (hj : j < n)
    (he : indexAt sorted i = indexAt sorted j) : i = j := by
  have hl := h.sorted_length
  have hnd : (sorted.map Prod.snd).Nodup := by
    rw [(h.perm.map Prod.snd).nodup_iff, loadPairs_map_snd]
    exact rangeCast_nodup n
  have hi' : i < (sorted.map Prod.snd).length := by simp; omega
  have hj' : j < (sorted.map Prod.snd).length := by simp; omega
  refine (@List.Nodup.getElem_inj_iff _ _ hnd i hi' j hj').mp ?_
  rw [indexAt_eq sorted (by omega : i < sorted.length),
    indexAt_eq sorted (by omega : j < sorted.length)] at he
  simpa using he

theorem IsSortedLoad.index_surj {sorted : List (ℚ × Int)} {n : Nat} {vals : List ℚ}
    (h : IsSortedLoad sorted n vals) {k : Nat} (hk : k < n) :
    ∃ i : Nat, i < n ∧ indexAt sorted i = (k : Int) := by
  have hl := h.sorted_length
  have hm : (k : Int) ∈ sorted.map Prod.snd := by
    rw [(h.perm.map Prod.snd).mem_iff, loadPairs_map_snd]
    exact List.mem_map.mpr ⟨k, List.mem_range.mpr hk, rfl⟩
  obtain ⟨e, he, hke⟩ := List.mem_map.mp hm
  obtain ⟨i, hi, hie⟩ := List.mem_iff_getElem.mp he
  refine ⟨i, by omega, ?_⟩
  rw [indexAt_eq sorted hi, hie, hke]

/-- The rank of case `k` is the sorted position that holds case `k`. -/
theorem IsSortedLoad.rank_spec {sorted : List (ℚ × Int)} {n : Nat} {vals : List ℚ}
    (h : IsSortedLoad sorted n vals) (rt : Bool) {k : Nat} (hk : k < n) :
    ∃ i : Nat, i < n ∧ (rankLoop sorted n rt).1 (k : Int) = (i : Int) ∧
      indexAt sorted i = (k : Int) ∧ workAt sorted i = vals.getD k 0 := by
  obtain ⟨i, hi, hik⟩ := h.index_surj hk
  obtain ⟨j, hj, hij, hw⟩ := h.elem hi
  have hjk : j = k := by
    have : (j : Int) = (k : Int) := by rw [← hij, hik]
    exact_mod_cast this
  subst hjk
  refine ⟨i, hi, ?_, hik, hw⟩
  rw [rankLoop_eq_rankFold, ← hik]
  exact rankFold_fst sorted n rt n (fun a b ha hb => h.index_inj ha hb) i hi

/-- The ranks are a permutation of `0..n-1`. -/
theorem IsSortedLoad.isRankPerm {sorted : List (ℚ × Int)} {n : Nat} {vals : List ℚ}
    (h : IsSortedLoad sorted n vals) (rt : Bool) : IsRankPerm (rankLoop sorted n rt).1 n := by
  unfold IsRankPerm
  have hnd : ((List.range n).map (fun (k : Nat) => (rankLoop sorted n rt).1 (k : Int))).Nodup := by
    refine List.Nodup.map_on ?_ (List.nodup_range n)
    intro a ha b hb hab
    rw [List.mem_range] at ha hb
    obtain ⟨i, _, hi1, hi2, _⟩ := h.rank_spec rt ha
    obtain ⟨i', _, hi1', hi2', _⟩ := h.rank_spec rt hb
    have : (i : Int) = (i' : Int) := by rw [← hi1, ← hi1', hab]
    have hii : i = i' := by exact_mod_cast this
    subst hii
    have : (a : Int) = (b : Int) := by rw [← hi2, ← hi2']
    exact_mod_cast this
  rw [List.perm_ext_iff_of_nodup hnd (rangeCast_nodup n)]
  intro v
  simp only [List.mem_map, List.mem_range]
  constructor
  · rintro ⟨k, hk, rfl⟩
    obtain ⟨i, hi, hi1, _, _⟩ := h.rank_spec rt hk
    exact ⟨i, hi, hi1.symm⟩
  · rintro ⟨i, hi, rfl⟩
    obtain ⟨j, hj, hij, _⟩ := h.elem hi
    refine ⟨j, hj, ?_⟩
    rw [rankLoop_eq_rankFold, ← hij]
    exact rankFold_fst sorted n rt n (fun a b ha hb => h.index_inj ha hb) i hi

/-- The ranks follow the order of the values. -/
theorem IsSortedLoad.rank_lt {sorted : List (ℚ × Int)} {n : Nat} {vals : List ℚ}
    (h : IsSortedLoad sorted n vals) (rt : Bool) {k k' : Nat} (hk : k < n) (hk' : k' < n)
    (hlt : vals.getD k 0 < vals.getD k' 0) :
    (rankLoop sorted n rt).1 (k : Int) < (rankLoop sorted n rt).1 (k' : Int) := by
  obtain ⟨i, hi, hi1, _, hw⟩ := h.rank_spec rt hk
  obtain ⟨i', hi', hi1', _, hw'⟩ := h.rank_spec rt hk'
  rw [hi1, hi1']
  by_contra hcon
  have hle : i' ≤ i := by
    have : ¬ ((i : Int) < (i' : Int)) := hcon
    omega
  have hl := h.sorted_length
  have : workAt sorted i' ≤ workAt sorted i := by
    rcases Nat.lt_or_ge i' i with hlt' | hge
    · have := List.pairwise_iff_getElem.mp h.ascending i' i (by omega) (by omega) hlt'
      rw [workAt_eq sorted (by omega : i' < sorted.length),
        workAt_eq sorted (by omega : i < sorted.length)]
      exact this
    · have : i = i' := by omega
      subst this
      exact le_refl _
  rw [hw, hw'] at this
  exact absurd hlt (not_lt.mpr this)

theorem SortContract.isSortedLoad {sort : List (ℚ × Int) → List (ℚ × Int)}
    (hs : SortContract sort) (n : Nat) (vals : List ℚ) :
    IsSortedLoad (sort (loadPairs n vals)) n vals :=
  ⟨(hs _).1, (hs _).2⟩

theorem qsortdsi_contract : SortContract qsortdsi := by
  intro l
  haveI : IsTotal (ℚ × Int) (fun a b => a.1 ≤ b.1) := ⟨fun a b => le_total a.1 b.1⟩
  haveI : IsTrans (ℚ × Int) (fun a b => a.1 ≤ b.1) := ⟨fun a b c hab hbc => le_trans hab hbc⟩
  exact ⟨List.perm_insertionSort _ l, List.sorted_insertionSort _ l⟩

/-! ### The whole loop -/

section Whole

variable {R : Type} [Field R] (log : R → R) (n : Nat) (x y : IntArr) (xt yt : Option IntArr)
  (crit : ℚ)

/-- From the initial state the loop returns the value of the recursion at the
root rectangle, as soon as it is given `fuelBound n` iterations. -/
theorem loop_eq_rec (hn : 1 ≤ n) (hx : IsRankPerm x n) (hy : IsRankPerm y n) :
    ∃ v : R, MI_rec log n x y xt yt crit n (rootRect n).toBounds = some v ∧
      ∀ fuel, fuelBound n ≤ fuel →
        mut_inf_loop log n x y xt yt crit fuel (initState n) = some v := by
  have hroot : RectInv x y n (fun i => i) (rootRect n) := rootRect_inv hn hx hy
  have hsize : (rootRect n).Xstop - (rootRect n).Xstart < (n : Int) := by
    simp only [rootRect]; omega
  obtain ⟨v, j, a', hj, hv, _, hrun⟩ :=
    sim_rect log n x y xt yt crit hx n (rootRect n) (fun i => i) hroot hsize
  refine ⟨v, hv, ?_⟩
  intro fuel hfuel
  have := hrun [] 0 (fuel - j)
  rw [show j + (fuel - j) = fuel by omega, mut_inf_loop_nil, zero_add] at this
  exact this

end Whole

theorem tieSearch_untied (tied : IntArr) (start stop center : Int) (fuel : Nat) (ioff : Int)
    (c : Int) (h : tieSearch tied start stop center fuel ioff = (false, c)) : tied c = 0 := by
  induction fuel generalizing ioff with
  | zero => simp [tieSearch] at h
  | succ fuel ih =>
    simp only [tieSearch] at h
    split at h
    · split at h
      · rename_i ht
        simp only [Prod.mk.injEq, true_and] at h
        subst h; exact ht
      · split at h
        · simp at h
        · split at h
          · rename_i ht
            simp only [Prod.mk.injEq, true_and] at h
            subst h; exact ht
          · exact ih _ h
    · simp at h

theorem tieCenter_untied {tied : Option IntArr} {start stop c : Int}
    (h : tieCenter tied start stop = (false, c)) (t : IntArr) (ht : tied = some t) : t c = 0 := by
  subst ht
  unfold tieCenter at h
  simp only at h
  split at h
  · exact tieSearch_untied t start stop _ _ 1 c h
  · rename_i hz
    simp only [Prod.mk.injEq, true_and] at h
    subst h
    simpa using hz

/-! ### A variable whose values are all tied -/

theorem tieSearch_allTied (tied : IntArr) (start stop center : Int)
    (hall : ∀ q, start ≤ q → q < stop → tied q ≠ 0) (fuel : Nat) (ioff : Int)
    (h1 : 1 ≤ ioff) (h2 : center + ioff ≤ stop) :
    tieSearch tied start stop center fuel ioff = (true, center) := by
  induction fuel generalizing ioff with
  | zero => rfl
  | succ fuel ih =>
    simp only [tieSearch]
    split
    · rename_i hge
      rw [if_neg (hall _ hge (by omega))]
      split
      · rfl
      · rename_i hne
        rw [if_neg (hall _ (by omega) (by omega))]
        exact ih (ioff + 1) (by omega) (by omega)
    · rfl

theorem tieCenter_allTied (t : IntArr) {start stop : Int} (h0 : 0 ≤ start) (hlt : start < stop)
    (hall : ∀ q, start ≤ q → q < stop → t q ≠ 0) :
    (tieCenter (some t) start stop).1 = true := by
  have hb := tdiv_two_bounds h0 (le_of_lt hlt)
  unfold tieCenter
  simp only
  rw [if_pos (hall _ hb.1 (hb.2.2 hlt))]
  rw [tieSearch_allTied t start stop _ hall _ 1 (by omega) (by have := hb.2.2 hlt; omega)]

theorem splittable_of_xAllTied (x y : IntArr) (xt yt : Option IntArr) (crit : ℚ) (b : Bounds)
    (cnt : Int) (cases : List Int) (h : (tieCenter xt b.Xstart b.Xstop).1 = true) :
    splittable x y xt yt crit b cnt cases = false := by
  simp [splittable, h]

theorem splittable_of_yAllTied (x y : IntArr) (xt yt : Option IntArr) (crit : ℚ) (b : Bounds)
    (cnt : Int) (cases : List Int) (h : (tieCenter yt b.Ystart b.Ystop).1 = true) :
    splittable x y xt yt crit b cnt cases = false := by
  simp [splittable, h]

/-- The tie flags of a variable whose `n` values are all equal: every rank
below `n-1` is flagged. -/
theorem tied_of_constant {sort : List (ℚ × Int) → List (ℚ × Int)} (hs : SortContract sort)
    (n : Nat) (c : ℚ) (q : Int) (h0 : 0 ≤ q) (hq : q < (n : Int) - 1) :
    (rankLoop (sort (loadPairs n (List.replicate n c))) n true).2 q ≠ 0 := by
  have h := hs.isSortedLoad n (List.replicate n c)
  have hw : ∀ i : Nat, i < n → workAt (sort (loadPairs n (List.replicate n c))) i = c := by
    intro i hi
    obtain ⟨j, hj, _, hwj⟩ := h.elem hi
    rw [hwj, List.getD_eq_getElem _ _ (by simpa using hj)]
    simp
  rw [rankLoop_eq_rankFold, rankFold_snd, if_pos]
  · decide
  · refine ⟨h0, by omega, ?_⟩
    unfold tieTest
    rw [Bool.and_eq_true, decide_eq_true_eq, decide_eq_true_eq]
    refine ⟨by omega, ?_⟩
    rw [hw _ (by omega), hw _ (by omega), sub_self]
    positivity

theorem miTerm_full (n : Nat) (hn : 1 ≤ n) :
    miTerm Real.log n ((n : Int) - 1 - 0 + 1) ((n : Int) - 1 - 0 + 1) ((n : Int) - 1 - 0 + 1)
      = 0 := by
  have hne : (n : ℝ) ≠ 0 := by
    have : (0 : ℝ) < n := by exact_mod_cast hn
    exact ne_of_gt this
  unfold miTerm
  simp only [sub_zero, sub_add_cancel, Int.cast_natCast]
  rw [div_self hne, mul_one, div_self one_ne_zero, Real.log_one, mul_zero]

/-- A root rectangle that is not split: one iteration, result 0. -/
theorem loop_root_leaf (n : Nat) (hn : 1 ≤ n) (x y : IntArr) (xt yt : Option IntArr) (crit : ℚ)
    (h : splittable x y xt yt crit (rootRect n).toBounds
      ((rootRect n).DataStop - (rootRect n).DataStart + 1)
      (spanList (fun i => i) (rootRect n).DataStart (rootRect n).DataStop) = false) :
    ∀ fuel, mut_inf_loop Real.log n x y xt yt crit (fuel + 1) (initState n) = some 0 := by
  intro fuel
  unfold initState
  rw [mut_inf_loop_cons,
    step_leaf Real.log n x y xt yt crit (rootRect n)
      { indices := fun i => i, stack := [], MI := 0 } h, mut_inf_loop_nil]
  simp only [rootRect, zero_add]
  rw [miTerm_full n hn]

/-! ### The scenario with eight cases in reverse order -/

theorem scenario8_sort_x :
    qsortdsi (loadPairs 8 [8, 7, 6, 5, 4, 3, 2, 1])
      = [(1, 7), (2, 6), (3, 5), (4, 4), (5, 3), (6, 2), (7, 1), (8, 0)] := by
  simp [qsortdsi, loadPairs, List.range, List.range.loop, List.insertionSort,
    List.orderedInsert]
  norm_num

theorem scenario8_sort_y :
    qsortdsi (loadPairs 8 [1, 2, 3, 4, 5, 6, 7, 8])
      = [(1, 0), (2, 1), (3, 2), (4, 3), (5, 4), (6, 5), (7, 6), (8, 7)] := by
  simp [qsortdsi, loadPairs, List.range, List.range.loop, List.insertionSort,
    List.orderedInsert]

/-- The root rectangle of the scenario is not split: the 2x2 statistic is
`4.5`, not above `6`, and the rank extents do not exceed 30. -/
theorem scenario8_not_splittable :
    splittable (rankTransform qsortdsi 8 [8, 7, 6, 5, 4, 3, 2, 1] false).1
      (MutualInformationAdaptive.create qsortdsi 8 [1, 2, 3, 4, 5, 6, 7, 8] false 6).y
      (rankTransform qsortdsi 8 [8, 7, 6, 5, 4, 3, 2, 1] false).2
      (MutualInformationAdaptive.create qsortdsi 8 [1, 2, 3, 4, 5, 6, 7, 8] false 6).y_tied
      (MutualInformationAdaptive.create qsortdsi 8 [1, 2, 3, 4, 5, 6, 7, 8] false 6).chi_crit
      (rootRect 8).toBounds ((rootRect 8).DataStop - (rootRect 8).DataStart + 1)
      (spanList (fun i => i) (rootRect 8).DataStart (rootRect 8).DataStop) = false := by
  simp only [MutualInformationAdaptive.create, rankTransform, scenario8_sort_x, scenario8_sort_y]
  simp [rootRect, splittable, tieCenter, chiTests, spanList, spanN, chiExceeds, chiSquare,
    actual, expected, quadrant, trialXstart, trialXstop, trialYstart, trialYstop,
    rankLoop, rankStep, List.range, List.range.loop, indexAt, uninit, Function.update,
    show Int.tdiv 7 2 = 3 by decide, List.countP_cons]
  simp only [abs_eq_max_neg]
  norm_num

theorem scenario8_result (fuel : Nat) :
    mut_inf qsortdsi Real.log
      (MutualInformationAdaptive.create qsortdsi 8 [1, 2, 3, 4, 5, 6, 7, 8] false 6)
      [8, 7, 6, 5, 4, 3, 2, 1] false (fuel + 1) = some 0 := by
  unfold mut_inf
  exact loop_root_leaf 8 (by decide) _ _ _ _ _ scenario8_not_splittable fuel

/-! ### A sample of thirteen cases whose first contribution is negative -/

theorem scenario13_sort_x :
    qsortdsi (loadPairs 13 [0, 7, 8, 9, 10, 11, 12, 1, 2, 3, 4, 5, 6])
      = [(0, 0), (1, 7), (2, 8), (3, 9), (4, 10), (5, 11), (6, 12), (7, 1), (8, 2), (9, 3),
          (10, 4), (11, 5), (12, 6)] := by
  simp [qsortdsi, loadPairs, List.range, List.range.loop, List.insertionSort,
    List.orderedInsert]
  norm_num

theorem scenario13_sort_y :
    qsortdsi (loadPairs 13 [1, 2, 3, 4, 5, 6, 7, 8, 9, 10, 11, 12, 13])
      = [(1, 0), (2, 1), (3, 2), (4, 3), (5, 4), (6, 5), (7, 6), (8, 7), (9, 8), (10, 9),
          (11, 10), (12, 11), (13, 12)] := by
  simp [qsortdsi, loadPairs, List.range, List.range.loop, List.insertionSort,
    List.orderedInsert]

theorem scenario13_splittable :
    splittable (rankTransform qsortdsi 13 [0, 7, 8, 9, 10, 11, 12, 1, 2, 3, 4, 5, 6] false).1
      (MutualInformationAdaptive.create qsortdsi 13
        [1, 2, 3, 4, 5, 6, 7, 8, 9, 10, 11, 12, 13] false 6).y
      none none 6 (rootRect 13).toBounds ((rootRect 13).DataStop - (rootRect 13).DataStart + 1)
      (spanList (fun i => i) (rootRect 13).DataStart (rootRect 13).DataStop) = true := by
  simp only [MutualInformationAdaptive.create, rankTransform, scenario13_sort_x,
    scenario13_sort_y]
  simp [rootRect, splittable, tieCenter, chiTests, spanList, spanN, chiExceeds, chiSquare,
    actual, expected, quadrant, trialXstart, trialXstop, trialYstart, trialYstop,
    rankLoop, rankStep, List.range, List.range.loop, indexAt, uninit, Function.update,
    show Int.tdiv 12 2 = 6 by decide, List.countP_cons]
  simp only [abs_eq_max_neg]
  norm_num

/-- After the first iteration the accumulator holds the contribution of the
sub-rectangle with one case in a 7 by 7 rank square. -/
theorem scenario13_first_step :
    (loopState Real.log 13
      (rankTransform qsortdsi 13 [0, 7, 8, 9, 10, 11, 12, 1, 2, 3, 4, 5, 6] false).1
      (MutualInformationAdaptive.create qsortdsi 13
        [1, 2, 3, 4, 5, 6, 7, 8, 9, 10, 11, 12, 13] false 6).y
      none none 6 1 (initState 13)).MI = miTerm Real.log 13 1 7 7 := by
  have h := step_split_state Real.log 13 _ _ none none 6 (rootRect 13) (fun i => i)
    scenario13_splittable [] 0
  simp only [loopState, initState]
  rw [h]
  simp only [MutualInformationAdaptive.create, rankTransform, scenario13_sort_x,
    scenario13_sort_y]
  simp [rootRect, foldedSum, tieCenter, spanList, spanN,
    actual, quadrant, trialXstart, trialXstop, trialYstart, trialYstop,
    rankLoop, rankStep, List.range, List.range.loop, indexAt, uninit, Function.update,
    show Int.tdiv 12 2 = 6 by decide, List.countP_cons]

theorem miTerm_13_1_7_7_neg : miTerm Real.log 13 1 7 7 < 0 := by
  unfold miTerm
  simp only [Int.cast_one, Int.cast_ofNat, Nat.cast_ofNat]
  have h : (1 : ℝ) / 13 / (7 / 13 * (7 / 13)) = 13 / 49 := by norm_num
  rw [h]
  have hlog : Real.log (13 / 49) < 0 := Real.log_neg (by norm_num) (by norm_num)
  have hpos : (0 : ℝ) < 1 / 13 := by norm_num
  exact mul_neg_of_pos_of_neg hpos hlog

/-! ### Shuffling the cases of a sample without equal values -/

theorem range_map_getD (vals : List ℚ) :
    (List.range vals.length).map (fun i => vals.getD i 0) = vals := by
  apply List.ext_getElem
  · simp
  · intro i h1 h2
    simp only [List.getElem_map, List.getElem_range]
    exact List.getD_eq_getElem _ _ h2

theorem permute_perm {pi : List Nat} {n : Nat} {vals : List ℚ} (hpi : pi.Perm (List.range n))
    (hlen : vals.length = n) : (permute pi vals).Perm vals := by
  subst hlen
  have := hpi.map (fun i => vals.getD i 0)
  rw [range_map_getD] at this
  exact this

theorem permute_getD {pi : List Nat} {n : Nat} (vals : List ℚ) (hpi : pi.Perm (List.range n))
    {j : Nat} (hj : j < n) : (permute pi vals).getD j 0 = vals.getD (pi.getD j 0) 0 := by
  have hl : pi.length = n := by rw [hpi.length_eq, List.length_range]
  have h1 : j < (pi.map (fun i => vals.getD i 0)).length := by
    rw [List.length_map]; omega
  unfold permute
  rw [List.getD_eq_getElem (pi.map (fun i => vals.getD i 0)) 0 h1, List.getElem_map,
    List.getD_eq_getElem pi 0 (by omega)]

theorem loadPairs_map_fst {n : Nat} {vals : List ℚ} (hlen : vals.length = n) :
    (loadPairs n vals).map Prod.fst = vals := by
  subst hlen
  simp only [loadPairs, List.map_map, Function.comp]
  exact range_map_getD vals

theorem IsSortedLoad.values_perm {sorted : List (ℚ × Int)} {n : Nat} {vals : List ℚ}
    (h : IsSortedLoad sorted n vals) (hlen : vals.length = n) :
    (sorted.map Prod.fst).Perm vals := by
  have := h.perm.map Prod.fst
  rw [loadPairs_map_fst hlen] at this
  exact this

theorem workAt_eq_map (sorted : List (ℚ × Int)) (i : Nat) :
    workAt sorted i = (sorted.map Prod.fst).getD i 0 := by
  unfold workAt
  exact (List.getD_map sorted (0, 0) Prod.fst).symm

/-- The sorted values depend on the multiset of values only. -/
theorem IsSortedLoad.work_congr {s s' : List (ℚ × Int)} {n : Nat} {vals vals' : List ℚ}
    (h : IsSortedLoad s n vals) (h' : IsSortedLoad s' n vals') (hlen : vals.length = n)
    (hlen' : vals'.length = n) (hp : vals'.Perm vals) (i : Nat) : workAt s' i = workAt s i := by
  have e : s'.map Prod.fst = s.map Prod.fst := by
    refine List.eq_of_perm_of_sorted (r := LE.le) ?_ ?_ ?_
    · exact ((h'.values_perm hlen').trans hp).trans (h.values_perm hlen).symm
    · exact List.pairwise_map.mpr h'.ascending
    · exact List.pairwise_map.mpr h.ascending
  rw [workAt_eq_map, workAt_eq_map, e]

theorem tieTest_congr {s s' : List (ℚ × Int)} (n : Nat) (hw : ∀ i, workAt s' i = workAt s i)
    (i : Nat) : tieTest s' n i = tieTest s n i := by
  unfold tieTest
  rw [hw, hw]

theorem rankLoop_snd_congr {s s' : List (ℚ × Int)} (n : Nat)
    (hw : ∀ i, workAt s' i = workAt s i) :
    (rankLoop s' n true).2 = (rankLoop s n true).2 := by
  funext q
  rw [rankLoop_eq_rankFold, rankLoop_eq_rankFold, rankFold_snd, rankFold_snd,
    tieTest_congr n hw]

theorem IsSortedLoad.work_inj {sorted : List (ℚ × Int)} {n : Nat} {vals : List ℚ}
    (h : IsSortedLoad sorted n vals) (hlen : vals.length = n) (hnd : vals.Nodup) {i j : Nat}
    (hi : i < n) (hj : j < n) (he : workAt sorted i = workAt sorted j) : i = j := by
  have hl := h.sorted_length
  have hnd' : (sorted.map Prod.fst).Nodup := ((h.values_perm hlen).nodup_iff).mpr hnd
  have hi' : i < (sorted.map Prod.fst).length := by simp; omega
  have hj' : j < (sorted.map Prod.fst).length := by simp; omega
  refine (@List.Nodup.getElem_inj_iff _ _ hnd' i hi' j hj').mp ?_
  rw [workAt_eq sorted (by omega : i < sorted.length),
    workAt_eq sorted (by omega : j < sorted.length)] at he
  simpa using he

/-- Without equal values the rank of a case of the shuffled sample is the rank
of the case it came from. -/
theorem rank_permute {s s' : List (ℚ × Int)} {n : Nat} {vals : List ℚ} {pi : List Nat}
    (hpi : pi.Perm (List.range n)) (hlen : vals.length = n) (hnd : vals.Nodup)
    (h : IsSortedLoad s n vals) (h' : IsSortedLoad s' n (permute pi vals)) (rt : Bool)
    {j : Nat} (hj : j < n) :
    (rankLoop s' n rt).1 (j : Int) = (rankLoop s n rt).1 ((pi.getD j 0 : Nat) : Int) := by
  have hl : pi.length = n := by rw [hpi.length_eq, List.length_range]
  have hpj : pi.getD j 0 < n := by
    rw [List.getD_eq_getElem _ _ (by omega)]
    have := (hpi.mem_iff).mp (List.getElem_mem (l := pi) (n := j) (by omega))
    exact List.mem_range.mp this
  have hlen' : (permute pi vals).length = n := by simp [permute, hl]
  obtain ⟨i', hi', e1, _, w1⟩ := h'.rank_spec rt hj
  obtain ⟨i, hi, e2, _, w2⟩ := h.rank_spec rt hpj
  rw [e1, e2]
  have hw := h.work_congr h' hlen hlen' (permute_perm hpi hlen) i'
  rw [w1, permute_getD vals hpi hj, ← w2] at hw
  have := h.work_inj hlen hnd hi hi' hw
  subst this
  rfl

/-! ### The recursion does not depend on how the cases are numbered -/

section Relabel

variable {x y x' y' : IntArr} {n : Nat} {p : Int → Int}

theorem inBounds_relabel (b : Bounds) {k : Int} (hx : x' k = x (p k)) (hy : y' k = y (p k)) :
    inBounds x' y' b k = inBounds x y b (p k) := by
  unfold inBounds
  rw [hx, hy]

theorem casesIn_relabel
    (hp : (((List.range n).map (fun (k : Nat) => (k : Int))).map p).Perm
      ((List.range n).map (fun (k : Nat) => (k : Int))))
    (hx : ∀ k : Int, 0 ≤ k → k < (n : Int) → x' k = x (p k))
    (hy : ∀ k : Int, 0 ≤ k → k < (n : Int) → y' k = y (p k)) (b : Bounds) :
    ((casesIn x' y' n b).map p).Perm (casesIn x y n b) := by
  unfold casesIn
  have e : List.filter (inBounds x' y' b) ((List.range n).map (fun (k : Nat) => (k : Int)))
      = List.filter (inBounds x y b ∘ p) ((List.range n).map (fun (k : Nat) => (k : Int))) := by
    refine List.filter_congr ?_
    intro k hk
    obtain ⟨j, hj, rfl⟩ := List.mem_map.mp hk
    rw [List.mem_range] at hj
    exact inBounds_relabel b (hx _ (by omega) (by omega)) (hy _ (by omega) (by omega))
  rw [e, ← List.filter_map]
  exact hp.filter _

theorem countP_relabel
    (hp : (((List.range n).map (fun (k : Nat) => (k : Int))).map p).Perm
      ((List.range n).map (fun (k : Nat) => (k : Int))))
    (hx : ∀ k : Int, 0 ≤ k → k < (n : Int) → x' k = x (p k))
    (hy : ∀ k : Int, 0 ≤ k → k < (n : Int) → y' k = y (p k)) (b : Bounds)
    (f : Int → Int → Bool) :
    (casesIn x' y' n b).countP (fun k => f (x' k) (y' k))
      = (casesIn x y n b).countP (fun k => f (x k) (y k)) := by
  rw [← (casesIn_relabel hp hx hy b).countP_eq, List.countP_map]
  refine List.countP_congr ?_
  intro k hk
  have hk' := mem_casesIn.mp hk
  simp only [Function.comp, hx k hk'.1 hk'.2.1, hy k hk'.1 hk'.2.1]

theorem splittable_relabel
    (hp : (((List.range n).map (fun (k : Nat) => (k : Int))).map p).Perm
      ((List.range n).map (fun (k : Nat) => (k : Int))))
    (hx : ∀ k : Int, 0 ≤ k → k < (n : Int) → x' k = x (p k))
    (hy : ∀ k : Int, 0 ≤ k → k < (n : Int) → y' k = y (p k))
    (xt yt : Option IntArr) (crit : ℚ) (b : Bounds) (cnt : Int) :
    splittable x' y' xt yt crit b cnt (casesIn x' y' n b)
      = splittable x y xt yt crit b cnt (casesIn x y n b) := by
  have h2 : ∀ cX cY i, actual x' y' cX cY (casesIn x' y' n b) i
      = actual x y cX cY (casesIn x y n b) i := by
    intro cX cY i
    unfold actual
    have := countP_relabel hp hx hy b
      (fun u v => (if u ≤ cX then (if v ≤ cY then 0 else 1) else (if v ≤ cY then 2 else 3)) == i)
    simp only [quadrant]
    rw [this]
  have h4 : ∀ j, actual44 x' y' b (casesIn x' y' n b) j
      = actual44 x y b (casesIn x y n b) j := by
    intro j
    unfold actual44
    have := countP_relabel hp hx hy b
      (fun u v => cell44 b.Xstart b.Xstop u * 4 + cell44 b.Ystart b.Ystop v == j)
    rw [this]
  unfold splittable chiTests
  simp only [h2, h4]

theorem casesIn_length_relabel
    (hp : (((List.range n).map (fun (k : Nat) => (k : Int))).map p).Perm
      ((List.range n).map (fun (k : Nat) => (k : Int))))
    (hx : ∀ k : Int, 0 ≤ k → k < (n : Int) → x' k = x (p k))
    (hy : ∀ k : Int, 0 ≤ k → k < (n : Int) → y' k = y (p k)) (b : Bounds) :
    (casesIn x' y' n b).length = (casesIn x y n b).length := by
  rw [← (casesIn_relabel hp hx hy b).length_eq, List.length_map]

theorem MI_rec_relabel {R : Type} [Field R] (log : R → R)
    (hp : (((List.range n).map (fun (k : Nat) => (k : Int))).map p).Perm
      ((List.range n).map (fun (k : Nat) => (k : Int))))
    (hx : ∀ k : Int, 0 ≤ k → k < (n : Int) → x' k = x (p k))
    (hy : ∀ k : Int, 0 ≤ k → k < (n : Int) → y' k = y (p k))
    (xt yt : Option IntArr) (crit : ℚ) (d : Nat) (b : Bounds) :
    MI_rec log n x' y' xt yt crit d b = MI_rec log n x y xt yt crit d b := by
  induction d generalizing b with
  | zero => rfl
  | succ d ih =>
    simp only [MI_rec, casesIn_length_relabel hp hx hy, splittable_relabel hp hx hy, ih]

end Relabel

theorem range_map_getD_nat (pi : List Nat) :
    (List.range pi.length).map (fun i => pi.getD i 0) = pi := by
  apply List.ext_getElem
  · simp
  · intro i h1 h2
    simp only [List.getElem_map, List.getElem_range]
    exact List.getD_eq_getElem _ _ h2

theorem relabel_perm {pi : List Nat} {n : Nat} (hpi : pi.Perm (List.range n)) :
    (((List.range n).map (fun (k : Nat) => (k : Int))).map
        (fun k : Int => ((pi.getD k.toNat 0 : Nat) : Int))).Perm
      ((List.range n).map (fun (k : Nat) => (k : Int))) := by
  have hl : pi.length = n := by rw [hpi.length_eq, List.length_range]
  have e : ((List.range n).map (fun (k : Nat) => (k : Int))).map
      (fun k : Int => ((pi.getD k.toNat 0 : Nat) : Int))
      = pi.map (fun (k : Nat) => (k : Int)) := by
    rw [List.map_map]
    conv_rhs => rw [← range_map_getD_nat pi, List.map_map, hl]
    refine List.map_congr_left ?_
    intro k _
    simp [Function.comp]
  rw [e]
  exact hpi.map _

theorem rankTransform_snd_false (sort : List (ℚ × Int) → List (ℚ × Int)) (n : Nat)
    (vals : List ℚ) : (rankTransform sort n vals false).2 = none := rfl

theorem rankTransform_snd_true (sort : List (ℚ × Int) → List (ℚ × Int)) (n : Nat)
    (vals : List ℚ) :
    (rankTransform sort n vals true).2 = some (rankLoop (sort (loadPairs n vals)) n true).2 := rfl

theorem rankTransform_fst (sort : List (ℚ × Int) → List (ℚ × Int)) (n : Nat)
    (vals : List ℚ) (rt : Bool) :
    (rankTransform sort n vals rt).1 = (rankLoop (sort (loadPairs n vals)) n rt).1 := rfl

theorem mut_inf_create {R : Type} [Field R] (sort : List (ℚ × Int) → List (ℚ × Int))
    (log : R → R) (n : Nat) (dep xraw : List ℚ) (rtd rti : Bool) (crit : ℚ) (fuel : Nat) :
    mut_inf sort log (MutualInformationAdaptive.create sort n dep rtd crit) xraw rti fuel
      = mut_inf_loop log n (rankTransform sort n xraw rti).1 (rankTransform sort n dep rtd).1
          (rankTransform sort n xraw rti).2 (rankTransform sort n dep rtd).2 crit fuel
          (initState n) := rfl

/-- The estimate of a shuffled sample without equal values, for the loop. -/
theorem shuffle_loop (sort : List (ℚ × Int) → List (ℚ × Int)) (hs : SortContract sort)
    (n : Nat) (hn : 1 ≤ n) (dep ind : List ℚ) (hdl : dep.length = n) (hil : ind.length = n)
    (hdn : dep.Nodup) (hin : ind.Nodup) (pi : List Nat) (hpi : pi.Perm (List.range n))
    (rtd rti : Bool) (crit : ℚ) :
    ∃ v : ℝ, ∀ fuel, fuelBound n ≤ fuel →
      mut_inf sort Real.log
        (MutualInformationAdaptive.create sort n (permute pi dep) rtd crit)
        (permute pi ind) rti fuel = some v ∧
      mut_inf sort Real.log
        (MutualInformationAdaptive.create sort n dep rtd crit) ind rti fuel = some v := by
  have hy := hs.isSortedLoad n dep
  have hy' := hs.isSortedLoad n (permute pi dep)
  have hx := hs.isSortedLoad n ind
  have hx' := hs.isSortedLoad n (permute pi ind)
  have hl : pi.length = n := by rw [hpi.length_eq, List.length_range]
  have hdl' : (permute pi dep).length = n := by simp [permute, hl]
  have hil' : (permute pi ind).length = n := by simp [permute, hl]
  -- the tie flags are the same
  have hxt : (rankTransform sort n (permute pi ind) rti).2 = (rankTransform sort n ind rti).2 := by
    cases rti with
    | false => rw [rankTransform_snd_false, rankTransform_snd_false]
    | true =>
      rw [rankTransform_snd_true, rankTransform_snd_true,
        rankLoop_snd_congr n (hx.work_congr hx' hil hil' (permute_perm hpi hil))]
  have hyt : (rankTransform sort n (permute pi dep) rtd).2 = (rankTransform sort n dep rtd).2 := by
    cases rtd with
    | false => rw [rankTransform_snd_false, rankTransform_snd_false]
    | true =>
      rw [rankTransform_snd_true, rankTransform_snd_true,
        rankLoop_snd_congr n (hy.work_congr hy' hdl hdl' (permute_perm hpi hdl))]
  -- the ranks are relabelled
  have hrx : ∀ k : Int, 0 ≤ k → k < (n : Int) →
      (rankTransform sort n (permute pi ind) rti).1 k
        = (rankTransform sort n ind rti).1 ((pi.getD k.toNat 0 : Nat) : Int) := by
    intro k h0 hk
    have := rank_permute hpi hil hin hx hx' rti (j := k.toNat) (by omega)
    rw [Int.toNat_of_nonneg h0] at this
    rw [rankTransform_fst, rankTransform_fst]
    exact this
  have hry : ∀ k : Int, 0 ≤ k → k < (n : Int) →
      (rankTransform sort n (permute pi dep) rtd).1 k
        = (rankTransform sort n dep rtd).1 ((pi.getD k.toNat 0 : Nat) : Int) := by
    intro k h0 hk
    have := rank_permute hpi hdl hdn hy hy' rtd (j := k.toNat) (by omega)
    rw [Int.toNat_of_nonneg h0] at this
    rw [rankTransform_fst, rankTransform_fst]
    exact this
  obtain ⟨v, hv, hrun⟩ := loop_eq_rec Real.log n (rankTransform sort n ind rti).1
    (rankTransform sort n dep rtd).1 (rankTransform sort n ind rti).2
    (rankTransform sort n dep rtd).2 crit hn (hx.isRankPerm rti) (hy.isRankPerm rtd)
  obtain ⟨v', hv', hrun'⟩ := loop_eq_rec Real.log n (rankTransform sort n (permute pi ind) rti).1
    (rankTransform sort n (permute pi dep) rtd).1 (rankTransform sort n (permute pi ind) rti).2
    (rankTransform sort n (permute pi dep) rtd).2 crit hn (hx'.isRankPerm rti)
    (hy'.isRankPerm rtd)
  have hvv : v' = v := by
    rw [hxt, hyt, MI_rec_relabel Real.log (relabel_perm hpi) hrx hry, hv] at hv'
    exact (Option.some.inj hv').symm
  subst hvv
  refine ⟨v', ?_⟩
  intro fuel hfuel
  rw [mut_inf_create, mut_inf_create]
  exact ⟨hrun' fuel hfuel, hrun fuel hfuel⟩

/-! ### A sample of four cases with equal values, and one of its shuffles -/

/-- A root rectangle that is split without any sub-rectangle being pushed: one
iteration, and the result is the sum of the folded contributions. -/
theorem loop_root_split_flat (n : Nat) (x y : IntArr) (xt yt : Option IntArr) (crit : ℚ)
    (h : splittable x y xt yt crit (rootRect n).toBounds
      ((rootRect n).DataStop - (rootRect n).DataStart + 1)
      (spanList (fun i => i) (rootRect n).DataStart (rootRect n).DataStop) = true)
    (hps : pushedRects x y (rootRect n).toBounds
      (tieCenter xt (rootRect n).Xstart (rootRect n).Xstop).2
      (tieCenter yt (rootRect n).Ystart (rootRect n).Ystop).2
      (spanList (fun i => i) (rootRect n).DataStart (rootRect n).DataStop)
      [0, 1, 2, 3] (rootRect n).DataStart = []) (fuel : Nat) :
    mut_inf_loop Real.log n x y xt yt crit (fuel + 1) (initState n)
      = some (0 + foldedSum Real.log n x y (rootRect n).toBounds
          (tieCenter xt (rootRect n).Xstart (rootRect n).Xstop).2
          (tieCenter yt (rootRect n).Ystart (rootRect n).Ystop).2
          (spanList (fun i => i) (rootRect n).DataStart (rootRect n).DataStop)
          [0, 1, 2, 3]) := by
  unfold initState
  rw [mut_inf_loop_cons, step_split_state Real.log n x y xt yt crit (rootRect n) (fun i => i) h,
    hps]
  exact mut_inf_loop_nil Real.log n x y xt yt crit fuel _ _

theorem scenario4_sort_dep :
    qsortdsi (loadPairs 4 [0, 1, 2, 3]) = [(0, 0), (1, 1), (2, 2), (3, 3)] := by
  simp [qsortdsi, loadPairs, List.range, List.range.loop, List.insertionSort,
    List.orderedInsert]

theorem scenario4_sort_dep_shuffled :
    qsortdsi (loadPairs 4 (permute [0, 2, 1, 3] [0, 1, 2, 3]))
      = [(0, 0), (1, 2), (2, 1), (3, 3)] := by
  simp [qsortdsi, loadPairs, permute, List.range, List.range.loop, List.insertionSort,
    List.orderedInsert]
  norm_num

theorem scenario4_sort_ind :
    qsortdsi (loadPairs 4 [0, 0, 0, 0]) = [(0, 0), (0, 1), (0, 2), (0, 3)] := by
  simp [qsortdsi, loadPairs, List.range, List.range.loop, List.insertionSort,
    List.orderedInsert]

theorem scenario4_permute_ind : permute [0, 2, 1, 3] [0, 0, 0, 0] = [0, 0, 0, 0] := by
  simp [permute]

theorem miTerm_4_2_2_2 : miTerm Real.log 4 2 2 2 = Real.log 2 / 2 := by
  unfold miTerm
  simp only [Int.cast_ofNat, Nat.cast_ofNat]
  have h : (2 : ℝ) / 4 / (2 / 4 * (2 / 4)) = 2 := by norm_num
  rw [h]
  ring

theorem miTerm_4_1_2_2 : miTerm Real.log 4 1 2 2 = 0 := by
  unfold miTerm
  simp only [Int.cast_one, Int.cast_ofNat, Nat.cast_ofNat]
  have h : (1 : ℝ) / 4 / (2 / 4 * (2 / 4)) = 1 := by norm_num
  rw [h, Real.log_one, mul_zero]

/-- The estimate of the sample in its original order is `ln 2`. -/
theorem scenario4_original (fuel : Nat) :
    mut_inf qsortdsi Real.log
      (MutualInformationAdaptive.create qsortdsi 4 [0, 1, 2, 3] false (1 / 2))
      [0, 0, 0, 0] false (fuel + 1) = some (Real.log 2) := by
  rw [mut_inf_create, rankTransform_snd_false, rankTransform_snd_false]
  rw [loop_root_split_flat 4 _ _ none none (1 / 2) ?_ ?_ fuel]
  · simp only [rankTransform, scenario4_sort_dep, scenario4_sort_ind]
    simp [rootRect, foldedSum, tieCenter, spanList, spanN,
      actual, quadrant, trialXstart, trialXstop, trialYstart, trialYstop,
      rankLoop, rankStep, List.range, List.range.loop, indexAt, uninit, Function.update,
      show Int.tdiv 3 2 = 1 by decide, List.countP_cons, miTerm_4_2_2_2]
  · simp only [rankTransform, scenario4_sort_dep, scenario4_sort_ind]
    simp [rootRect, splittable, tieCenter, chiTests, spanList, spanN, chiExceeds, chiSquare,
      actual, expected, quadrant, trialXstart, trialXstop, trialYstart, trialYstop,
      rankLoop, rankStep, List.range, List.range.loop, indexAt, uninit, Function.update,
      show Int.tdiv 3 2 = 1 by decide, List.countP_cons]
    simp only [abs_eq_max_neg]
    norm_num
  · simp only [rankTransform, scenario4_sort_dep, scenario4_sort_ind]
    simp [rootRect, pushedRects, tieCenter, spanList, spanN,
      actual, quadrant, rankLoop, rankStep, List.range, List.range.loop, indexAt, uninit,
      Function.update, show Int.tdiv 3 2 = 1 by decide, List.countP_cons]

/-- The estimate of the shuffled sample is 0. -/
theorem scenario4_shuffled (fuel : Nat) :
    mut_inf qsortdsi Real.log
      (MutualInformationAdaptive.create qsortdsi 4 (permute [0, 2, 1, 3] [0, 1, 2, 3]) false
        (1 / 2))
      (permute [0, 2, 1, 3] [0, 0, 0, 0]) false (fuel + 1) = some 0 := by
  rw [mut_inf_create, rankTransform_snd_false, rankTransform_snd_false]
  rw [loop_root_split_flat 4 _ _ none none (1 / 2) ?_ ?_ fuel]
  · simp only [rankTransform, scenario4_sort_dep_shuffled, scenario4_permute_ind,
      scenario4_sort_ind]
    simp [rootRect, foldedSum, tieCenter, spanList, spanN,
      actual, quadrant, trialXstart, trialXstop, trialYstart, trialYstop,
      rankLoop, rankStep, List.range, List.range.loop, indexAt, uninit, Function.update,
      show Int.tdiv 3 2 = 1 by decide, List.countP_cons, miTerm_4_1_2_2]
  · simp only [rankTransform, scenario4_sort_dep_shuffled, scenario4_permute_ind,
      scenario4_sort_ind]
    simp [rootRect, splittable, tieCenter, chiTests, spanList, spanN, chiExceeds, chiSquare,
      actual, expected, quadrant, trialXstart, trialXstop, trialYstart, trialYstop,
      rankLoop, rankStep, List.range, List.range.loop, indexAt, uninit, Function.update,
      show Int.tdiv 3 2 = 1 by decide, List.countP_cons]
    simp only [abs_eq_max_neg]
    norm_num
  · simp only [rankTransform, scenario4_sort_dep_shuffled, scenario4_permute_ind,
      scenario4_sort_ind]
    simp [rootRect, pushedRects, tieCenter, spanList, spanN,
      actual, quadrant, rankLoop, rankStep, List.range, List.range.loop, indexAt, uninit,
      Function.update, show Int.tdiv 3 2 = 1 by decide, List.countP_cons]

theorem miTerm_nonneg_iff_dense (n : Nat) (cnt xext yext : Int) (hn : 0 < n) (hc : 0 < cnt)
    (hx : 0 < xext) (hy : 0 < yext) :
    0 ≤ miTerm Real.log n cnt xext yext ↔ xext * yext ≤ cnt * (n : Int) := by
  have hn' : (0 : ℝ) < (n : ℝ) := by exact_mod_cast hn
  have hc' : (0 : ℝ) < (cnt : ℝ) := by exact_mod_cast hc
  have hx' : (0 : ℝ) < (xext : ℝ) := by exact_mod_cast hx
  have hy' : (0 : ℝ) < (yext : ℝ) := by exact_mod_cast hy
  unfold miTerm
  simp only
  have hratio : (cnt : ℝ) / n / ((xext : ℝ) / n * ((yext : ℝ) / n))
      = ((cnt : ℝ) * n) / ((xext : ℝ) * yext) := by
    field_simp
    ring
  rw [hratio]
  have hpxy : (0 : ℝ) < (cnt : ℝ) / n := div_pos hc' hn'
  have hr : (0 : ℝ) < ((cnt : ℝ) * n) / ((xext : ℝ) * yext) :=
    div_pos (mul_pos hc' hn') (mul_pos hx' hy')
  rw [mul_nonneg_iff_of_pos_left hpxy, Real.log_nonneg_iff hr, le_div_iff₀ (mul_pos hx' hy'),
    one_mul]
  constructor
  · intro h
    exact_mod_cast h
  · intro h
    exact_mod_cast h

/-! ### Rectangles that reach the chi-square tests -/

/-- A rectangle holding two cases or more has more than one Y rank. -/
theorem RectInv.y_lt {x y : IntArr} {n : Nat} {a : IntArr} {r : Rect}
    (h : RectInv x y n a r) (hy : IsRankPerm y n) (h2 : 2 ≤ r.DataStop - r.DataStart + 1) :
    r.Ystart < r.Ystop := by
  have hlen := h.length_eq
  have hnd := h.nodup
  have hmem := h.mem_iff
  generalize spanList a r.DataStart r.DataStop = l at hlen hnd hmem
  match l, hlen, hnd, hmem with
  | [], hlen, _, _ => simp at hlen; omega
  | [_], hlen, _, _ => simp at hlen; omega
  | k1 :: k2 :: _, _, hnd, hmem =>
    have m1 := (hmem k1).mp (List.mem_cons_self _ _)
    have m2 := (hmem k2).mp (List.mem_cons_of_mem _ (List.mem_cons_self _ _))
    have hne : k1 ≠ k2 := by
      intro he
      rw [List.nodup_cons] at hnd
      exact hnd.1 (he ▸ List.mem_cons_self _ _)
    have hyne : y k1 ≠ y k2 := fun he => hne (hy.inj m1.1 m1.2.1 m2.1 m2.2.1 he)
    have b1 := m1.2.2
    have b2 := m2.2.2
    simp only [inBounds, Bool.and_eq_true, decide_eq_true_eq] at b1 b2
    omega

section Reach

variable {R : Type} [Field R] (log : R → R) (n : Nat) (x y : IntArr) (xt yt : Option IntArr)
  (crit : ℚ)

/-- A property that holds for the stacked rectangles and for every rectangle
with at least three cases holds for every rectangle stacked later. -/
theorem loopState_rects (P : Rect → Prop)
    (hP : ∀ c : Rect, 3 ≤ c.DataStop - c.DataStart + 1 → P c) (k : Nat) (s : State R)
    (hinv : StackInv x y n s.indices s.stack) (hs : ∀ r ∈ s.stack, P r) :
    ∀ r ∈ (loopState log n x y xt yt crit k s).stack, P r := by
  induction k generalizing s with
  | zero => exact hs
  | succ k ih =>
    unfold loopState
    split
    · exact hs
    · rename_i r rest hst
      rw [hst] at hinv hs
      refine ih _ (step_StackInv log n x y xt yt crit r rest s.indices s.MI hinv) ?_
      have hr : RectInv x y n s.indices r := hinv.2 r (List.mem_cons_self _ _)
      by_cases hsp : splittable x y xt yt crit r.toBounds (r.DataStop - r.DataStart + 1)
          (spanList s.indices r.DataStart r.DataStop) = true
      · obtain ⟨g1, _, _, g4⟩ := step_split_spec log n x y xt yt crit r
          { indices := s.indices, stack := rest, MI := s.MI } hr hsp
        simp only at g1 g4
        intro c hc
        rw [g1, List.mem_append] at hc
        rcases hc with hc | hc
        · exact hP c (g4 c (List.mem_reverse.mp hc)).2.2.2.1
        · exact hs c (List.mem_cons_of_mem _ hc)
      · have hsp' : splittable x y xt yt crit r.toBounds (r.DataStop - r.DataStart + 1)
            (spanList s.indices r.DataStart r.DataStop) = false := by simpa using hsp
        rw [step_leaf log n x y xt yt crit r { indices := s.indices, stack := rest, MI := s.MI }
          hsp']
        intro c hc
        exact hs c (List.mem_cons_of_mem _ hc)

/-- With two cases or more, every stacked rectangle holds at least two cases. -/
theorem loopState_count_ge_two (hn : 2 ≤ n) (hx : IsRankPerm x n) (hy : IsRankPerm y n)
    (k : Nat) :
    ∀ r ∈ (loopState log n x y xt yt crit k (initState n)).stack,
      2 ≤ r.DataStop - r.DataStart + 1 := by
  refine loopState_rects log n x y xt yt crit (fun r => 2 ≤ r.DataStop - r.DataStart + 1)
    (fun c hc => by omega) k (initState n)
    (initState_StackInv n x y (by omega) hx hy) ?_
  intro r hr
  simp only [initState, List.mem_singleton] at hr
  subst hr
  simp only [rootRect]
  omega

end Reach

theorem trial_extents (b : Bounds) (cX cY : Int) {i : Nat} (hi : i < 4) :
    (trialXstop b cX i - trialXstart b cX i + 1 = cX - b.Xstart + 1
      ∨ trialXstop b cX i - trialXstart b cX i + 1 = b.Xstop - cX) ∧
    (trialYstop b cY i - trialYstart b cY i + 1 = cY - b.Ystart + 1
      ∨ trialYstop b cY i - trialYstart b cY i + 1 = b.Ystop - cY) := by
  have h4 : i = 0 ∨ i = 1 ∨ i = 2 ∨ i = 3 := by omega
  rcases h4 with rfl | rfl | rfl | rfl <;>
    simp [trialXstart, trialXstop, trialYstart, trialYstop] <;> omega

/-- The expected counts of the 2x2 test are positive when the rectangle holds
a case and both centres leave two non-empty halves. -/
theorem expected_pos (b : Bounds) (cnt cX cY : Int) (hc : 0 < cnt)
    (hx1 : b.Xstart ≤ cX) (hx2 : cX < b.Xstop) (hy1 : b.Ystart ≤ cY) (hy2 : cY < b.Ystop)
    {i : Nat} (hi : i < 4) : 0 < expected b cnt cX cY i := by
  obtain ⟨hX, hY⟩ := trial_extents b cX cY hi
  have hXpos : (0 : ℚ) < (((trialXstop b cX i - trialXstart b cX i : Int) : ℚ) + 1) := by
    have : (0 : Int) < trialXstop b cX i - trialXstart b cX i + 1 := by
      rcases hX with h | h <;> omega
    exact_mod_cast this
  have hYpos : (0 : ℚ) < (((trialYstop b cY i - trialYstart b cY i : Int) : ℚ) + 1) := by
    have : (0 : Int) < trialYstop b cY i - trialYstart b cY i + 1 := by
      rcases hY with h | h <;> omega
    exact_mod_cast this
  have hXf : (0 : ℚ) < (((b.Xstop - b.Xstart : Int) : ℚ) + 1) := by
    have : (0 : Int) < b.Xstop - b.Xstart + 1 := by omega
    exact_mod_cast this
  have hYf : (0 : ℚ) < (((b.Ystop - b.Ystart : Int) : ℚ) + 1) := by
    have : (0 : Int) < b.Ystop - b.Ystart + 1 := by omega
    exact_mod_cast this
  have hcq : (0 : ℚ) < (cnt : ℚ) := by exact_mod_cast hc
  unfold expected
  positivity

theorem frac44_pos (start stop : Int) (hbig : stop - start > 30) {i : Nat}
    (hi : i < 4) : 0 < frac44 start stop i := by
  have hden : (0 : ℚ) < (((stop - start : Int) : ℚ) + 1) := by
    have : (0 : Int) < stop - start + 1 := by omega
    exact_mod_cast this
  have hnum : (0 : Int) < cut44 start stop i
      - (if i = 0 then start - 1 else cut44 start stop (i - 1)) := by
    have h4 : i = 0 ∨ i = 1 ∨ i = 2 ∨ i = 3 := by omega
    rcases h4 with rfl | rfl | rfl | rfl <;>
      simp only [cut44, Nat.cast_zero, Nat.cast_one, Nat.cast_ofNat, if_true, if_false,
        OfNat.ofNat_ne_zero, one_ne_zero] <;>
      (repeat rw [Int.tdiv_eq_ediv (by omega) (by omega)]) <;>
      omega
  unfold frac44
  have : (0 : ℚ) < ((cut44 start stop i
      - (if i = 0 then start - 1 else cut44 start stop (i - 1)) : Int) : ℚ) := by
    exact_mod_cast hnum
  exact div_pos this hden

/-- The expected counts of the 4x4 test are positive when it is performed. -/
theorem expected44_pos (b : Bounds) (cnt : Int) (hc : 0 < cnt)
    (hxb : b.Xstop - b.Xstart > 30) (hyb : b.Ystop - b.Ystart > 30)
    {j : Nat} (hj : j < 16) : 0 < expected44 b cnt j := by
  have h1 := frac44_pos b.Xstart b.Xstop hxb (i := j / 4) (by omega)
  have h2 := frac44_pos b.Ystart b.Ystop hyb (i := j % 4) (by omega)
  have hcq : (0 : ℚ) < (cnt : ℚ) := by exact_mod_cast hc
  unfold expected44
  positivity

theorem miTerm_eq_logArg {R : Type} [Field R] (log : R → R) (n : Nat) (cnt xext yext : Int) :
    miTerm log n cnt xext yext = ((cnt : R) / (n : R)) * log (logArg n cnt xext yext) := rfl

theorem logArg_pos (n : Nat) (cnt xext yext : Int) (hn : 0 < n) (hc : 0 < cnt) (hx : 0 < xext)
    (hy : 0 < yext) : (0 : ℝ) < logArg n cnt xext yext := by
  have hn' : (0 : ℝ) < (n : ℝ) := by exact_mod_cast hn
  have hc' : (0 : ℝ) < (cnt : ℝ) := by exact_mod_cast hc
  have hx' : (0 : ℝ) < (xext : ℝ) := by exact_mod_cast hx
  have hy' : (0 : ℝ) < (yext : ℝ) := by exact_mod_cast hy
  unfold logArg
  positivity

/-- What holds for a rectangle with at least two cases under the rectangle
invariant: no expected count is zero and no logarithm is taken of a
non-positive number. -/
theorem rect_no_zero_division {x y : IntArr} {n : Nat} {a : IntArr} {r : Rect}
    (hn : 2 ≤ n) (hx : IsRankPerm x n) (hy : IsRankPerm y n) (hr : RectInv x y n a r)
    (h2 : 2 ≤ r.DataStop - r.DataStart + 1) (xt yt : Option IntArr) :
    (0 : ℝ) < logArg n (r.DataStop - r.DataStart + 1) (r.Xstop - r.Xstart + 1)
      (r.Ystop - r.Ystart + 1) ∧
    ∀ cX cY, tieCenter xt r.Xstart r.Xstop = (false, cX) →
      tieCenter yt r.Ystart r.Ystop = (false, cY) →
      r.Xstart ≤ cX ∧ cX ≤ r.Xstop - 1 ∧ r.Ystart ≤ cY ∧ cY ≤ r.Ystop - 1 ∧
      (∀ i, i < 4 →
        0 < trialXstop r.toBounds cX i - trialXstart r.toBounds cX i + 1 ∧
        0 < trialYstop r.toBounds cY i - trialYstart r.toBounds cY i + 1 ∧
        0 < expected r.toBounds (r.DataStop - r.DataStart + 1) cX cY i ∧
        (0 < actual x y cX cY (spanList a r.DataStart r.DataStop) i →
          (0 : ℝ) < logArg n (actual x y cX cY (spanList a r.DataStart r.DataStop) i)
            (trialXstop r.toBounds cX i - trialXstart r.toBounds cX i + 1)
            (trialYstop r.toBounds cY i - trialYstart r.toBounds cY i + 1))) ∧
      (r.Xstop - r.Xstart > 30 → r.Ystop - r.Ystart > 30 →
        ∀ j, j < 16 → 0 < expected44 r.toBounds (r.DataStop - r.DataStart + 1) j) := by
  have hxlt := hr.x_lt hx h2
  have hylt := hr.y_lt hy h2
  refine ⟨logArg_pos n _ _ _ (by omega) (by omega) (by omega) (by omega), ?_⟩
  intro cX cY hcx hcy
  have hcx' := tieCenter_false hr.xstart_nonneg hr.x_le hcx
  have hcy' := tieCenter_false hr.ystart_nonneg hr.y_le hcy
  have hx2 := hcx'.2.2.1 hxlt
  have hy2 := hcy'.2.2.1 hylt
  refine ⟨hcx'.1, by omega, hcy'.1, by omega, ?_, ?_⟩
  · intro i hi
    obtain ⟨hX, hY⟩ := trial_extents r.toBounds cX cY hi
    have hXpos : 0 < trialXstop r.toBounds cX i - trialXstart r.toBounds cX i + 1 := by
      have := hcx'.1
      rcases hX with h | h <;> omega
    have hYpos : 0 < trialYstop r.toBounds cY i - trialYstart r.toBounds cY i + 1 := by
      have := hcy'.1
      rcases hY with h | h <;> omega
    refine ⟨hXpos, hYpos,
      expected_pos r.toBounds _ cX cY (by omega) hcx'.1 hx2 hcy'.1 hy2 hi, ?_⟩
    intro ha
    exact logArg_pos n _ _ _ (by omega) ha hXpos hYpos
  · intro hxb hyb j hj
    exact expected44_pos r.toBounds _ (by omega) hxb hyb hj

/-! ### The search for the nearest untied rank -/

/-- The search loop, started at offset `ioff` with every rank nearer than
`ioff` to the centre tied: it reports all tied exactly when every rank of
`[start, stop-1]` is tied, and otherwise returns an untied rank of that range
nearest to the centre. -/
theorem tieSearch_nearest (tied : IntArr) (start stop center : Int)
    (hm1 : center - start ≤ stop - center) (hm2 : stop - center ≤ center - start + 1)
    (fuel : Nat) (ioff : Int) (h1 : 1 ≤ ioff) (h2 : center + ioff ≤ stop)
    (hfuel : center - start + 1 ≤ (fuel : Int) + ioff)
    (hnear : ∀ q, start ≤ q → q < stop → |q - center| < ioff → tied q ≠ 0) :
    ((tieSearch tied start stop center fuel ioff).1 = true →
      ∀ q, start ≤ q → q < stop → tied q ≠ 0) ∧
    ((tieSearch tied start stop center fuel ioff).1 = false →
      start ≤ (tieSearch tied start stop center fuel ioff).2 ∧
      (tieSearch tied start stop center fuel ioff).2 < stop ∧
      tied (tieSearch tied start stop center fuel ioff).2 = 0 ∧
      ∀ q, start ≤ q → q < stop → tied q = 0 →
        |(tieSearch tied start stop center fuel ioff).2 - center| ≤ |q - center|) := by
  induction fuel generalizing ioff with
  | zero =>
    simp only [tieSearch]
    refine ⟨fun _ q hq1 hq2 => hnear q hq1 hq2 ?_, fun h => by simp at h⟩
    push_cast at hfuel
    rw [abs_lt]
    constructor <;> omega
  | succ fuel ih =>
    simp only [tieSearch]
    by_cases hge : center - ioff ≥ start
    · rw [if_pos hge]
      by_cases ht1 : tied (center - ioff) = 0
      · rw [if_pos ht1]
        refine ⟨fun h => by simp at h, fun _ => ⟨hge, by omega, ht1, ?_⟩⟩
        intro q hq1 hq2 hq0
        by_contra hcon
        push_neg at hcon
        have hlt : |q - center| < ioff := by
          have e : |(center - ioff) - center| = ioff := by
            rw [show center - ioff - center = -ioff by ring, abs_neg, abs_of_nonneg (by omega)]
          simp only at hcon
          rw [e] at hcon
          exact hcon
        exact hnear q hq1 hq2 hlt hq0
      · rw [if_neg ht1]
        by_cases hstop : center + ioff = stop
        · rw [if_pos hstop]
          refine ⟨fun _ q hq1 hq2 => ?_, fun h => by simp at h⟩
          by_cases hq : q = center - ioff
          · rw [hq]; exact ht1
          · refine hnear q hq1 hq2 ?_
            rw [abs_lt]
            constructor <;> omega
        · rw [if_neg hstop]
          by_cases ht2 : tied (center + ioff) = 0
          · rw [if_pos ht2]
            refine ⟨fun h => by simp at h, fun _ => ⟨by omega, by omega, ht2, ?_⟩⟩
            intro q hq1 hq2 hq0
            by_contra hcon
            push_neg at hcon
            have e : |(center + ioff) - center| = ioff := by
              rw [show center + ioff - center = ioff by ring, abs_of_nonneg (by omega)]
            simp only at hcon
            rw [e] at hcon
            exact hnear q hq1 hq2 hcon hq0
          · rw [if_neg ht2]
            refine ih (ioff + 1) (by omega) (by omega) (by push_cast at hfuel ⊢; omega) ?_
            intro q hq1 hq2 hlt
            by_cases ha : q = center - ioff
            · rw [ha]; exact ht1
            · by_cases hb : q = center + ioff
              · rw [hb]; exact ht2
              · refine hnear q hq1 hq2 ?_
                rw [abs_lt] at hlt ⊢
                constructor <;> omega
    · rw [if_neg hge]
      refine ⟨fun _ q hq1 hq2 => hnear q hq1 hq2 ?_, fun h => by simp at h⟩
      rw [abs_lt]
      constructor <;> omega

/-- The ranks computed by `rankTransform` with a sort that meets the contract
are a permutation of `0..n-1`. -/
theorem rankTransform_isRankPerm (sort : List (ℚ × Int) → List (ℚ × Int))
    (hs : SortContract sort) (n : Nat) (vals : List ℚ) (rt : Bool) :
    IsRankPerm (rankTransform sort n vals rt).1 n := by
  rw [rankTransform_fst]
  exact (hs.isSortedLoad n vals).isRankPerm rt

/-- With a sort that meets the contract `mut_inf` returns a value for every
sample of at least one case, whatever the criterion. -/
theorem mut_inf_returns (sort : List (ℚ × Int) → List (ℚ × Int)) (hs : SortContract sort)
    (n : Nat) (hn : 1 ≤ n) (dep xraw : List ℚ) (rtd rti : Bool) (crit : ℚ) :
    ∃ v : ℝ,
      MI_rec Real.log n (rankTransform sort n xraw rti).1 (rankTransform sort n dep rtd).1
        (rankTransform sort n xraw rti).2 (rankTransform sort n dep rtd).2 crit n
        (rootRect n).toBounds = some v ∧
      ∀ fuel, fuelBound n ≤ fuel →
        mut_inf sort Real.log (MutualInformationAdaptive.create sort n dep rtd crit) xraw rti fuel
          = some v := by
  obtain ⟨v, hrec, h⟩ := loop_eq_rec Real.log n (rankTransform sort n xraw rti).1
    (rankTransform sort n dep rtd).1 (rankTransform sort n xraw rti).2
    (rankTransform sort n dep rtd).2 crit hn (rankTransform_isRankPerm sort hs n xraw rti)
    (rankTransform_isRankPerm sort hs n dep rtd)
  refine ⟨v, hrec, fun fuel hf => ?_⟩
  rw [mut_inf_create]
  exact h fuel hf

/-- The constructor performs no check: a sample of one case with criterion
zero is ranked like any other. -/
theorem scenario1_ranks :
    (rankTransform qsortdsi 1 [7] false).1 0 = 0 ∧
    (MutualInformationAdaptive.create qsortdsi 1 [5] false 0).y 0 = 0 := by
  simp [MutualInformationAdaptive.create, rankTransform, qsortdsi, loadPairs, rankLoop, rankStep,
    List.range, List.range.loop, indexAt, uninit, Function.update]

/-- The one iteration of the main loop for a sample of one case and criterion
zero: the root is split (an expected count is zero) and its one case is folded
in as a cell of extent 1 by 1. -/
theorem scenario1_result (fuel : Nat) :
    mut_inf qsortdsi Real.log (MutualInformationAdaptive.create qsortdsi 1 [5] false 0) [7] false
      (fuel + 1) = some 0 := by
  rw [mut_inf_create]
  unfold initState
  rw [mut_inf_loop_cons]
  have hx := scenario1_ranks.1
  have hy : (rankTransform qsortdsi 1 [5] false).1 0 = 0 := scenario1_ranks.2
  have hstep : step Real.log 1 (rankTransform qsortdsi 1 [7] false).1
      (rankTransform qsortdsi 1 [5] false).1 (rankTransform qsortdsi 1 [7] false).2
      (rankTransform qsortdsi 1 [5] false).2 0 (rootRect 1)
      { indices := fun i => i, stack := [], MI := 0 }
      = { indices := fun i => i, stack := [], MI := 0 } := by
    rw [rankTransform_snd_false, rankTransform_snd_false]
    simp [step, rootRect, splittable, tieCenter, chiTests, spanList, spanN, chiExceeds, chiSquare,
      actual, expected, quadrant, trialXstart, trialXstop, trialYstart, trialYstop, splitSub,
      miTerm, List.range, List.range.loop, hx, hy, List.countP_cons,
      show Int.tdiv 0 2 = 0 by decide]
  rw [hstep, mut_inf_loop_nil]

/-! ### A split that pushes two rectangles -/

/-- Eight cases on the anti-diagonal with criterion 1: the root is split (the
statistic is `4.5`). -/
theorem antidiag8_splittable :
    splittable (fun k => 7 - k) (fun k => k) none none 1 (rootRect 8).toBounds
      ((rootRect 8).DataStop - (rootRect 8).DataStart + 1)
      (spanList (fun i => i) (rootRect 8).DataStart (rootRect 8).DataStop) = true := by
  simp [rootRect, splittable, tieCenter, chiTests, spanList, spanN, chiExceeds, chiSquare,
    actual, expected, quadrant, trialXstart, trialXstop, trialYstart, trialYstop,
    List.range, List.range.loop, show Int.tdiv 7 2 = 3 by decide, List.countP_cons]
  simp only [abs_eq_max_neg]
  norm_num

/-! ### The data span after a split -/

theorem spanN_add (a : IntArr) (s : Int) (m k : Nat) :
    spanN a s (m + k) = spanN a s m ++ spanN a (s + m) k := by
  induction m generalizing s with
  | zero => simp [spanN]
  | succ m ih =>
    rw [show m + 1 + k = (m + k) + 1 by omega, spanN_succ, spanN_succ, ih]
    simp only [List.cons_append, Nat.cast_succ]
    congr 3; ring

theorem pushedRuns_length (x y : IntArr) (cX cY : Int) (cur : List Int) (is : List Nat)
    (his : ∀ i ∈ is, i < 4) :
    (((pushedRuns x y cX cY cur is).length : Nat) : Int) = pushedTotal x y cX cY cur is := by
  induction is with
  | nil => simp [pushedRuns, pushedTotal]
  | cons i is ih =>
    have hi : i < 4 := his i (List.mem_cons_self _ _)
    have ih' := ih (fun j hj => his j (List.mem_cons_of_mem _ hj))
    have hlen := filter_inSubRec_length x y cX cY hi cur
    simp only [pushedRuns, pushedTotal, List.length_append, Nat.cast_add, ih']
    by_cases h3 : 3 ≤ actual x y cX cY cur i
    · simp only [ge_iff_le, h3, if_true, hlen]
    · simp only [ge_iff_le, h3, if_false, List.length_nil, Nat.cast_zero]

section FoldRuns

variable {R : Type} [Field R] (log : R → R) (n : Nat) (x y : IntArr) (b : Bounds)
  (cX cY : Int) (cur : List Int)

/-- The positions written by the loop over the sub-rectangles `is` hold the
runs of the pushed sub-rectangles, one after the other from `ipos`. -/
theorem foldl_splitSub_runs (is : List Nat) (his : ∀ i ∈ is, i < 4) (acc : State R × Int) :
    spanN (is.foldl (splitSub log n x y b cX cY cur) acc).1.indices acc.2
        (pushedRuns x y cX cY cur is).length
      = pushedRuns x y cX cY cur is := by
  induction is generalizing acc with
  | nil => simp [pushedRuns, spanN]
  | cons i is ih =>
    have hi : i < 4 := his i (List.mem_cons_self _ _)
    have his' : ∀ j ∈ is, j < 4 := fun j hj => his j (List.mem_cons_of_mem _ hj)
    rw [List.foldl_cons]
    by_cases h3 : 3 ≤ actual x y cX cY cur i
    · have ih1 := ih his' (splitSub log n x y b cX cY cur acc i)
      obtain ⟨_, _, _, f4, _⟩ := foldl_splitSub log n x y b cX cY cur is his'
        (splitSub log n x y b cX cY cur acc i)
      rw [splitSub_push log n x y b cX cY cur acc i h3] at ih1 f4 ⊢
      simp only [regroup_snd] at ih1 f4 ⊢
      simp only [pushedRuns, ge_iff_le, h3, if_true, List.length_append]
      rw [spanN_add, ih1]
      congr 1
      refine Eq.trans (spanN_congr ?_) (regroup_span (inSubRec x y cX cY i) cur acc.1.indices acc.2)
      intro q hq1 hq2
      exact f4 q (Or.inl (by omega))
    · have ih1 := ih his' (splitSub log n x y b cX cY cur acc i)
      rw [splitSub_small log n x y b cX cY cur acc i h3] at ih1 ⊢
      simp only [pushedRuns, ge_iff_le, h3, if_false, List.nil_append]
      exact ih1

end FoldRuns

theorem pushedTotal_le_length (x y : IntArr) (cX cY : Int) (cur : List Int) :
    pushedTotal x y cX cY cur [0, 1, 2, 3] ≤ (cur.length : Int) := by
  have a0 := actual_nonneg x y cX cY cur 0
  have a1 := actual_nonneg x y cX cY cur 1
  have a2 := actual_nonneg x y cX cY cur 2
  have a3 := actual_nonneg x y cX cY cur 3
  rw [← actual_sum x y cX cY cur]
  simp only [pushedTotal]
  split_ifs <;> omega

section StepSpan

variable {R : Type} [Field R] (log : R → R) (n : Nat) (x y : IntArr) (xt yt : Option IntArr)
  (crit : ℚ)

/-- The data span of a split rectangle after the split: the runs of the pushed
sub-rectangles, then the previous entries of the remaining positions; and
nothing else of `indices` is written. -/
theorem step_span (r : Rect) (s : State R)
    (h : splittable x y xt yt crit r.toBounds (r.DataStop - r.DataStart + 1)
      (spanList s.indices r.DataStart r.DataStop) = true) :
    spanList (step log n x y xt yt crit r s).indices r.DataStart r.DataStop
      = pushedRuns x y (tieCenter xt r.Xstart r.Xstop).2 (tieCenter yt r.Ystart r.Ystop).2
          (spanList s.indices r.DataStart r.DataStop) [0, 1, 2, 3]
        ++ spanList s.indices
          (r.DataStart + ((pushedRuns x y (tieCenter xt r.Xstart r.Xstop).2
            (tieCenter yt r.Ystart r.Ystop).2
            (spanList s.indices r.DataStart r.DataStop) [0, 1, 2, 3]).length : Int)) r.DataStop ∧
    ∀ q, q < r.DataStart ∨
        r.DataStart + ((pushedRuns x y (tieCenter xt r.Xstart r.Xstop).2
            (tieCenter yt r.Ystart r.Ystop).2
            (spanList s.indices r.DataStart r.DataStop) [0, 1, 2, 3]).length : Int) ≤ q →
      (step log n x y xt yt crit r s).indices q = s.indices q := by
  rw [step_split log n x y xt yt crit r s h]
  obtain ⟨_, _, _, f4, _⟩ := foldl_splitSub log n x y r.toBounds
    (tieCenter xt r.Xstart r.Xstop).2 (tieCenter yt r.Ystart r.Ystop).2
    (spanList s.indices r.DataStart r.DataStop) [0, 1, 2, 3] mem_range_four_lt (s, r.DataStart)
  have hruns := foldl_splitSub_runs log n x y r.toBounds
    (tieCenter xt r.Xstart r.Xstop).2 (tieCenter yt r.Ystart r.Ystop).2
    (spanList s.indices r.DataStart r.DataStop) [0, 1, 2, 3] mem_range_four_lt (s, r.DataStart)
  have hT := pushedRuns_length x y (tieCenter xt r.Xstart r.Xstop).2
    (tieCenter yt r.Ystart r.Ystop).2 (spanList s.indices r.DataStart r.DataStop) [0, 1, 2, 3]
    mem_range_four_lt
  have hle := pushedTotal_le_length x y (tieCenter xt r.Xstart r.Xstop).2
    (tieCenter yt r.Ystart r.Ystop).2 (spanList s.indices r.DataStart r.DataStop)
  rw [← hT] at f4 hle
  rw [spanList_length] at hle
  simp only at f4 hruns
  refine ⟨?_, f4⟩
  generalize (pushedRuns x y (tieCenter xt r.Xstart r.Xstop).2 (tieCenter yt r.Ystart r.Ystop).2
    (spanList s.indices r.DataStart r.DataStop) [0, 1, 2, 3]) = runs at f4 hruns hle ⊢
  have hL : (r.DataStop - r.DataStart + 1).toNat
      = runs.length + (r.DataStop - (r.DataStart + (runs.length : Int)) + 1).toNat := by omega
  conv_lhs => rw [spanList, hL, spanN_add, hruns]
  congr 1
  unfold spanList
  refine spanN_congr ?_
  intro q hq1 hq2
  exact f4 q (Or.inr hq1)

end StepSpan

/-- Thirteen cases, one in the lower left 7 by 7 square and six in each of the
off-diagonal rectangles: with criterion 6 the root is split. -/
theorem corner13_splittable :
    splittable (fun k => if k = 0 then 0 else if k ≤ 6 then k + 6 else k - 6) (fun k => k)
      none none 6 (rootRect 13).toBounds ((rootRect 13).DataStop - (rootRect 13).DataStart + 1)
      (spanList (fun i => i) (rootRect 13).DataStart (rootRect 13).DataStop) = true := by
  simp [rootRect, splittable, tieCenter, chiTests, spanList, spanN, chiExceeds, chiSquare,
    actual, expected, quadrant, trialXstart, trialXstop, trialYstart, trialYstop,
    List.range, List.range.loop, show Int.tdiv 12 2 = 6 by decide, List.countP_cons]
  simp only [abs_eq_max_neg]
  norm_num

/-- The runs written by the split of the root: the six cases of sub-rectangle 1,
then the six cases of sub-rectangle 2. -/
theorem corner13_runs :
    pushedRuns (fun k => if k = 0 then 0 else if k ≤ 6 then k + 6 else k - 6) (fun k => k)
      (tieCenter none (rootRect 13).Xstart (rootRect 13).Xstop).2
      (tieCenter none (rootRect 13).Ystart (rootRect 13).Ystop).2
      (spanList (fun i => i) (rootRect 13).DataStart (rootRect 13).DataStop) [0, 1, 2, 3]
      = [7, 8, 9, 10, 11, 12, 1, 2, 3, 4, 5, 6] := by
  simp [rootRect, pushedRuns, inSubRec, tieCenter, spanList, spanN, actual, quadrant,
    List.range, List.range.loop, show Int.tdiv 12 2 = 6 by decide, List.countP_cons,
    List.filter_cons]

/-- The four membership tests sort every case into exactly one run. -/
theorem filters_perm (x y : IntArr) (cX cY : Int) (cur : List Int) :
    (cur.filter (inSubRec x y cX cY 0) ++ (cur.filter (inSubRec x y cX cY 1)
      ++ (cur.filter (inSubRec x y cX cY 2) ++ cur.filter (inSubRec x y cX cY 3)))).Perm cur := by
  rw [List.perm_iff_count]
  intro a
  have cf : ∀ p : Int → Bool,
      List.count a (cur.filter p) = if p a = true then List.count a cur else 0 := by
    intro p
    by_cases h : p a = true
    · rw [if_pos h, List.count_filter h]
    · rw [if_neg h]
      exact List.count_eq_zero_of_not_mem (fun hm => h (List.mem_filter.mp hm).2)
  simp only [List.count_append, cf, inSubRec]
  by_cases hx : x a ≤ cX <;> by_cases hy : y a ≤ cY <;>
    simp [hx, hy, not_lt.mpr, lt_of_not_le]

/-- When no sub-rectangle holds 1 or 2 cases the runs of the pushed
sub-rectangles are a permutation of the saved span. -/
theorem pushedRuns_perm (x y : IntArr) (cX cY : Int) (cur : List Int)
    (hall : ∀ i, i < 4 → actual x y cX cY cur i = 0 ∨ 3 ≤ actual x y cX cY cur i) :
    (pushedRuns x y cX cY cur [0, 1, 2, 3]).Perm cur := by
  have key : ∀ i, i < 4 →
      (if actual x y cX cY cur i ≥ 3 then cur.filter (inSubRec x y cX cY i) else [])
        = cur.filter (inSubRec x y cX cY i) := by
    intro i hi
    rcases hall i hi with h0 | h3
    · have hlen := filter_inSubRec_length x y cX cY hi cur
      rw [h0] at hlen
      have hnil : cur.filter (inSubRec x y cX cY i) = [] :=
        List.length_eq_zero.mp (by exact_mod_cast hlen)
      rw [hnil]; simp
    · simp [h3]
  simp only [pushedRuns, key 0 (by decide), key 1 (by decide), key 2 (by decide),
    key 3 (by decide), List.append_nil]
  exact filters_perm x y cX cY cur

/-! ### A pushed sub-rectangle that holds every case of the split rectangle -/

/-- Thirty-two cases, four in each diagonal quadrant and twelve in each
off-diagonal one: with criterion 6 the root is split (the statistic is
`6.125`). -/
theorem diag32_splittable :
    splittable (fun k => if k ≤ 11 then k + 16 else if k ≤ 15 then k else
        if k ≤ 27 then k - 16 else k) (fun k => k)
      none none 6 (rootRect 32).toBounds ((rootRect 32).DataStop - (rootRect 32).DataStart + 1)
      (spanList (fun i => i) (rootRect 32).DataStart (rootRect 32).DataStop) = true := by
  simp [rootRect, splittable, tieCenter, chiTests, spanList, spanN, chiExceeds, chiSquare,
    actual, expected, quadrant, trialXstart, trialXstop, trialYstart, trialYstop,
    List.range, List.range.loop, show Int.tdiv 31 2 = 15 by decide, List.countP_cons]
  simp only [abs_eq_max_neg]
  norm_num

/-- All four sub-rectangles of the root are pushed. -/
theorem diag32_pushed :
    pushedRects (fun k => if k ≤ 11 then k + 16 else if k ≤ 15 then k else
        if k ≤ 27 then k - 16 else k) (fun k => k) (rootRect 32).toBounds
      (tieCenter none (rootRect 32).Xstart (rootRect 32).Xstop).2
      (tieCenter none (rootRect 32).Ystart (rootRect 32).Ystop).2
      (spanList (fun i => i) (rootRect 32).DataStart (rootRect 32).DataStop)
      [0, 1, 2, 3] (rootRect 32).DataStart
      = [{ Xstart := 0, Xstop := 15, Ystart := 0, Ystop := 15, DataStart := 0, DataStop := 3 },
         { Xstart := 0, Xstop := 15, Ystart := 16, Ystop := 31, DataStart := 4, DataStop := 15 },
         { Xstart := 16, Xstop := 31, Ystart := 0, Ystop := 15, DataStart := 16, DataStop := 27 },
         { Xstart := 16, Xstop := 31, Ystart := 16, Ystop := 31,
           DataStart := 28, DataStop := 31 }] := by
  simp [rootRect, pushedRects, pushedRect, tieCenter, spanList, spanN, actual, quadrant,
    trialXstart, trialXstop, trialYstart, trialYstop, List.range, List.range.loop,
    show Int.tdiv 31 2 = 15 by decide, List.countP_cons]

theorem diag32_perm :
    IsRankPerm (fun k => if k ≤ 11 then k + 16 else if k ≤ 15 then k else
        if k ≤ 27 then k - 16 else k) 32 ∧ IsRankPerm (fun k => k) 32 := by
  constructor <;> decide

theorem diag32_cases :
    casesIn (fun k => if k ≤ 11 then k + 16 else if k ≤ 15 then k else
        if k ≤ 27 then k - 16 else k) (fun k => k) 32
      { Xstart := 16, Xstop := 31, Ystart := 16, Ystop := 31 } = [28, 29, 30, 31] := by
  decide

/-- The stack after the first iteration: the four sub-rectangles of the root,
the upper right one on top. -/
theorem diag32_first_stack :
    (step Real.log 32 (fun k => if k ≤ 11 then k + 16 else if k ≤ 15 then k else
        if k ≤ 27 then k - 16 else k) (fun k => k) none none 6 (rootRect 32)
      { indices := fun i => i, stack := [], MI := 0 }).stack
      = [{ Xstart := 16, Xstop := 31, Ystart := 16, Ystop := 31, DataStart := 28, DataStop := 31 },
         { Xstart := 16, Xstop := 31, Ystart := 0, Ystop := 15, DataStart := 16, DataStop := 27 },
         { Xstart := 0, Xstop := 15, Ystart := 16, Ystop := 31, DataStart := 4, DataStop := 15 },
         { Xstart := 0, Xstop := 15, Ystart := 0, Ystop := 15, DataStart := 0, DataStop := 3 }] := by
  rw [step_split_state Real.log 32 _ _ none none 6 (rootRect 32) (fun i => i) diag32_splittable,
    diag32_pushed]
  rfl

/-- The span of the rectangle on top of the stack after the first iteration
holds the four cases of the upper right quadrant. -/
theorem diag32_top_span :
    (spanList (step Real.log 32 (fun k => if k ≤ 11 then k + 16 else if k ≤ 15 then k else
        if k ≤ 27 then k - 16 else k) (fun k => k) none none 6 (rootRect 32)
      { indices := fun i => i, stack := [], MI := 0 }).indices 28 31).Perm [28, 29, 30, 31] := by
  have hinv := loopState_StackInv Real.log 32
    (fun k => if k ≤ 11 then k + 16 else if k ≤ 15 then k else if k ≤ 27 then k - 16 else k)
    (fun k => k) none none 6 1 (initState 32)
    (initState_StackInv 32 _ _ (by decide) diag32_perm.1 diag32_perm.2)
  simp only [loopState, initState] at hinv
  have hr := hinv.2 (⟨⟨16, 31, 16, 31⟩, 28, 31⟩ : Rect)
    (by rw [diag32_first_stack]; exact List.mem_cons_self _ _)
  have hp := hr.perm_casesIn
  rw [diag32_cases] at hp
  exact hp

/-- A rectangle with ranks 16..31 on both axes whose span 28..31 holds the four
cases of the upper right quadrant is split (its four cases lie in one of its
sub-rectangles and the statistic is `7`), and the one sub-rectangle pushed has
the same span. -/
theorem diag32_top_step (a : IntArr) (hp : (spanList a 28 31).Perm [28, 29, 30, 31])
    (rest : List Rect) (mi : ℝ) :
    splittable (fun k => if k ≤ 11 then k + 16 else if k ≤ 15 then k else
        if k ≤ 27 then k - 16 else k) (fun k => k) none none 6
      { Xstart := 16, Xstop := 31, Ystart := 16, Ystop := 31 } (31 - 28 + 1)
      (spanList a 28 31) = true ∧
    (step Real.log 32 (fun k => if k ≤ 11 then k + 16 else if k ≤ 15 then k else
        if k ≤ 27 then k - 16 else k) (fun k => k) none none 6
      { Xstart := 16, Xstop := 31, Ystart := 16, Ystop := 31, DataStart := 28, DataStop := 31 }
      { indices := a, stack := rest, MI := mi }).stack
      = { Xstart := 24, Xstop := 31, Ystart := 24, Ystop := 31, DataStart := 28, DataStop := 31 }
          :: rest := by
  have hsp : splittable (fun k => if k ≤ 11 then k + 16 else if k ≤ 15 then k else
        if k ≤ 27 then k - 16 else k) (fun k => k) none none 6
      { Xstart := 16, Xstop := 31, Ystart := 16, Ystop := 31 } (31 - 28 + 1)
      (spanList a 28 31) = true := by
    rw [splittable_perm _ _ none none 6 _ _ hp]
    simp [splittable, tieCenter, chiTests, chiExceeds, chiSquare,
      actual, expected, quadrant, trialXstart, trialXstop, trialYstart, trialYstop,
      List.range, List.range.loop, show Int.tdiv 47 2 = 23 by decide, List.countP_cons]
    simp only [abs_eq_max_neg]
    norm_num
  refine ⟨hsp, ?_⟩
  rw [step_split_state Real.log 32 _ _ none none 6 (⟨⟨16, 31, 16, 31⟩, 28, 31⟩ : Rect) a hsp]
  simp only [pushedRects, actual_perm _ _ _ _ hp]
  simp [pushedRect, tieCenter, actual, quadrant,
    trialXstart, trialXstop, trialYstart, trialYstop,
    show Int.tdiv 47 2 = 23 by decide, List.countP_cons]

theorem loopState_cons {R : Type} [Field R] (log : R → R) (n : Nat) (x y : IntArr)
    (xt yt : Option IntArr) (crit : ℚ) (k : Nat) (s : State R) (r : Rect) (rest : List Rect)
    (h : s.stack = r :: rest) :
    loopState log n x y xt yt crit (k + 1) s
      = loopState log n x y xt yt crit k
          (step log n x y xt yt crit r { indices := s.indices, stack := rest, MI := s.MI }) := by
  rw [loopState]
  split
  · rename_i h0; rw [h0] at h; cases h
  · rename_i r' rest' h1
    rw [h1] at h
    cases h
    rfl

/-- The stack after the second iteration: the rectangle on top is replaced by
its one pushed sub-rectangle. -/
theorem diag32_second_stack :
    (loopState Real.log 32 (fun k => if k ≤ 11 then k + 16 else if k ≤ 15 then k else
        if k ≤ 27 then k - 16 else k) (fun k => k) none none 6 2 (initState 32)).stack
      = [{ Xstart := 24, Xstop := 31, Ystart := 24, Ystop := 31, DataStart := 28, DataStop := 31 },
         { Xstart := 16, Xstop := 31, Ystart := 0, Ystop := 15, DataStart := 16, DataStop := 27 },
         { Xstart := 0, Xstop := 15, Ystart := 16, Ystop := 31, DataStart := 4, DataStop := 15 },
         { Xstart := 0, Xstop := 15, Ystart := 0, Ystop := 15, DataStart := 0, DataStop := 3 }] := by
  show (loopState Real.log 32 _ _ none none 6 2
    { indices := fun i => i, stack := [rootRect 32], MI := 0 }).stack = _
  rw [loopState_cons Real.log 32 _ _ none none 6 1 _ (rootRect 32) [] rfl]
  dsimp only
  rw [loopState_cons Real.log 32 _ _ none none 6 0 _ _ _ diag32_first_stack]
  simp only [loopState]
  exact (diag32_top_step _ diag32_top_span _ _).2

section Pushed

variable {R : Type} [Field R] (log : R → R) (n : Nat) (x y : IntArr) (xt yt : Option IntArr)
  (crit : ℚ)

/-- What a split pushes: each pushed sub-rectangle holds at least 3 and at most
as many cases as the split rectangle, fewer exactly when some case of the split
rectangle lies outside it, and its rank extents are smaller on both axes. -/
theorem step_pushed_counts (hx : IsRankPerm x n) (hy : IsRankPerm y n) (r : Rect) (s : State R)
    (hr : RectInv x y n s.indices r)
    (h : splittable x y xt yt crit r.toBounds (r.DataStop - r.DataStart + 1)
      (spanList s.indices r.DataStart r.DataStop) = true) :
    ∃ pushed : List Rect,
      (step log n x y xt yt crit r s).stack = pushed.reverse ++ s.stack ∧
      ∀ c ∈ pushed,
        3 ≤ c.DataStop - c.DataStart + 1 ∧
        c.DataStop - c.DataStart + 1 ≤ r.DataStop - r.DataStart + 1 ∧
        (c.DataStop - c.DataStart + 1 < r.DataStop - r.DataStart + 1 ↔
          ∃ k ∈ spanList s.indices r.DataStart r.DataStop, inBounds x y c.toBounds k = false) ∧
        c.Xstop - c.Xstart < r.Xstop - r.Xstart ∧
        c.Ystop - c.Ystart < r.Ystop - r.Ystart := by
  obtain ⟨g1, _, _, _⟩ := step_split_spec log n x y xt yt crit r s hr h
  refine ⟨_, g1, ?_⟩
  intro c hc
  obtain ⟨i, hi, h3, hceq, _, _⟩ := pushedRects_mem x y r.toBounds _ _ _ _ _ c hc
  have hi4 : i < 4 := mem_range_four_lt i hi
  have hcen := splittable_centers h
  have hcx := tieCenter_false hr.xstart_nonneg hr.x_le hcen.1
  have hcy := tieCenter_false hr.ystart_nonneg hr.y_le hcen.2
  have hsum := actual_sum x y (tieCenter xt r.Xstart r.Xstop).2 (tieCenter yt r.Ystart r.Ystop).2
    (spanList s.indices r.DataStart r.DataStop)
  have hlen := hr.length_eq
  have a0 := actual_nonneg x y (tieCenter xt r.Xstart r.Xstop).2
    (tieCenter yt r.Ystart r.Ystop).2 (spanList s.indices r.DataStart r.DataStop) 0
  have a1 := actual_nonneg x y (tieCenter xt r.Xstart r.Xstop).2
    (tieCenter yt r.Ystart r.Ystop).2 (spanList s.indices r.DataStart r.DataStop) 1
  have a2 := actual_nonneg x y (tieCenter xt r.Xstart r.Xstop).2
    (tieCenter yt r.Ystart r.Ystop).2 (spanList s.indices r.DataStart r.DataStop) 2
  have a3 := actual_nonneg x y (tieCenter xt r.Xstart r.Xstop).2
    (tieCenter yt r.Ystart r.Ystop).2 (spanList s.indices r.DataStart r.DataStop) 3
  have hcnt : c.DataStop - c.DataStart + 1
      = actual x y (tieCenter xt r.Xstart r.Xstop).2 (tieCenter yt r.Ystart r.Ystop).2
          (spanList s.indices r.DataStart r.DataStop) i := by
    rw [hceq]; simp only [pushedRect]; omega
  have hle : actual x y (tieCenter xt r.Xstart r.Xstop).2 (tieCenter yt r.Ystart r.Ystop).2
      (spanList s.indices r.DataStart r.DataStop) i ≤ r.DataStop - r.DataStart + 1 := by
    have h4 : i = 0 ∨ i = 1 ∨ i = 2 ∨ i = 3 := by omega
    rcases h4 with rfl | rfl | rfl | rfl <;> omega
  have hxlt := hr.x_lt hx (by omega)
  have hylt := hr.y_lt hy (by omega)
  have hbx : c.Xstop - c.Xstart + 1 = trialXstop r.toBounds (tieCenter xt r.Xstart r.Xstop).2 i
      - trialXstart r.toBounds (tieCenter xt r.Xstart r.Xstop).2 i + 1 := by
    rw [hceq]; rfl
  have hby : c.Ystop - c.Ystart + 1 = trialYstop r.toBounds (tieCenter yt r.Ystart r.Ystop).2 i
      - trialYstart r.toBounds (tieCenter yt r.Ystart r.Ystop).2 i + 1 := by
    rw [hceq]; rfl
  obtain ⟨hX, hY⟩ := trial_extents r.toBounds (tieCenter xt r.Xstart r.Xstop).2
    (tieCenter yt r.Ystart r.Ystop).2 hi4
  have hcx3 := hcx.2.2.1 hxlt
  have hcy3 := hcy.2.2.1 hylt
  refine ⟨by omega, by omega, ?_, by rcases hX with e | e <;> omega,
    by rcases hY with e | e <;> omega⟩
  have hcb : c.toBounds = trialBounds r.toBounds (tieCenter xt r.Xstart r.Xstop).2
      (tieCenter yt r.Ystart r.Ystop).2 i := by
    rw [hceq]; rfl
  rw [hcnt, ← hlen, hcb]
  unfold actual
  rw [Nat.cast_lt]
  constructor
  · intro hlt
    by_contra hcon
    push_neg at hcon
    have hall : ∀ k ∈ spanList s.indices r.DataStart r.DataStop,
        (quadrant x y (tieCenter xt r.Xstart r.Xstop).2 (tieCenter yt r.Ystart r.Ystop).2 k == i)
          = true := by
      intro k hk
      have hb : inBounds x y (trialBounds r.toBounds (tieCenter xt r.Xstart r.Xstop).2
          (tieCenter yt r.Ystart r.Ystop).2 i) k = true := by simpa using hcon k hk
      rw [inBounds_trial x y r.toBounds _ _ hi4 hcx.1 hcx.2.1 hcy.1 hcy.2.1 k] at hb
      simp only [Bool.and_eq_true] at hb
      exact hb.2
    rw [List.countP_eq_length.mpr hall] at hlt
    exact lt_irrefl _ hlt
  · rintro ⟨k, hk, hb⟩
    refine lt_of_le_of_ne (List.countP_le_length _) ?_
    intro he
    have hq := List.countP_eq_length.mp he k hk
    rw [inBounds_trial x y r.toBounds _ _ hi4 hcx.1 hcx.2.1 hcy.1 hcy.2.1 k, hq,
      ((hr.mem_iff k).mp hk).2.2] at hb
    simp at hb

end Pushed

/-! ### The two chi-square tests -/

/-- When no expected count is zero, `testval > crit` is the comparison of the
statistic with the criterion. -/
theorem chiExceeds_eq (cells : List (Int × ℚ)) (crit : ℚ) (h : ∀ c ∈ cells, c.2 ≠ 0) :
    chiExceeds cells crit = decide (chiSquare cells > crit) := by
  unfold chiExceeds
  have : cells.any (fun c => decide (c.2 = 0)) = false := by
    rw [List.any_eq_false]
    intro c hc
    simpa using h c hc
  rw [this, Bool.false_or]

/-- Thirty-one cases in four blocks along the diagonal, the two middle blocks
exchanged: the 2x2 statistic of the root is below `6`, the 16 cell statistic
is above `18`, and the root is not split. -/
theorem blocks31_tests :
    chiSquare ((List.range 4).map (fun i =>
      (actual (fun k => if k ≤ 6 then k else if k ≤ 14 then k + 8 else
          if k ≤ 22 then k - 8 else k) (fun k => k) 15 15
        (spanList (fun i => i) 0 30) i, expected (rootRect 31).toBounds 31 15 15 i))) ≤ 6 ∧
    chiSquare ((List.range 16).map (fun j =>
      (actual44 (fun k => if k ≤ 6 then k else if k ≤ 14 then k + 8 else
          if k ≤ 22 then k - 8 else k) (fun k => k) (rootRect 31).toBounds
        (spanList (fun i => i) 0 30) j, expected44 (rootRect 31).toBounds 31 j))) > 3 * 6 := by
  constructor
  · simp [rootRect, spanList, spanN, chiSquare,
      actual, expected, quadrant, trialXstart, trialXstop, trialYstart, trialYstop,
      List.range, List.range.loop, List.countP_cons]
    simp only [abs_eq_max_neg]
    norm_num
  · simp [rootRect, spanList, spanN, chiSquare, actual44, expected44, cell44, cut44, frac44,
      List.range, List.range.loop, List.countP_cons,
      show Int.tdiv 31 4 = 7 by decide, show Int.tdiv 62 4 = 15 by decide,
      show Int.tdiv 93 4 = 23 by decide, show Int.tdiv 124 4 = 31 by decide]
    simp only [abs_eq_max_neg]
    norm_num

theorem blocks31_not_splittable :
    splittable (fun k => if k ≤ 6 then k else if k ≤ 14 then k + 8 else
        if k ≤ 22 then k - 8 else k) (fun k => k) none none 6 (rootRect 31).toBounds
      ((rootRect 31).DataStop - (rootRect 31).DataStart + 1)
      (spanList (fun i => i) (rootRect 31).DataStart (rootRect 31).DataStop) = false := by
  simp [rootRect, splittable, tieCenter, chiTests, spanList, spanN, chiExceeds, chiSquare,
    actual, expected, quadrant, trialXstart, trialXstop, trialYstart, trialYstop,
    List.range, List.range.loop, show Int.tdiv 30 2 = 15 by decide, List.countP_cons]
  simp only [abs_eq_max_neg]
  norm_num

/-- The decision of lines 484-577 for a rectangle whose centres are `cX`, `cY`
and whose expected counts are not zero. -/
theorem splittable_iff_tests (x y : IntArr) (xt yt : Option IntArr) (crit : ℚ) (b : Bounds)
    (cnt : Int) (cases : List Int) (cX cY : Int)
    (hcx : tieCenter xt b.Xstart b.Xstop = (false, cX))
    (hcy : tieCenter yt b.Ystart b.Ystop = (false, cY))
    (h4 : ∀ i, i < 4 → expected b cnt cX cY i ≠ 0)
    (h16 : b.Xstop - b.Xstart > 30 → b.Ystop - b.Ystart > 30 →
      ∀ j, j < 16 → expected44 b cnt j ≠ 0) :
    splittable x y xt yt crit b cnt cases = true ↔
      if chiSquare ((List.range 4).map
            (fun i => (actual x y cX cY cases i, expected b cnt cX cY i))) ≤ crit
          ∧ b.Xstop - b.Xstart > 30 ∧ b.Ystop - b.Ystart > 30 then
        chiSquare ((List.range 16).map (fun j => (actual44 x y b cases j, expected44 b cnt j)))
          > 3 * crit
      else
        chiSquare ((List.range 4).map
          (fun i => (actual x y cX cY cases i, expected b cnt cX cY i))) > crit := by
  have e4 : chiExceeds ((List.range 4).map
      (fun i => (actual x y cX cY cases i, expected b cnt cX cY i))) crit
      = decide (chiSquare ((List.range 4).map
          (fun i => (actual x y cX cY cases i, expected b cnt cX cY i))) > crit) := by
    refine chiExceeds_eq _ _ ?_
    intro c hc
    rw [List.mem_map] at hc
    obtain ⟨i, hi, rfl⟩ := hc
    exact h4 i (List.mem_range.mp hi)
  unfold splittable
  simp only [hcx, hcy, Bool.or_self, Bool.false_eq_true, if_false]
  unfold chiTests
  simp only [e4]
  by_cases hbig : b.Xstop - b.Xstart > 30 ∧ b.Ystop - b.Ystart > 30
  · have e16 : chiExceeds ((List.range 16).map
        (fun j => (actual44 x y b cases j, expected44 b cnt j))) (3 * crit)
        = decide (chiSquare ((List.range 16).map
            (fun j => (actual44 x y b cases j, expected44 b cnt j))) > 3 * crit) := by
      refine chiExceeds_eq _ _ ?_
      intro c hc
      rw [List.mem_map] at hc
      obtain ⟨j, hj, rfl⟩ := hc
      exact h16 hbig.1 hbig.2 j (List.mem_range.mp hj)
    simp only [e16]
    by_cases h2 : chiSquare ((List.range 4).map
        (fun i => (actual x y cX cY cases i, expected b cnt cX cY i))) > crit
    · simp [h2, hbig.1, hbig.2, not_le.mpr h2]
    · simp [h2, hbig.1, hbig.2, not_lt.mp h2]
  · have hb' : ¬ (chiSquare ((List.range 4).map
          (fun i => (actual x y cX cY cases i, expected b cnt cX cY i))) ≤ crit
        ∧ b.Xstop - b.Xstart > 30 ∧ b.Ystop - b.Ystart > 30) := fun hh => hbig hh.2
    rw [if_neg hb']
    have hcond : (!decide (chiSquare ((List.range 4).map
          (fun i => (actual x y cX cY cases i, expected b cnt cX cY i))) > crit)
        && decide (b.Xstop - b.Xstart > 30) && decide (b.Ystop - b.Ystart > 30)) = false := by
      rw [Bool.and_assoc, Bool.and_eq_false_iff]
      right
      rw [← Bool.decide_and]
      exact decide_eq_false hbig
    rw [hcond]
    simp

/-! ### The cases counted by the contributions -/

theorem casesIn_trial_length (x y : IntArr) (n : Nat) (b : Bounds) (cX cY : Int) {i : Nat}
    (hi : i < 4) (hx1 : b.Xstart ≤ cX) (hx2 : cX ≤ b.Xstop) (hy1 : b.Ystart ≤ cY)
    (hy2 : cY ≤ b.Ystop) :
    ((casesIn x y n (trialBounds b cX cY i)).length : Int)
      = actual x y cX cY (casesIn x y n b) i := by
  unfold actual casesIn
  rw [List.countP_eq_length_filter, List.filter_filter]
  congr 2
  refine List.filter_congr ?_
  intro k _
  rw [inBounds_trial x y b cX cY hi hx1 hx2 hy1 hy2 k, Bool.and_comm]

/-- The cases of a rectangle are those of its four trial sub-rectangles. -/
theorem casesIn_trial_sum (x y : IntArr) (n : Nat) (b : Bounds) (cX cY : Int)
    (hx1 : b.Xstart ≤ cX) (hx2 : cX ≤ b.Xstop) (hy1 : b.Ystart ≤ cY) (hy2 : cY ≤ b.Ystop) :
    ((casesIn x y n (trialBounds b cX cY 0)).length : Int)
      + ((casesIn x y n (trialBounds b cX cY 1)).length : Int)
      + ((casesIn x y n (trialBounds b cX cY 2)).length : Int)
      + ((casesIn x y n (trialBounds b cX cY 3)).length : Int)
      = ((casesIn x y n b).length : Int) := by
  rw [casesIn_trial_length x y n b cX cY (by decide) hx1 hx2 hy1 hy2,
    casesIn_trial_length x y n b cX cY (by decide) hx1 hx2 hy1 hy2,
    casesIn_trial_length x y n b cX cY (by decide) hx1 hx2 hy1 hy2,
    casesIn_trial_length x y n b cX cY (by decide) hx1 hx2 hy1 hy2]
  exact actual_sum x y cX cY (casesIn x y n b)

theorem sumOpt_four {R : Type} [Add R] [Zero R] (a b c d : Option R) (v : R)
    (h : sumOpt [a, b, c, d] = some v) :
    ∃ v0 v1 v2 v3, a = some v0 ∧ b = some v1 ∧ c = some v2 ∧ d = some v3 ∧
      v = v0 + (v1 + (v2 + (v3 + 0))) := by
  cases a with
  | none => simp [sumOpt] at h
  | some v0 =>
    cases b with
    | none => simp [sumOpt] at h
    | some v1 =>
      cases c with
      | none => simp [sumOpt] at h
      | some v2 =>
        cases d with
        | none => simp [sumOpt] at h
        | some v3 =>
          simp only [sumOpt, Option.some.injEq] at h
          exact ⟨v0, v1, v2, v3, rfl, rfl, rfl, rfl, h.symm⟩

/-- A trial sub-rectangle that holds a case has valid bounds. -/
theorem trialBounds_valid (x y : IntArr) (n : Nat) (b : Bounds) (cX cY : Int) (i : Nat)
    (h0x : 0 ≤ b.Xstart) (h0y : 0 ≤ b.Ystart) (hx1 : b.Xstart ≤ cX) (hy1 : b.Ystart ≤ cY)
    (hc : 0 < ((casesIn x y n (trialBounds b cX cY i)).length : Int)) :
    0 ≤ (trialBounds b cX cY i).Xstart ∧
    (trialBounds b cX cY i).Xstart ≤ (trialBounds b cX cY i).Xstop ∧
    0 ≤ (trialBounds b cX cY i).Ystart ∧
    (trialBounds b cX cY i).Ystart ≤ (trialBounds b cX cY i).Ystop := by
  have hne : casesIn x y n (trialBounds b cX cY i) ≠ [] := by
    intro he; rw [he] at hc; simp at hc
  obtain ⟨k, hk⟩ := List.exists_mem_of_ne_nil _ hne
  have hb := (mem_casesIn.mp hk).2.2
  simp only [inBounds, Bool.and_eq_true, decide_eq_true_eq] at hb
  refine ⟨?_, by omega, ?_, by omega⟩
  · simp only [trialBounds, trialXstart]; split <;> omega
  · simp only [trialBounds, trialYstart]; split <;> omega

/-- With every logarithm replaced by 1 a contribution is `pxy`, and the value
of a rectangle is the fraction of the cases that lie inside it. -/
theorem MI_rec_counts (n : Nat) (x y : IntArr) (xt yt : Option IntArr) (crit : ℚ) :
    ∀ (d : Nat) (b : Bounds) (v : ℝ), 0 ≤ b.Xstart → b.Xstart ≤ b.Xstop → 0 ≤ b.Ystart →
      b.Ystart ≤ b.Ystop →
      MI_rec (fun _ : ℝ => 1) n x y xt yt crit d b = some v →
      v = ((casesIn x y n b).length : ℝ) / (n : ℝ) := by
  intro d
  induction d with
  | zero => intro b v _ _ _ _ hv; simp [MI_rec] at hv
  | succ d ih =>
    intro b v h0x hxle h0y hyle hv
    by_cases hsp : splittable x y xt yt crit b ((casesIn x y n b).length : Int)
        (casesIn x y n b) = true
    · rw [MI_rec_split (fun _ : ℝ => 1) n x y xt yt crit d b hsp] at hv
      have hcen := splittable_centers hsp
      have hcx := tieCenter_false h0x hxle hcen.1
      have hcy := tieCenter_false h0y hyle hcen.2
      have key : ∀ i, i < 4 → ∀ w : ℝ,
          (if ((casesIn x y n (trialBounds b (tieCenter xt b.Xstart b.Xstop).2
              (tieCenter yt b.Ystart b.Ystop).2 i)).length : Int) ≥ 3 then
            MI_rec (fun _ : ℝ => 1) n x y xt yt crit d (trialBounds b
              (tieCenter xt b.Xstart b.Xstop).2 (tieCenter yt b.Ystart b.Ystop).2 i)
          else if ((casesIn x y n (trialBounds b (tieCenter xt b.Xstart b.Xstop).2
              (tieCenter yt b.Ystart b.Ystop).2 i)).length : Int) > 0 then
            some (miTerm (fun _ : ℝ => 1) n
              ((casesIn x y n (trialBounds b (tieCenter xt b.Xstart b.Xstop).2
                (tieCenter yt b.Ystart b.Ystop).2 i)).length : Int)
              ((trialBounds b (tieCenter xt b.Xstart b.Xstop).2
                (tieCenter yt b.Ystart b.Ystop).2 i).Xstop
                - (trialBounds b (tieCenter xt b.Xstart b.Xstop).2
                  (tieCenter yt b.Ystart b.Ystop).2 i).Xstart + 1)
              ((trialBounds b (tieCenter xt b.Xstart b.Xstop).2
                (tieCenter yt b.Ystart b.Ystop).2 i).Ystop
                - (trialBounds b (tieCenter xt b.Xstart b.Xstop).2
                  (tieCenter yt b.Ystart b.Ystop).2 i).Ystart + 1))
          else some 0) = some w →
          w = (((casesIn x y n (trialBounds b (tieCenter xt b.Xstart b.Xstop).2
              (tieCenter yt b.Ystart b.Ystop).2 i)).length : Int) : ℝ) / (n : ℝ) := by
        intro i _ w hw
        split at hw
        · rename_i h3
          obtain ⟨q1, q2, q3, q4⟩ := trialBounds_valid x y n b _ _ i h0x h0y hcx.1 hcy.1
            (by omega)
          rw [ih _ w q1 q2 q3 q4 hw]
          simp
        · split at hw
          · simp only [Option.some.injEq] at hw
            rw [← hw]; unfold miTerm; simp
          · rename_i h3 h0
            simp only [Option.some.injEq] at hw
            have hz : ((casesIn x y n (trialBounds b (tieCenter xt b.Xstart b.Xstop).2
                (tieCenter yt b.Ystart b.Ystop).2 i)).length : Int) = 0 := by omega
            rw [← hw, hz]; simp
      simp only [List.map_cons, List.map_nil] at hv
      obtain ⟨v0, v1, v2, v3, e0, e1, e2, e3, rfl⟩ := sumOpt_four _ _ _ _ _ hv
      rw [key 0 (by decide) v0 e0, key 1 (by decide) v1 e1, key 2 (by decide) v2 e2,
        key 3 (by decide) v3 e3]
      have hsum := casesIn_trial_sum x y n b _ _ hcx.1 hcx.2.1 hcy.1 hcy.2.1
      have hsum' : ((((casesIn x y n b).length : Nat) : Int) : ℝ)
          = ((casesIn x y n b).length : ℝ) := by simp
      rw [← hsum', ← hsum]
      push_cast
      ring
    · have hsp' : splittable x y xt yt crit b ((casesIn x y n b).length : Int)
          (casesIn x y n b) = false := by simpa using hsp
      rw [MI_rec_leaf (fun _ : ℝ => 1) n x y xt yt crit d b hsp'] at hv
      simp only [Option.some.injEq] at hv
      rw [← hv]; unfold miTerm; simp

theorem loopState_nil {R : Type} [Field R] (log : R → R) (n : Nat) (x y : IntArr)
    (xt yt : Option IntArr) (crit : ℚ) (k : Nat) (s : State R) (h : s.stack = []) :
    loopState log n x y xt yt crit k s = s := by
  cases k with
  | zero => rfl
  | succ k =>
    rw [loopState]
    split
    · rfl
    · rename_i r rest h1
      rw [h1] at h
      cases h

section LogFree

variable {R : Type} [Field R] (log log' : R → R) (n : Nat) (x y : IntArr)
  (xt yt : Option IntArr) (crit : ℚ)

/-- The loop over the sub-rectangles writes the same `indices`, stack and
`ipos` whatever function is used for the logarithm. -/
theorem foldl_splitSub_log (b : Bounds) (cX cY : Int) (cur : List Int) (is : List Nat)
    (acc acc' : State R × Int) (h1 : acc.1.indices = acc'.1.indices)
    (h2 : acc.1.stack = acc'.1.stack) (h3 : acc.2 = acc'.2) :
    (is.foldl (splitSub log n x y b cX cY cur) acc).1.indices
        = (is.foldl (splitSub log' n x y b cX cY cur) acc').1.indices ∧
    (is.foldl (splitSub log n x y b cX cY cur) acc).1.stack
        = (is.foldl (splitSub log' n x y b cX cY cur) acc').1.stack ∧
    (is.foldl (splitSub log n x y b cX cY cur) acc).2
        = (is.foldl (splitSub log' n x y b cX cY cur) acc').2 := by
  induction is generalizing acc acc' with
  | nil => exact ⟨h1, h2, h3⟩
  | cons i is ih =>
    rw [List.foldl_cons, List.foldl_cons]
    by_cases ha : 3 ≤ actual x y cX cY cur i
    · refine ih _ _ ?_ ?_ ?_ <;>
        rw [splitSub_push log n x y b cX cY cur acc i ha,
          splitSub_push log' n x y b cX cY cur acc' i ha, h1, h2, h3]
    · refine ih _ _ ?_ ?_ ?_ <;>
        rw [splitSub_small log n x y b cX cY cur acc i ha,
          splitSub_small log' n x y b cX cY cur acc' i ha]
      · exact h1
      · exact h2
      · exact h3

theorem step_log (r : Rect) (s s' : State R) (h1 : s.indices = s'.indices)
    (h2 : s.stack = s'.stack) :
    (step log n x y xt yt crit r s).indices = (step log' n x y xt yt crit r s').indices ∧
    (step log n x y xt yt crit r s).stack = (step log' n x y xt yt crit r s').stack := by
  by_cases hsp : splittable x y xt yt crit r.toBounds (r.DataStop - r.DataStart + 1)
      (spanList s.indices r.DataStart r.DataStop) = true
  · have hsp' := hsp
    rw [h1] at hsp'
    rw [step_split log n x y xt yt crit r s hsp, step_split log' n x y xt yt crit r s' hsp']
    have h := foldl_splitSub_log log log' n x y r.toBounds (tieCenter xt r.Xstart r.Xstop).2
      (tieCenter yt r.Ystart r.Ystop).2 (spanList s.indices r.DataStart r.DataStop)
      [0, 1, 2, 3] (s, r.DataStart) (s', r.DataStart) h1 h2 rfl
    rw [← h1]
    exact ⟨h.1, h.2.1⟩
  · have hf : splittable x y xt yt crit r.toBounds (r.DataStop - r.DataStart + 1)
        (spanList s.indices r.DataStart r.DataStop) = false := by simpa using hsp
    have hf' := hf
    rw [h1] at hf'
    rw [step_leaf log n x y xt yt crit r s hf, step_leaf log' n x y xt yt crit r s' hf']
    exact ⟨h1, h2⟩

/-- The rectangles handled and the array `indices` do not depend on the
function used for the logarithm. -/
theorem loopState_log (k : Nat) (s s' : State R) (h1 : s.indices = s'.indices)
    (h2 : s.stack = s'.stack) :
    (loopState log n x y xt yt crit k s).indices
      = (loopState log' n x y xt yt crit k s').indices ∧
    (loopState log n x y xt yt crit k s).stack
      = (loopState log' n x y xt yt crit k s').stack := by
  induction k generalizing s s' with
  | zero => exact ⟨h1, h2⟩
  | succ k ih =>
    cases hst : s.stack with
    | nil =>
      have hst' : s'.stack = [] := by rw [← h2, hst]
      rw [loopState_nil log n x y xt yt crit (k + 1) s hst,
        loopState_nil log' n x y xt yt crit (k + 1) s' hst']
      exact ⟨h1, h2⟩
    | cons r rest =>
      have hst' : s'.stack = r :: rest := by rw [← h2, hst]
      rw [loopState_cons log n x y xt yt crit k s r rest hst,
        loopState_cons log' n x y xt yt crit k s' r rest hst']
      obtain ⟨e1, e2⟩ := step_log log log' n x y xt yt crit r
        { indices := s.indices, stack := rest, MI := s.MI }
        { indices := s'.indices, stack := rest, MI := s'.MI } h1 rfl
      exact ih _ _ e1 e2

end LogFree

/-- With every logarithm replaced by 1 the loop returns 1: the `pxy` of the
contributions sum to 1. -/
theorem loop_counts (n : Nat) (hn : 1 ≤ n) (x y : IntArr) (hx : IsRankPerm x n)
    (hy : IsRankPerm y n) (xt yt : Option IntArr) (crit : ℚ) (fuel : Nat)
    (hfuel : fuelBound n ≤ fuel) :
    mut_inf_loop (fun _ : ℝ => 1) n x y xt yt crit fuel (initState n) = some 1 := by
  obtain ⟨v, hrec, hloop⟩ := loop_eq_rec (fun _ : ℝ => 1) n x y xt yt crit hn hx hy
  rw [hloop fuel hfuel]
  have hroot : RectInv x y n (fun i => i) (rootRect n) := rootRect_inv hn hx hy
  have hv := MI_rec_counts n x y xt yt crit n (rootRect n).toBounds v hroot.xstart_nonneg
    hroot.x_le hroot.ystart_nonneg hroot.y_le hrec
  have hcnt := hroot.count_eq
  have hlen : (casesIn x y n (rootRect n).toBounds).length = n := by
    have : (((casesIn x y n (rootRect n).toBounds).length : Nat) : Int) = (n : Int) := by
      rw [← hcnt]; simp only [rootRect]; ring
    exact_mod_cast this
  rw [hv, hlen]
  have hn0 : (n : ℝ) ≠ 0 := by
    have : (0 : ℝ) < (n : ℝ) := by exact_mod_cast hn
    exact ne_of_gt this
  rw [div_self hn0]

/-! ### The log-sum inequality for four cells -/

theorem log_sum_term (p q P Q : ℝ) (hp : 0 ≤ p) (hq : 0 ≤ q) (hpq : 0 < p → 0 < q)
    (hP : 0 < P) (hQ : 0 < Q) :
    p * Real.log (P / Q) + p - q * (P / Q) ≤ p * Real.log (p / q) := by
  rcases eq_or_lt_of_le hp with h0 | hpos
  · rw [← h0]
    have : 0 ≤ q * (P / Q) := mul_nonneg hq (le_of_lt (div_pos hP hQ))
    simp only [zero_mul, zero_add, zero_sub, zero_div, Real.log_zero, mul_zero]
    linarith
  · have hqpos := hpq hpos
    have hPQ : 0 < P / Q := div_pos hP hQ
    have hpq' : 0 < p / q := div_pos hpos hqpos
    have harg : 0 < (q / p) * (P / Q) := mul_pos (div_pos hqpos hpos) hPQ
    have hlog := Real.log_le_sub_one_of_pos harg
    have hsplit : Real.log ((q / p) * (P / Q)) = Real.log (P / Q) - Real.log (p / q) := by
      rw [Real.log_mul (ne_of_gt (div_pos hqpos hpos)) (ne_of_gt hPQ),
        show q / p = (p / q)⁻¹ by rw [inv_div], Real.log_inv]
      ring
    rw [hsplit] at hlog
    have hmul := mul_le_mul_of_nonneg_left hlog hp
    have he : p * ((q / p) * (P / Q) - 1) = q * (P / Q) - p := by
      field_simp
      ring
    rw [he] at hmul
    linarith

theorem log_sum_four (p0 p1 p2 p3 q0 q1 q2 q3 : ℝ) (hp0 : 0 ≤ p0) (hp1 : 0 ≤ p1)
    (hp2 : 0 ≤ p2) (hp3 : 0 ≤ p3) (hq0 : 0 ≤ q0) (hq1 : 0 ≤ q1) (hq2 : 0 ≤ q2) (hq3 : 0 ≤ q3)
    (h0 : 0 < p0 → 0 < q0) (h1 : 0 < p1 → 0 < q1) (h2 : 0 < p2 → 0 < q2)
    (h3 : 0 < p3 → 0 < q3) (hQ : 0 < q0 + q1 + q2 + q3) :
    (p0 + p1 + p2 + p3) * Real.log ((p0 + p1 + p2 + p3) / (q0 + q1 + q2 + q3))
      ≤ p0 * Real.log (p0 / q0) + p1 * Real.log (p1 / q1) + p2 * Real.log (p2 / q2)
        + p3 * Real.log (p3 / q3) := by
  have hP : 0 ≤ p0 + p1 + p2 + p3 := by linarith
  rcases eq_or_lt_of_le hP with hz | hpos
  · have e0 : p0 = 0 := by linarith
    have e1 : p1 = 0 := by linarith
    have e2 : p2 = 0 := by linarith
    have e3 : p3 = 0 := by linarith
    rw [e0, e1, e2, e3]
    simp
  · have t0 := log_sum_term p0 q0 _ _ hp0 hq0 h0 hpos hQ
    have t1 := log_sum_term p1 q1 _ _ hp1 hq1 h1 hpos hQ
    have t2 := log_sum_term p2 q2 _ _ hp2 hq2 h2 hpos hQ
    have t3 := log_sum_term p3 q3 _ _ hp3 hq3 h3 hpos hQ
    have hcancel : (q0 + q1 + q2 + q3) * ((p0 + p1 + p2 + p3) / (q0 + q1 + q2 + q3))
        = p0 + p1 + p2 + p3 := by
      field_simp
    nlinarith [t0, t1, t2, t3, hcancel]

/-- The contribution of a rectangle is at most the sum of the contributions of
the four cells of a 2x2 split of it. -/
theorem miTerm_split_le (n : Nat) (hn : 0 < n) (c0 c1 c2 c3 xa xb ya yb : Int)
    (hc0 : 0 ≤ c0) (hc1 : 0 ≤ c1) (hc2 : 0 ≤ c2) (hc3 : 0 ≤ c3)
    (hxa : 0 < xa) (hxb : 0 ≤ xb) (hya : 0 < ya) (hyb : 0 ≤ yb)
    (h1 : 0 < c1 → 0 < yb) (h2 : 0 < c2 → 0 < xb) (h3 : 0 < c3 → 0 < xb ∧ 0 < yb) :
    miTerm Real.log n (c0 + c1 + c2 + c3) (xa + xb) (ya + yb)
      ≤ miTerm Real.log n c0 xa ya + miTerm Real.log n c1 xa yb
        + miTerm Real.log n c2 xb ya + miTerm Real.log n c3 xb yb := by
  have hn' : (0 : ℝ) < (n : ℝ) := by exact_mod_cast hn
  have r0 : (0 : ℝ) ≤ (c0 : ℝ) := by exact_mod_cast hc0
  have r1 : (0 : ℝ) ≤ (c1 : ℝ) := by exact_mod_cast hc1
  have r2 : (0 : ℝ) ≤ (c2 : ℝ) := by exact_mod_cast hc2
  have r3 : (0 : ℝ) ≤ (c3 : ℝ) := by exact_mod_cast hc3
  have rxa : (0 : ℝ) < (xa : ℝ) := by exact_mod_cast hxa
  have rxb : (0 : ℝ) ≤ (xb : ℝ) := by exact_mod_cast hxb
  have rya : (0 : ℝ) < (ya : ℝ) := by exact_mod_cast hya
  have ryb : (0 : ℝ) ≤ (yb : ℝ) := by exact_mod_cast hyb
  have pos_of : ∀ c : Int, (0 : ℝ) < (c : ℝ) / (n : ℝ) → 0 < c := by
    intro c hc
    have : (0 : ℝ) < (c : ℝ) := by
      by_contra hcon
      push_neg at hcon
      have := div_nonpos_of_nonpos_of_nonneg hcon (le_of_lt hn')
      linarith
    exact_mod_cast this
  have key := log_sum_four ((c0 : ℝ) / n) ((c1 : ℝ) / n) ((c2 : ℝ) / n) ((c3 : ℝ) / n)
    ((xa : ℝ) / n * ((ya : ℝ) / n)) ((xa : ℝ) / n * ((yb : ℝ) / n))
    ((xb : ℝ) / n * ((ya : ℝ) / n)) ((xb : ℝ) / n * ((yb : ℝ) / n))
    (by positivity) (by positivity) (by positivity) (by positivity)
    (by positivity) (by positivity) (by positivity) (by positivity)
    (fun _ => by positivity)
    (fun h => by
      have hy : (0 : ℝ) < (yb : ℝ) := by exact_mod_cast h1 (pos_of c1 h)
      positivity)
    (fun h => by
      have hx : (0 : ℝ) < (xb : ℝ) := by exact_mod_cast h2 (pos_of c2 h)
      positivity)
    (fun h => by
      have hx : (0 : ℝ) < (xb : ℝ) := by exact_mod_cast (h3 (pos_of c3 h)).1
      have hy : (0 : ℝ) < (yb : ℝ) := by exact_mod_cast (h3 (pos_of c3 h)).2
      positivity)
    (by
      have : (0 : ℝ) < (xa : ℝ) / n * ((ya : ℝ) / n) := by positivity
      have : (0 : ℝ) ≤ (xa : ℝ) / n * ((yb : ℝ) / n) := by positivity
      have : (0 : ℝ) ≤ (xb : ℝ) / n * ((ya : ℝ) / n) := by positivity
      have : (0 : ℝ) ≤ (xb : ℝ) / n * ((yb : ℝ) / n) := by positivity
      linarith)
  unfold miTerm
  simp only [Int.cast_add]
  have e1 : ((c0 : ℝ) + c1 + c2 + c3) / n = (c0 : ℝ) / n + (c1 : ℝ) / n + (c2 : ℝ) / n
      + (c3 : ℝ) / n := by ring
  have e2 : ((xa : ℝ) + xb) / n * (((ya : ℝ) + yb) / n)
      = (xa : ℝ) / n * ((ya : ℝ) / n) + (xa : ℝ) / n * ((yb : ℝ) / n)
        + (xb : ℝ) / n * ((ya : ℝ) / n) + (xb : ℝ) / n * ((yb : ℝ) / n) := by ring
  rw [e1, e2]
  exact key

theorem trialBounds_extents (b : Bounds) (cX cY : Int) :
    ((trialBounds b cX cY 0).Xstop - (trialBounds b cX cY 0).Xstart + 1 = cX - b.Xstart + 1 ∧
     (trialBounds b cX cY 0).Ystop - (trialBounds b cX cY 0).Ystart + 1 = cY - b.Ystart + 1) ∧
    ((trialBounds b cX cY 1).Xstop - (trialBounds b cX cY 1).Xstart + 1 = cX - b.Xstart + 1 ∧
     (trialBounds b cX cY 1).Ystop - (trialBounds b cX cY 1).Ystart + 1 = b.Ystop - cY) ∧
    ((trialBounds b cX cY 2).Xstop - (trialBounds b cX cY 2).Xstart + 1 = b.Xstop - cX ∧
     (trialBounds b cX cY 2).Ystop - (trialBounds b cX cY 2).Ystart + 1 = cY - b.Ystart + 1) ∧
    ((trialBounds b cX cY 3).Xstop - (trialBounds b cX cY 3).Xstart + 1 = b.Xstop - cX ∧
     (trialBounds b cX cY 3).Ystop - (trialBounds b cX cY 3).Ystart + 1 = b.Ystop - cY) := by
  refine ⟨⟨rfl, rfl⟩, ⟨rfl, ?_⟩, ⟨?_, rfl⟩, ⟨?_, ?_⟩⟩
  · show b.Ystop - (cY + 1) + 1 = b.Ystop - cY
    ring
  · show b.Xstop - (cX + 1) + 1 = b.Xstop - cX
    ring
  · show b.Xstop - (cX + 1) + 1 = b.Xstop - cX
    ring
  · show b.Ystop - (cY + 1) + 1 = b.Ystop - cY
    ring

/-- Over the reals the value of a rectangle is at least its own contribution:
splitting never lowers the estimate. -/
theorem MI_rec_lower (n : Nat) (hn : 0 < n) (x y : IntArr) (xt yt : Option IntArr) (crit : ℚ) :
    ∀ (d : Nat) (b : Bounds) (v : ℝ), 0 ≤ b.Xstart → b.Xstart ≤ b.Xstop → 0 ≤ b.Ystart →
      b.Ystart ≤ b.Ystop →
      MI_rec Real.log n x y xt yt crit d b = some v →
      miTerm Real.log n ((casesIn x y n b).length : Int) (b.Xstop - b.Xstart + 1)
        (b.Ystop - b.Ystart + 1) ≤ v := by
  intro d
  induction d with
  | zero => intro b v _ _ _ _ hv; simp [MI_rec] at hv
  | succ d ih =>
    intro b v h0x hxle h0y hyle hv
    by_cases hsp : splittable x y xt yt crit b ((casesIn x y n b).length : Int)
        (casesIn x y n b) = true
    · rw [MI_rec_split Real.log n x y xt yt crit d b hsp] at hv
      have hcen := splittable_centers hsp
      have hcx := tieCenter_false h0x hxle hcen.1
      have hcy := tieCenter_false h0y hyle hcen.2
      have key : ∀ i, i < 4 → ∀ w : ℝ,
          (if ((casesIn x y n (trialBounds b (tieCenter xt b.Xstart b.Xstop).2
              (tieCenter yt b.Ystart b.Ystop).2 i)).length : Int) ≥ 3 then
            MI_rec Real.log n x y xt yt crit d (trialBounds b
              (tieCenter xt b.Xstart b.Xstop).2 (tieCenter yt b.Ystart b.Ystop).2 i)
          else if ((casesIn x y n (trialBounds b (tieCenter xt b.Xstart b.Xstop).2
              (tieCenter yt b.Ystart b.Ystop).2 i)).length : Int) > 0 then
            some (miTerm Real.log n
              ((casesIn x y n (trialBounds b (tieCenter xt b.Xstart b.Xstop).2
                (tieCenter yt b.Ystart b.Ystop).2 i)).length : Int)
              ((trialBounds b (tieCenter xt b.Xstart b.Xstop).2
                (tieCenter yt b.Ystart b.Ystop).2 i).Xstop
                - (trialBounds b (tieCenter xt b.Xstart b.Xstop).2
                  (tieCenter yt b.Ystart b.Ystop).2 i).Xstart + 1)
              ((trialBounds b (tieCenter xt b.Xstart b.Xstop).2
                (tieCenter yt b.Ystart b.Ystop).2 i).Ystop
                - (trialBounds b (tieCenter xt b.Xstart b.Xstop).2
                  (tieCenter yt b.Ystart b.Ystop).2 i).Ystart + 1))
          else some 0) = some w →
          miTerm Real.log n
              ((casesIn x y n (trialBounds b (tieCenter xt b.Xstart b.Xstop).2
                (tieCenter yt b.Ystart b.Ystop).2 i)).length : Int)
              ((trialBounds b (tieCenter xt b.Xstart b.Xstop).2
                (tieCenter yt b.Ystart b.Ystop).2 i).Xstop
                - (trialBounds b (tieCenter xt b.Xstart b.Xstop).2
                  (tieCenter yt b.Ystart b.Ystop).2 i).Xstart + 1)
              ((trialBounds b (tieCenter xt b.Xstart b.Xstop).2
                (tieCenter yt b.Ystart b.Ystop).2 i).Ystop
                - (trialBounds b (tieCenter xt b.Xstart b.Xstop).2
                  (tieCenter yt b.Ystart b.Ystop).2 i).Ystart + 1) ≤ w := by
        intro i _ w hw
        split at hw
        · rename_i h3
          obtain ⟨q1, q2, q3, q4⟩ := trialBounds_valid x y n b _ _ i h0x h0y hcx.1 hcy.1
            (by omega)
          exact ih _ w q1 q2 q3 q4 hw
        · split at hw
          · simp only [Option.some.injEq] at hw
            rw [← hw]
          · rename_i h3 h0
            simp only [Option.some.injEq] at hw
            have hz : ((casesIn x y n (trialBounds b (tieCenter xt b.Xstart b.Xstop).2
                (tieCenter yt b.Ystart b.Ystop).2 i)).length : Int) = 0 := by omega
            rw [← hw, hz]; unfold miTerm; simp
      simp only [List.map_cons, List.map_nil] at hv
      obtain ⟨v0, v1, v2, v3, e0, e1, e2, e3, rfl⟩ := sumOpt_four _ _ _ _ _ hv
      have k0 := key 0 (by decide) v0 e0
      have k1 := key 1 (by decide) v1 e1
      have k2 := key 2 (by decide) v2 e2
      have k3 := key 3 (by decide) v3 e3
      obtain ⟨⟨x0, y0⟩, ⟨x1, y1⟩, ⟨x2, y2⟩, ⟨x3, y3⟩⟩ := trialBounds_extents b
        (tieCenter xt b.Xstart b.Xstop).2 (tieCenter yt b.Ystart b.Ystop).2
      rw [x0, y0] at k0
      rw [x1, y1] at k1
      rw [x2, y2] at k2
      rw [x3, y3] at k3
      have hsum := casesIn_trial_sum x y n b _ _ hcx.1 hcx.2.1 hcy.1 hcy.2.1
      have hv1 := fun h => (trialBounds_valid x y n b (tieCenter xt b.Xstart b.Xstop).2
        (tieCenter yt b.Ystart b.Ystop).2 1 h0x h0y hcx.1 hcy.1 h)
      have hv2 := fun h => (trialBounds_valid x y n b (tieCenter xt b.Xstart b.Xstop).2
        (tieCenter yt b.Ystart b.Ystop).2 2 h0x h0y hcx.1 hcy.1 h)
      have hv3 := fun h => (trialBounds_valid x y n b (tieCenter xt b.Xstart b.Xstop).2
        (tieCenter yt b.Ystart b.Ystop).2 3 h0x h0y hcx.1 hcy.1 h)
      have hsplit := miTerm_split_le n hn
        ((casesIn x y n (trialBounds b (tieCenter xt b.Xstart b.Xstop).2
          (tieCenter yt b.Ystart b.Ystop).2 0)).length : Int)
        ((casesIn x y n (trialBounds b (tieCenter xt b.Xstart b.Xstop).2
          (tieCenter yt b.Ystart b.Ystop).2 1)).length : Int)
        ((casesIn x y n (trialBounds b (tieCenter xt b.Xstart b.Xstop).2
          (tieCenter yt b.Ystart b.Ystop).2 2)).length : Int)
        ((casesIn x y n (trialBounds b (tieCenter xt b.Xstart b.Xstop).2
          (tieCenter yt b.Ystart b.Ystop).2 3)).length : Int)
        ((tieCenter xt b.Xstart b.Xstop).2 - b.Xstart + 1)
        (b.Xstop - (tieCenter xt b.Xstart b.Xstop).2)
        ((tieCenter yt b.Ystart b.Ystop).2 - b.Ystart + 1)
        (b.Ystop - (tieCenter yt b.Ystart b.Ystop).2)
        (Int.natCast_nonneg _) (Int.natCast_nonneg _) (Int.natCast_nonneg _)
        (Int.natCast_nonneg _) (by omega) (by omega) (by omega) (by omega)
        (fun h => by
          have q := (hv1 h).2.2.2
          simp only [trialBounds, trialYstart, trialYstop] at q
          norm_num at q
          omega)
        (fun h => by
          have q := (hv2 h).2.1
          simp only [trialBounds, trialXstart, trialXstop] at q
          norm_num at q
          omega)
        (fun h => by
          have q := (hv3 h).2.1
          have q' := (hv3 h).2.2.2
          simp only [trialBounds, trialXstart, trialXstop, trialYstart, trialYstop] at q q'
          norm_num at q q'
          constructor <;> omega)
      rw [hsum, show (tieCenter xt b.Xstart b.Xstop).2 - b.Xstart + 1
          + (b.Xstop - (tieCenter xt b.Xstart b.Xstop).2) = b.Xstop - b.Xstart + 1 by ring,
        show (tieCenter yt b.Ystart b.Ystop).2 - b.Ystart + 1
          + (b.Ystop - (tieCenter yt b.Ystart b.Ystop).2) = b.Ystop - b.Ystart + 1 by ring]
        at hsplit
      linarith
    · have hsp' : splittable x y xt yt crit b ((casesIn x y n b).length : Int)
          (casesIn x y n b) = false := by simpa using hsp
      rw [MI_rec_leaf Real.log n x y xt yt crit d b hsp'] at hv
      simp only [Option.some.injEq] at hv
      rw [← hv]

/-- The number of cases inside the root rectangle. -/
theorem casesIn_root_length {x y : IntArr} {n : Nat} (hn : 1 ≤ n) (hx : IsRankPerm x n)
    (hy : IsRankPerm y n) :
    (((casesIn x y n (rootRect n).toBounds).length : Nat) : Int) = (n : Int) - 1 - 0 + 1 := by
  have hroot : RectInv x y n (fun i => i) (rootRect n) := rootRect_inv hn hx hy
  rw [← hroot.count_eq]
  rfl

/-- Over the reals the value returned by the loop is not negative. -/
theorem loop_nonneg (n : Nat) (hn : 1 ≤ n) (x y : IntArr) (hx : IsRankPerm x n)
    (hy : IsRankPerm y n) (xt yt : Option IntArr) (crit : ℚ) :
    ∃ v : ℝ, 0 ≤ v ∧ ∀ fuel, fuelBound n ≤ fuel →
      mut_inf_loop Real.log n x y xt yt crit fuel (initState n) = some v := by
  obtain ⟨v, hrec, hloop⟩ := loop_eq_rec Real.log n x y xt yt crit hn hx hy
  refine ⟨v, ?_, hloop⟩
  have hroot : RectInv x y n (fun i => i) (rootRect n) := rootRect_inv hn hx hy
  have hlow := MI_rec_lower n (by omega) x y xt yt crit n (rootRect n).toBounds v
    hroot.xstart_nonneg hroot.x_le hroot.ystart_nonneg hroot.y_le hrec
  rw [casesIn_root_length hn hx hy] at hlow
  have hfull := miTerm_full n hn
  simp only [rootRect] at hlow
  rw [hfull] at hlow
  exact hlow

/-! ### The depth of the stack without ties -/

theorem DepthInv_append (n : Nat) (cs rest : List Rect) (hrest : DepthInv n rest)
    (hcs : ∀ c ∈ cs, rest.length + cs.length + 3 * Nat.clog 2 (xExtent c)
      ≤ 3 * Nat.clog 2 n + 1) :
    DepthInv n (cs ++ rest) := by
  induction cs with
  | nil => exact hrest
  | cons c cs ih =>
    refine ⟨?_, ih ?_⟩
    · have := hcs c (List.mem_cons_self _ _)
      have hl : (cs ++ rest).length = cs.length + rest.length := List.length_append _ _
      simp only [List.length_cons] at this
      show (cs ++ rest).length + 3 * Nat.clog 2 (xExtent c) ≤ 3 * Nat.clog 2 n
      omega
    · intro c' hc'
      have := hcs c' (List.mem_cons_of_mem _ hc')
      simp only [List.length_cons] at this
      omega

theorem DepthInv_length (n : Nat) (st : List Rect) (h : DepthInv n st) :
    st.length ≤ 3 * Nat.clog 2 n + 1 := by
  cases st with
  | nil => simp
  | cons r tl =>
    have := h.1
    simp only [List.length_cons]
    omega

/-- Halving an extent of at least 2, rounding up, saves one doubling. -/
theorem clog_half (e c : Nat) (he : 2 ≤ e) (hc : c ≤ (e + 1) / 2) :
    Nat.clog 2 c + 1 ≤ Nat.clog 2 e := by
  rw [Nat.clog_of_two_le (by decide) he]
  have := Nat.clog_mono_right 2 hc
  simpa using this

section Depth

variable {R : Type} [Field R] (log : R → R) (n : Nat) (x y : IntArr) (yt : Option IntArr)
  (crit : ℚ)

/-- Without ties on X one iteration keeps the depth invariant. -/
theorem step_DepthInv (hx : IsRankPerm x n) (r : Rect) (rest : List Rect) (a : IntArr) (mi : R)
    (hinv : StackInv x y n a (r :: rest)) (hd : DepthInv n (r :: rest)) :
    DepthInv n (step log n x y none yt crit r { indices := a, stack := rest, MI := mi }).stack := by
  have hr : RectInv x y n a r := hinv.2 r (List.mem_cons_self _ _)
  by_cases hsp : splittable x y none yt crit r.toBounds (r.DataStop - r.DataStart + 1)
      (spanList a r.DataStart r.DataStop) = true
  · obtain ⟨g1, _, _, g4⟩ := step_split_spec log n x y none yt crit r
      { indices := a, stack := rest, MI := mi } hr hsp
    rw [g1]
    refine DepthInv_append n _ rest hd.2 ?_
    intro c hc
    rw [List.mem_reverse] at hc
    obtain ⟨_, h1, h2, h3, i, hi, hb⟩ := g4 c hc
    have hlen := pushedRects_length x y r.toBounds (tieCenter none r.Xstart r.Xstop).2
      (tieCenter yt r.Ystart r.Ystop).2 (spanList a r.DataStart r.DataStop) [0, 1, 2, 3]
      r.DataStart
    have hxlt := hr.x_lt hx (by omega)
    have h0 := hr.xstart_nonneg
    obtain ⟨hX, _⟩ := trial_extents r.toBounds (tieCenter none r.Xstart r.Xstop).2
      (tieCenter yt r.Ystart r.Ystop).2 hi
    have hcX : c.Xstop - c.Xstart + 1
        = trialXstop r.toBounds (tieCenter none r.Xstart r.Xstop).2 i
          - trialXstart r.toBounds (tieCenter none r.Xstart r.Xstop).2 i + 1 := by
      have e1 : c.Xstop = (trialBounds r.toBounds (tieCenter none r.Xstart r.Xstop).2
          (tieCenter yt r.Ystart r.Ystop).2 i).Xstop := by rw [← hb]
      have e2 : c.Xstart = (trialBounds r.toBounds (tieCenter none r.Xstart r.Xstop).2
          (tieCenter yt r.Ystart r.Ystop).2 i).Xstart := by rw [← hb]
      rw [e1, e2]; rfl
    have hcen : (tieCenter none r.Xstart r.Xstop).2 = (r.Xstart + r.Xstop) / 2 := by
      simp only [tieCenter]
      exact Int.tdiv_eq_ediv (by omega) (by omega)
    have hhalf : xExtent c ≤ (xExtent r + 1) / 2 := by
      unfold xExtent
      rw [hcX]
      rcases hX with e | e <;> rw [e, hcen] <;> omega
    have he2 : 2 ≤ xExtent r := by unfold xExtent; omega
    have hclog := clog_half (xExtent r) (xExtent c) he2 hhalf
    have hdr := hd.1
    simp only [List.length_reverse]
    simp only [List.length_cons, List.length_nil] at hlen
    omega
  · have hsp' : splittable x y none yt crit r.toBounds (r.DataStop - r.DataStart + 1)
        (spanList a r.DataStart r.DataStop) = false := by simpa using hsp
    rw [step_leaf log n x y none yt crit r { indices := a, stack := rest, MI := mi } hsp']
    exact hd.2

theorem loopState_DepthInv (hx : IsRankPerm x n) (k : Nat) (s : State R)
    (hinv : StackInv x y n s.indices s.stack) (hd : DepthInv n s.stack) :
    DepthInv n (loopState log n x y none yt crit k s).stack := by
  induction k generalizing s with
  | zero => exact hd
  | succ k ih =>
    cases hst : s.stack with
    | nil => rw [loopState_nil log n x y none yt crit (k + 1) s hst, hst]; trivial
    | cons r rest =>
      rw [loopState_cons log n x y none yt crit k s r rest hst]
      rw [hst] at hinv hd
      exact ih _ (step_StackInv log n x y none yt crit r rest s.indices s.MI hinv)
        (step_DepthInv log n x y yt crit hx r rest s.indices s.MI hinv hd)

/-- Without ties on X the stack never holds more than `3 * ceil(log2 n) + 1`
rectangles. -/
theorem loopState_stack_length (hn : 1 ≤ n) (hx : IsRankPerm x n) (hy : IsRankPerm y n)
    (k : Nat) :
    (loopState log n x y none yt crit k (initState n)).stack.length
      ≤ 3 * Nat.clog 2 n + 1 := by
  refine DepthInv_length n _ (loopState_DepthInv log n x y yt crit hx k (initState n)
    (initState_StackInv n x y hn hx hy) ?_)
  refine ⟨?_, trivial⟩
  have : xExtent (rootRect n) = n := by
    unfold xExtent rootRect
    simp
  rw [this]
  simp

end Depth

/-! ### The estimate is at most `log n` -/

/-- Distinct ranks: a rectangle holds at most as many cases as it has X ranks. -/
theorem casesIn_length_le_x {x y : IntArr} {n : Nat} (b : Bounds) (hx : IsRankPerm x n) :
    (casesIn x y n b).length ≤ (b.Xstop + 1 - b.Xstart).toNat := by
  have hnd : ((casesIn x y n b).map x).Nodup := by
    refine List.Nodup.map_on ?_ (casesIn_nodup x y n b)
    intro k hk k' hk' he
    have m := mem_casesIn.mp hk
    have m' := mem_casesIn.mp hk'
    exact hx.inj m.1 m.2.1 m'.1 m'.2.1 he
  have hsub : ((casesIn x y n b).map x).toFinset ⊆ Finset.Icc b.Xstart b.Xstop := by
    intro v hv
    rw [List.mem_toFinset, List.mem_map] at hv
    obtain ⟨k, hk, rfl⟩ := hv
    have hb := (mem_casesIn.mp hk).2.2
    simp only [inBounds, Bool.and_eq_true, decide_eq_true_eq] at hb
    rw [Finset.mem_Icc]
    omega
  have hcard := Finset.card_le_card hsub
  rw [List.toFinset_card_of_nodup hnd, List.length_map, Int.card_Icc] at hcard
  exact hcard

/-- Distinct ranks: a rectangle holds at most as many cases as it has Y ranks. -/
theorem casesIn_length_le_y {x y : IntArr} {n : Nat} (b : Bounds) (hy : IsRankPerm y n) :
    (casesIn x y n b).length ≤ (b.Ystop + 1 - b.Ystart).toNat := by
  have hnd : ((casesIn x y n b).map y).Nodup := by
    refine List.Nodup.map_on ?_ (casesIn_nodup x y n b)
    intro k hk k' hk' he
    have m := mem_casesIn.mp hk
    have m' := mem_casesIn.mp hk'
    exact hy.inj m.1 m.2.1 m'.1 m'.2.1 he
  have hsub : ((casesIn x y n b).map y).toFinset ⊆ Finset.Icc b.Ystart b.Ystop := by
    intro v hv
    rw [List.mem_toFinset, List.mem_map] at hv
    obtain ⟨k, hk, rfl⟩ := hv
    have hb := (mem_casesIn.mp hk).2.2
    simp only [inBounds, Bool.and_eq_true, decide_eq_true_eq] at hb
    rw [Finset.mem_Icc]
    omega
  have hcard := Finset.card_le_card hsub
  rw [List.toFinset_card_of_nodup hnd, List.length_map, Int.card_Icc] at hcard
  exact hcard

/-- A cell with `c ≥ 1` cases and rank extents of at least `c` on both axes
contributes at most `pxy * log n`. -/
theorem miTerm_le_log (n : Nat) (c xe ye : Int) (hn : 0 < n) (hc : 0 < c) (hcx : c ≤ xe)
    (hcy : c ≤ ye) : miTerm Real.log n c xe ye ≤ (c : ℝ) / (n : ℝ) * Real.log (n : ℝ) := by
  have hn' : (0 : ℝ) < (n : ℝ) := by exact_mod_cast hn
  have hc' : (0 : ℝ) < (c : ℝ) := by exact_mod_cast hc
  have hx' : (0 : ℝ) < (xe : ℝ) := by exact_mod_cast (by omega : 0 < xe)
  have hy' : (0 : ℝ) < (ye : ℝ) := by exact_mod_cast (by omega : 0 < ye)
  have hcx' : (c : ℝ) ≤ (xe : ℝ) := by exact_mod_cast hcx
  have hy1 : (1 : ℝ) ≤ (ye : ℝ) := by exact_mod_cast (by omega : 1 ≤ ye)
  have hden : (0 : ℝ) < (xe : ℝ) / n * ((ye : ℝ) / n) := by positivity
  have harg : (0 : ℝ) < (c : ℝ) / n / ((xe : ℝ) / n * ((ye : ℝ) / n)) := by positivity
  have hle : (c : ℝ) / n / ((xe : ℝ) / n * ((ye : ℝ) / n)) ≤ (n : ℝ) := by
    rw [div_le_iff₀ hden]
    have e : (n : ℝ) * ((xe : ℝ) / n * ((ye : ℝ) / n)) = (xe : ℝ) * ye / n := by
      field_simp
      ring
    rw [e]
    have hxy : (c : ℝ) ≤ (xe : ℝ) * ye := by nlinarith
    exact div_le_div_of_nonneg_right hxy (le_of_lt hn')
  unfold miTerm
  exact mul_le_mul_of_nonneg_left (Real.log_le_log harg hle) (by positivity)

/-- Over the reals the value of a rectangle is at most `log n` times the
fraction of the cases inside it. -/
theorem MI_rec_upper (n : Nat) (hn : 0 < n) (x y : IntArr) (hx : IsRankPerm x n)
    (hy : IsRankPerm y n) (xt yt : Option IntArr) (crit : ℚ) :
    ∀ (d : Nat) (b : Bounds) (v : ℝ), 0 ≤ b.Xstart → b.Xstart ≤ b.Xstop → 0 ≤ b.Ystart →
      b.Ystart ≤ b.Ystop →
      MI_rec Real.log n x y xt yt crit d b = some v →
      v ≤ (((casesIn x y n b).length : Int) : ℝ) / (n : ℝ) * Real.log (n : ℝ) := by
  have leaf : ∀ (b : Bounds), 0 ≤ ((casesIn x y n b).length : Int) →
      miTerm Real.log n ((casesIn x y n b).length : Int) (b.Xstop - b.Xstart + 1)
        (b.Ystop - b.Ystart + 1)
      ≤ (((casesIn x y n b).length : Int) : ℝ) / (n : ℝ) * Real.log (n : ℝ) := by
    intro b _
    by_cases h0 : 0 < ((casesIn x y n b).length : Int)
    · have h1 := casesIn_length_le_x (y := y) b hx
      have h2 := casesIn_length_le_y (x := x) b hy
      exact miTerm_le_log n _ _ _ hn h0 (by omega) (by omega)
    · have hz : ((casesIn x y n b).length : Int) = 0 := by omega
      rw [hz]
      unfold miTerm
      simp
  intro d
  induction d with
  | zero => intro b v _ _ _ _ hv; simp [MI_rec] at hv
  | succ d ih =>
    intro b v h0x hxle h0y hyle hv
    by_cases hsp : splittable x y xt yt crit b ((casesIn x y n b).length : Int)
        (casesIn x y n b) = true
    · rw [MI_rec_split Real.log n x y xt yt crit d b hsp] at hv
      have hcen := splittable_centers hsp
      have hcx := tieCenter_false h0x hxle hcen.1
      have hcy := tieCenter_false h0y hyle hcen.2
      have key : ∀ i, i < 4 → ∀ w : ℝ,
          (if ((casesIn x y n (trialBounds b (tieCenter xt b.Xstart b.Xstop).2
              (tieCenter yt b.Ystart b.Ystop).2 i)).length : Int) ≥ 3 then
            MI_rec Real.log n x y xt yt crit d (trialBounds b
              (tieCenter xt b.Xstart b.Xstop).2 (tieCenter yt b.Ystart b.Ystop).2 i)
          else if ((casesIn x y n (trialBounds b (tieCenter xt b.Xstart b.Xstop).2
              (tieCenter yt b.Ystart b.Ystop).2 i)).length : Int) > 0 then
            some (miTerm Real.log n
              ((casesIn x y n (trialBounds b (tieCenter xt b.Xstart b.Xstop).2
                (tieCenter yt b.Ystart b.Ystop).2 i)).length : Int)
              ((trialBounds b (tieCenter xt b.Xstart b.Xstop).2
                (tieCenter yt b.Ystart b.Ystop).2 i).Xstop
                - (trialBounds b (tieCenter xt b.Xstart b.Xstop).2
                  (tieCenter yt b.Ystart b.Ystop).2 i).Xstart + 1)
              ((trialBounds b (tieCenter xt b.Xstart b.Xstop).2
                (tieCenter yt b.Ystart b.Ystop).2 i).Ystop
                - (trialBounds b (tieCenter xt b.Xstart b.Xstop).2
                  (tieCenter yt b.Ystart b.Ystop).2 i).Ystart + 1))
          else some 0) = some w →
          w ≤ (((casesIn x y n (trialBounds b (tieCenter xt b.Xstart b.Xstop).2
              (tieCenter yt b.Ystart b.Ystop).2 i)).length : Int) : ℝ) / (n : ℝ)
            * Real.log (n : ℝ) := by
        intro i _ w hw
        split at hw
        · rename_i h3
          obtain ⟨q1, q2, q3, q4⟩ := trialBounds_valid x y n b _ _ i h0x h0y hcx.1 hcy.1
            (by omega)
          exact ih _ w q1 q2 q3 q4 hw
        · split at hw
          · simp only [Option.some.injEq] at hw
            rw [← hw]
            exact leaf _ (Int.natCast_nonneg _)
          · rename_i h3 h0
            simp only [Option.some.injEq] at hw
            have hz : ((casesIn x y n (trialBounds b (tieCenter xt b.Xstart b.Xstop).2
                (tieCenter yt b.Ystart b.Ystop).2 i)).length : Int) = 0 := by omega
            rw [← hw, hz]; simp
      simp only [List.map_cons, List.map_nil] at hv
      obtain ⟨v0, v1, v2, v3, e0, e1, e2, e3, rfl⟩ := sumOpt_four _ _ _ _ _ hv
      have k0 := key 0 (by decide) v0 e0
      have k1 := key 1 (by decide) v1 e1
      have k2 := key 2 (by decide) v2 e2
      have k3 := key 3 (by decide) v3 e3
      have hsum := casesIn_trial_sum x y n b _ _ hcx.1 hcx.2.1 hcy.1 hcy.2.1
      rw [← hsum]
      push_cast
      have e : ((((casesIn x y n (trialBounds b (tieCenter xt b.Xstart b.Xstop).2
            (tieCenter yt b.Ystart b.Ystop).2 0)).length : ℝ)
          + ((casesIn x y n (trialBounds b (tieCenter xt b.Xstart b.Xstop).2
            (tieCenter yt b.Ystart b.Ystop).2 1)).length : ℝ)
          + ((casesIn x y n (trialBounds b (tieCenter xt b.Xstart b.Xstop).2
            (tieCenter yt b.Ystart b.Ystop).2 2)).length : ℝ)
          + ((casesIn x y n (trialBounds b (tieCenter xt b.Xstart b.Xstop).2
            (tieCenter yt b.Ystart b.Ystop).2 3)).length : ℝ)) / (n : ℝ)) * Real.log (n : ℝ)
        = ((casesIn x y n (trialBounds b (tieCenter xt b.Xstart b.Xstop).2
            (tieCenter yt b.Ystart b.Ystop).2 0)).length : ℝ) / (n : ℝ) * Real.log (n : ℝ)
          + ((casesIn x y n (trialBounds b (tieCenter xt b.Xstart b.Xstop).2
            (tieCenter yt b.Ystart b.Ystop).2 1)).length : ℝ) / (n : ℝ) * Real.log (n : ℝ)
          + ((casesIn x y n (trialBounds b (tieCenter xt b.Xstart b.Xstop).2
            (tieCenter yt b.Ystart b.Ystop).2 2)).length : ℝ) / (n : ℝ) * Real.log (n : ℝ)
          + ((casesIn x y n (trialBounds b (tieCenter xt b.Xstart b.Xstop).2
            (tieCenter yt b.Ystart b.Ystop).2 3)).length : ℝ) / (n : ℝ) * Real.log (n : ℝ) := by
        ring
      rw [e]
      push_cast at k0 k1 k2 k3
      linarith
    · have hsp' : splittable x y xt yt crit b ((casesIn x y n b).length : Int)
          (casesIn x y n b) = false := by simpa using hsp
      rw [MI_rec_leaf Real.log n x y xt yt crit d b hsp'] at hv
      simp only [Option.some.injEq] at hv
      rw [← hv]
      exact leaf b (Int.natCast_nonneg _)

/-- Over the reals the value returned by the loop is at most `log n`. -/
theorem loop_le_log (n : Nat) (hn : 1 ≤ n) (x y : IntArr) (hx : IsRankPerm x n)
    (hy : IsRankPerm y n) (xt yt : Option IntArr) (crit : ℚ) :
    ∃ v : ℝ, v ≤ Real.log (n : ℝ) ∧ ∀ fuel, fuelBound n ≤ fuel →
      mut_inf_loop Real.log n x y xt yt crit fuel (initState n) = some v := by
  obtain ⟨v, hrec, hloop⟩ := loop_eq_rec Real.log n x y xt yt crit hn hx hy
  refine ⟨v, ?_, hloop⟩
  have hroot : RectInv x y n (fun i => i) (rootRect n) := rootRect_inv hn hx hy
  have hup := MI_rec_upper n (by omega) x y hx hy xt yt crit n (rootRect n).toBounds v
    hroot.xstart_nonneg hroot.x_le hroot.ystart_nonneg hroot.y_le hrec
  rw [casesIn_root_length hn hx hy] at hup
  have hn0 : (n : ℝ) ≠ 0 := by
    have : (0 : ℝ) < (n : ℝ) := by exact_mod_cast hn
    exact ne_of_gt this
  have e : (((n : Int) - 1 - 0 + 1 : Int) : ℝ) / (n : ℝ) = 1 := by
    push_cast
    rw [sub_zero, sub_add_cancel, div_self hn0]
  rw [e, one_mul] at hup
  exact hup

/-! ### Exchanging the two variables -/

theorem inBounds_transpose (x y : IntArr) (b : Bounds) (k : Int) :
    inBounds y x (transpose b) k = inBounds x y b k := by
  simp only [inBounds, transpose]
  rw [Bool.eq_iff_iff]
  simp only [Bool.and_eq_true, decide_eq_true_eq]
  tauto

theorem casesIn_transpose (x y : IntArr) (n : Nat) (b : Bounds) :
    casesIn y x n (transpose b) = casesIn x y n b := by
  unfold casesIn
  refine List.filter_congr ?_
  intro k _
  exact inBounds_transpose x y b k

theorem quadrant_transpose (x y : IntArr) (cX cY : Int) (k : Int) :
    quadrant y x cY cX k = swapSub (quadrant x y cX cY k) := by
  unfold quadrant swapSub
  by_cases hx : x k ≤ cX <;> by_cases hy : y k ≤ cY <;> simp [hx, hy]

theorem swapSub_swapSub (i : Nat) : swapSub (swapSub i) = i := by
  unfold swapSub
  split_ifs <;> omega

theorem actual_transpose (x y : IntArr) (cX cY : Int) (cases : List Int) (i : Nat) :
    actual y x cY cX cases i = actual x y cX cY cases (swapSub i) := by
  unfold actual
  congr 1
  refine List.countP_congr ?_
  intro k _
  rw [quadrant_transpose]
  simp only [beq_iff_eq]
  constructor
  · intro h; rw [← h, swapSub_swapSub]
  · intro h; rw [h, swapSub_swapSub]

theorem expected_transpose (b : Bounds) (cnt cX cY : Int) {i : Nat} (hi : i < 4) :
    expected (transpose b) cnt cY cX i = expected b cnt cX cY (swapSub i) := by
  have h4 : i = 0 ∨ i = 1 ∨ i = 2 ∨ i = 3 := by omega
  rcases h4 with rfl | rfl | rfl | rfl <;>
    simp [expected, transpose, swapSub, trialXstart, trialXstop, trialYstart, trialYstop] <;>
    ring

theorem trialBounds_transpose (b : Bounds) (cX cY : Int) {i : Nat} (hi : i < 4) :
    trialBounds (transpose b) cY cX i = transpose (trialBounds b cX cY (swapSub i)) := by
  have h4 : i = 0 ∨ i = 1 ∨ i = 2 ∨ i = 3 := by omega
  rcases h4 with rfl | rfl | rfl | rfl <;>
    simp [transpose, swapSub, trialBounds, trialXstart, trialXstop, trialYstart, trialYstop]

theorem chiExceeds_perm {cells cells' : List (Int × ℚ)} (h : cells.Perm cells') (crit : ℚ) :
    chiExceeds cells crit = chiExceeds cells' crit := by
  unfold chiExceeds chiSquare
  rw [(h.map _).sum_eq]
  congr 1
  rw [Bool.eq_iff_iff]
  simp only [List.any_eq_true]
  constructor
  · rintro ⟨c, hc, hz⟩; exact ⟨c, h.mem_iff.mp hc, hz⟩
  · rintro ⟨c, hc, hz⟩; exact ⟨c, h.mem_iff.mpr hc, hz⟩

theorem cell44_lt (start stop v : Int) : cell44 start stop v < 4 := by
  unfold cell44
  split_ifs <;> decide

theorem actual44_transpose (x y : IntArr) (b : Bounds) (cases : List Int) {j : Nat}
    (hj : j < 16) :
    actual44 y x (transpose b) cases j = actual44 x y b cases (swapCell j) := by
  unfold actual44
  congr 1
  refine List.countP_congr ?_
  intro k _
  have h1 := cell44_lt b.Xstart b.Xstop (x k)
  have h2 := cell44_lt b.Ystart b.Ystop (y k)
  simp only [transpose, swapCell, beq_iff_eq]
  omega

theorem expected44_transpose (b : Bounds) (cnt : Int) {j : Nat} (hj : j < 16) :
    expected44 (transpose b) cnt j = expected44 b cnt (swapCell j) := by
  unfold expected44
  have e1 : swapCell j / 4 = j % 4 := by unfold swapCell; omega
  have e2 : swapCell j % 4 = j / 4 := by unfold swapCell; omega
  rw [e1, e2]
  simp only [transpose]
  ring

theorem swapCell_perm : ((List.range 16).map swapCell).Perm (List.range 16) := by
  decide

theorem cells4_transpose (x y : IntArr) (b : Bounds) (cnt cX cY : Int) (cases : List Int) :
    ((List.range 4).map
      (fun i => (actual y x cY cX cases i, expected (transpose b) cnt cY cX i))).Perm
    ((List.range 4).map
      (fun i => (actual x y cX cY cases i, expected b cnt cX cY i))) := by
  rw [range_four]
  simp only [List.map_cons, List.map_nil, actual_transpose x y cX cY cases,
    expected_transpose b cnt cX cY (show 0 < 4 by decide),
    expected_transpose b cnt cX cY (show 1 < 4 by decide),
    expected_transpose b cnt cX cY (show 2 < 4 by decide),
    expected_transpose b cnt cX cY (show 3 < 4 by decide)]
  exact List.Perm.cons _ (List.Perm.swap _ _ _)

theorem cells16_transpose (x y : IntArr) (b : Bounds) (cnt : Int) (cases : List Int) :
    ((List.range 16).map
      (fun j => (actual44 y x (transpose b) cases j, expected44 (transpose b) cnt j))).Perm
    ((List.range 16).map (fun j => (actual44 x y b cases j, expected44 b cnt j))) := by
  have e : (List.range 16).map
      (fun j => (actual44 y x (transpose b) cases j, expected44 (transpose b) cnt j))
      = ((List.range 16).map swapCell).map
          (fun j => (actual44 x y b cases j, expected44 b cnt j)) := by
    rw [List.map_map]
    refine List.map_congr_left ?_
    intro j hj
    rw [List.mem_range] at hj
    simp only [Function.comp, actual44_transpose x y b cases hj, expected44_transpose b cnt hj]
  rw [e]
  exact swapCell_perm.map _

theorem chiTests_transpose (x y : IntArr) (crit : ℚ) (b : Bounds) (cnt cX cY : Int)
    (cases : List Int) :
    chiTests y x crit (transpose b) cnt cY cX cases = chiTests x y crit b cnt cX cY cases := by
  unfold chiTests
  rw [chiExceeds_perm (cells4_transpose x y b cnt cX cY cases) crit,
    chiExceeds_perm (cells16_transpose x y b cnt cases) (3 * crit)]
  have hc : (decide ((transpose b).Xstop - (transpose b).Xstart > 30)
      && decide ((transpose b).Ystop - (transpose b).Ystart > 30))
      = (decide (b.Xstop - b.Xstart > 30) && decide (b.Ystop - b.Ystart > 30)) := by
    simp only [transpose]
    exact Bool.and_comm _ _
  simp only [Bool.and_assoc, hc]

theorem splittable_transpose (x y : IntArr) (xt yt : Option IntArr) (crit : ℚ) (b : Bounds)
    (cnt : Int) (cases : List Int) :
    splittable y x yt xt crit (transpose b) cnt cases
      = splittable x y xt yt crit b cnt cases := by
  unfold splittable
  have e1 : tieCenter yt (transpose b).Xstart (transpose b).Xstop
      = tieCenter yt b.Ystart b.Ystop := rfl
  have e2 : tieCenter xt (transpose b).Ystart (transpose b).Ystop
      = tieCenter xt b.Xstart b.Xstop := rfl
  simp only [e1, e2, chiTests_transpose]
  rw [Bool.or_comm]

theorem miTerm_comm {R : Type} [Field R] (log : R → R) (n : Nat) (cnt xext yext : Int) :
    miTerm log n cnt yext xext = miTerm log n cnt xext yext := by
  unfold miTerm
  simp only [mul_comm]

theorem sumOpt_swap {R : Type} [Field R] (a b c d : Option R) :
    sumOpt [a, c, b, d] = sumOpt [a, b, c, d] := by
  cases a <;> cases b <;> cases c <;> cases d <;> simp [sumOpt, add_left_comm]

section Transpose

variable {R : Type} [Field R] (log : R → R) (n : Nat) (x y : IntArr) (xt yt : Option IntArr)
  (crit : ℚ)

/-- The value of sub-rectangle `i` with the axes exchanged is the value of
sub-rectangle `swapSub i`. -/
theorem child_transpose (d : Nat)
    (ih : ∀ b : Bounds, MI_rec log n y x yt xt crit d (transpose b)
      = MI_rec log n x y xt yt crit d b)
    (b : Bounds) (cX cY : Int) {i : Nat} (hi : i < 4) :
    (if ((casesIn y x n (trialBounds (transpose b) cY cX i)).length : Int) ≥ 3 then
        MI_rec log n y x yt xt crit d (trialBounds (transpose b) cY cX i)
      else if ((casesIn y x n (trialBounds (transpose b) cY cX i)).length : Int) > 0 then
        some (miTerm log n ((casesIn y x n (trialBounds (transpose b) cY cX i)).length : Int)
          ((trialBounds (transpose b) cY cX i).Xstop
            - (trialBounds (transpose b) cY cX i).Xstart + 1)
          ((trialBounds (transpose b) cY cX i).Ystop
            - (trialBounds (transpose b) cY cX i).Ystart + 1))
      else some 0)
    = (if ((casesIn x y n (trialBounds b cX cY (swapSub i))).length : Int) ≥ 3 then
        MI_rec log n x y xt yt crit d (trialBounds b cX cY (swapSub i))
      else if ((casesIn x y n (trialBounds b cX cY (swapSub i))).length : Int) > 0 then
        some (miTerm log n ((casesIn x y n (trialBounds b cX cY (swapSub i))).length : Int)
          ((trialBounds b cX cY (swapSub i)).Xstop
            - (trialBounds b cX cY (swapSub i)).Xstart + 1)
          ((trialBounds b cX cY (swapSub i)).Ystop
            - (trialBounds b cX cY (swapSub i)).Ystart + 1))
      else some 0) := by
  rw [trialBounds_transpose b cX cY hi, casesIn_transpose, ih]
  have e : miTerm log n ((casesIn x y n (trialBounds b cX cY (swapSub i))).length : Int)
      ((transpose (trialBounds b cX cY (swapSub i))).Xstop
        - (transpose (trialBounds b cX cY (swapSub i))).Xstart + 1)
      ((transpose (trialBounds b cX cY (swapSub i))).Ystop
        - (transpose (trialBounds b cX cY (swapSub i))).Ystart + 1)
      = miTerm log n ((casesIn x y n (trialBounds b cX cY (swapSub i))).length : Int)
        ((trialBounds b cX cY (swapSub i)).Xstop
          - (trialBounds b cX cY (swapSub i)).Xstart + 1)
        ((trialBounds b cX cY (swapSub i)).Ystop
          - (trialBounds b cX cY (swapSub i)).Ystart + 1) :=
    miTerm_comm log n _ _ _
  rw [e]

/-- The recursion gives the same value when the two variables, with their tie
flags, are exchanged. -/
theorem MI_rec_transpose (d : Nat) (b : Bounds) :
    MI_rec log n y x yt xt crit d (transpose b) = MI_rec log n x y xt yt crit d b := by
  induction d generalizing b with
  | zero => rfl
  | succ d ih =>
    by_cases hsp : splittable x y xt yt crit b ((casesIn x y n b).length : Int)
        (casesIn x y n b) = true
    · have hsp' : splittable y x yt xt crit (transpose b)
          ((casesIn y x n (transpose b)).length : Int) (casesIn y x n (transpose b)) = true := by
        rw [casesIn_transpose, splittable_transpose]; exact hsp
      rw [MI_rec_split log n y x yt xt crit d (transpose b) hsp',
        MI_rec_split log n x y xt yt crit d b hsp]
      rw [show (transpose b).Xstart = b.Ystart from rfl,
        show (transpose b).Xstop = b.Ystop from rfl,
        show (transpose b).Ystart = b.Xstart from rfl,
        show (transpose b).Ystop = b.Xstop from rfl]
      simp only [List.map_cons, List.map_nil]
      rw [child_transpose log n x y xt yt crit d ih b _ _ (show 0 < 4 by decide),
        child_transpose log n x y xt yt crit d ih b _ _ (show 1 < 4 by decide),
        child_transpose log n x y xt yt crit d ih b _ _ (show 2 < 4 by decide),
        child_transpose log n x y xt yt crit d ih b _ _ (show 3 < 4 by decide)]
      rw [show swapSub 0 = 0 from rfl, show swapSub 1 = 2 from rfl,
        show swapSub 2 = 1 from rfl, show swapSub 3 = 3 from rfl]
      exact sumOpt_swap _ _ _ _
    · have hf : splittable x y xt yt crit b ((casesIn x y n b).length : Int)
          (casesIn x y n b) = false := by simpa using hsp
      have hf' : splittable y x yt xt crit (transpose b)
          ((casesIn y x n (transpose b)).length : Int) (casesIn y x n (transpose b)) = false := by
        rw [casesIn_transpose, splittable_transpose]; exact hf
      rw [MI_rec_leaf log n y x yt xt crit d (transpose b) hf',
        MI_rec_leaf log n x y xt yt crit d b hf, casesIn_transpose]
      exact congrArg some (miTerm_comm log n _ _ _)

end Transpose

/-- The loop gives the same value when the two rank arrays, with their tie
flags, are exchanged. -/
theorem loop_transpose (n : Nat) (hn : 1 ≤ n) (x y : IntArr) (hx : IsRankPerm x n)
    (hy : IsRankPerm y n) (xt yt : Option IntArr) (crit : ℚ) :
    ∃ v : ℝ, ∀ fuel, fuelBound n ≤ fuel →
      mut_inf_loop Real.log n x y xt yt crit fuel (initState n) = some v ∧
      mut_inf_loop Real.log n y x yt xt crit fuel (initState n) = some v := by
  obtain ⟨v, hrec, hloop⟩ := loop_eq_rec Real.log n x y xt yt crit hn hx hy
  obtain ⟨w, hrec', hloop'⟩ := loop_eq_rec Real.log n y x yt xt crit hn hy hx
  have ht := MI_rec_transpose Real.log n x y xt yt crit n (rootRect n).toBounds
  have hroot : transpose (rootRect n).toBounds = (rootRect n).toBounds := rfl
  rw [hroot, hrec', hrec] at ht
  have hvw : w = v := Option.some.inj ht
  rw [hvw] at hloop'
  exact ⟨v, fun fuel hf => ⟨hloop fuel hf, hloop' fuel hf⟩⟩

/-! ### Double precision -/

theorem pow2_eq (e : Int) : pow2 e = (2 : ℚ) ^ e := by
  unfold pow2
  split
  · rename_i h
    rw [Nat.cast_pow, Nat.cast_ofNat, ← zpow_natCast, Int.toNat_of_nonneg h]
  · rename_i h
    rw [Nat.cast_pow, Nat.cast_ofNat, ← zpow_natCast, Int.toNat_of_nonneg (by omega), one_div,
      ← zpow_neg, neg_neg]

theorem pow2_pos (e : Int) : 0 < pow2 e := by
  rw [pow2_eq]
  positivity

theorem pow2_add (a b : Int) : pow2 (a + b) = pow2 a * pow2 b := by
  rw [pow2_eq, pow2_eq, pow2_eq, zpow_add₀ (by norm_num)]

theorem pow2_mono {a b : Int} (h : a ≤ b) : pow2 a ≤ pow2 b := by
  rw [pow2_eq, pow2_eq]
  exact zpow_le_zpow_right₀ (by norm_num) h

theorem pow2_natCast (k : Nat) : pow2 (k : Int) = (((2 ^ k : Nat) : Int) : ℚ) := by
  rw [pow2_eq, zpow_natCast]
  push_cast
  rfl

/-- The exponent search returns its start or an exponent whose power is at
most `a`. -/
theorem expSearch_spec (a : ℚ) (steps : List Int) (lo : Int)
    (h : lo = -1022 ∨ pow2 lo ≤ a) :
    expSearch a steps lo = -1022 ∨ pow2 (expSearch a steps lo) ≤ a := by
  induction steps generalizing lo with
  | nil => exact h
  | cons s ss ih =>
    unfold expSearch
    split
    · rename_i hc
      exact ih _ (Or.inr hc.2)
    · exact ih _ h

theorem expOf_spec (a : ℚ) : expOf a = -1022 ∨ pow2 (expOf a) ≤ a :=
  expSearch_spec a _ _ (Or.inl rfl)

theorem roundHalfEven_ge (K : Int) (y : ℚ) (h : (K : ℚ) ≤ y) : K ≤ roundHalfEven y := by
  have hf : K ≤ ⌊y⌋ := Int.le_floor.mpr h
  unfold roundHalfEven
  split
  · exact hf
  · split
    · omega
    · split
      · exact hf
      · omega

/-- Rounding does not go below a power of two that the exact value reaches. -/
theorem roundD_ge (j : Int) (hj : -1022 ≤ j) (x : ℚ) (hx : pow2 j ≤ x) :
    roundD x = Dbl.inf false ∨ ∃ v, roundD x = Dbl.fin v ∧ pow2 j ≤ v := by
  have hx0 : 0 < x := lt_of_lt_of_le (pow2_pos j) hx
  have habs : |x| = x := abs_of_pos hx0
  have hneg : decide (x < 0) = false := by
    rw [decide_eq_false_iff_not]
    exact not_lt.mpr hx0.le
  unfold roundD
  simp only [habs, hneg]
  split
  · exact Or.inl rfl
  · refine Or.inr ⟨_, rfl, ?_⟩
    have hq : 0 < pow2 (expOf x - 52) := pow2_pos _
    by_cases hej : expOf x ≤ j
    · -- the power is a multiple of the quantum
      have hk : 0 ≤ j - (expOf x - 52) := by omega
      have hsplit : pow2 j = pow2 (j - (expOf x - 52)) * pow2 (expOf x - 52) := by
        rw [← pow2_add]
        congr 1
        ring
      have hK : pow2 (j - (expOf x - 52))
          = (((2 ^ (j - (expOf x - 52)).toNat : Nat) : Int) : ℚ) := by
        rw [← pow2_natCast, Int.toNat_of_nonneg hk]
      have hle : (((2 ^ (j - (expOf x - 52)).toNat : Nat) : Int) : ℚ)
          ≤ x / pow2 (expOf x - 52) := by
        rw [le_div_iff₀ hq, ← hK, ← hsplit]
        exact hx
      have := roundHalfEven_ge _ _ hle
      rw [hsplit, hK]
      exact mul_le_mul_of_nonneg_right (by exact_mod_cast this) hq.le
    · have he : pow2 (expOf x) ≤ x := by
        rcases expOf_spec x with h | h
        · omega
        · exact h
      have hsplit : pow2 (expOf x) = pow2 52 * pow2 (expOf x - 52) := by
        rw [← pow2_add]
        congr 1
        ring
      have hK : pow2 52 = (((2 ^ 52 : Nat) : Int) : ℚ) := pow2_natCast 52
      have hle : (((2 ^ 52 : Nat) : Int) : ℚ) ≤ x / pow2 (expOf x - 52) := by
        rw [le_div_iff₀ hq, ← hK, ← hsplit]
        exact he
      have := roundHalfEven_ge _ _ hle
      refine le_trans (pow2_mono (by omega : j ≤ expOf x)) ?_
      rw [hsplit, hK]
      exact mul_le_mul_of_nonneg_right (by exact_mod_cast this) hq.le

theorem roundD_zero : roundD 0 = Dbl.fin 0 := by decide!

theorem roundD_tolerance :
    roundD (1 / 10 ^ 12) = Dbl.fin (4951760157141521 / 4951760157141521099596496896) := by
  decide!

/-- Two equal values pass the tie comparison of lines 321-322 in double
precision, whatever their magnitude. -/
theorem tieCmpD_self (v : ℚ) : tieCmpD v v = true := by
  unfold tieCmpD
  have hsub : Dbl.sub (Dbl.fin v) (Dbl.fin v) = Dbl.fin 0 := by
    show roundD (v + -v) = Dbl.fin 0
    rw [add_neg_cancel, roundD_zero]
  rw [hsub, roundD_tolerance]
  have hp0 : pow2 0 = 1 := by decide!
  have h1 : pow2 0 ≤ 1 + |v| := by
    rw [hp0]
    linarith [abs_nonneg v]
  have hsum : Dbl.add (Dbl.add (Dbl.fin 1) (Dbl.abs (Dbl.fin v))) (Dbl.abs (Dbl.fin v))
        = Dbl.inf false ∨
      ∃ u, Dbl.add (Dbl.add (Dbl.fin 1) (Dbl.abs (Dbl.fin v))) (Dbl.abs (Dbl.fin v))
        = Dbl.fin u ∧ 1 ≤ u := by
    show Dbl.add (roundD (1 + |v|)) (Dbl.fin |v|) = Dbl.inf false ∨
      ∃ u, Dbl.add (roundD (1 + |v|)) (Dbl.fin |v|) = Dbl.fin u ∧ 1 ≤ u
    rcases roundD_ge 0 (by decide) _ h1 with h | ⟨w, hw, hw1⟩
    · rw [h]
      exact Or.inl rfl
    · rw [hw]
      show roundD (w + |v|) = Dbl.inf false ∨ ∃ u, roundD (w + |v|) = Dbl.fin u ∧ 1 ≤ u
      rw [hp0] at hw1
      have h2 : pow2 0 ≤ w + |v| := by
        rw [hp0]
        linarith [abs_nonneg v]
      rcases roundD_ge 0 (by decide) _ h2 with h | ⟨u, hu, hu1⟩
      · exact Or.inl h
      · rw [hp0] at hu1
        exact Or.inr ⟨u, hu, hu1⟩
  rcases hsum with h | ⟨u, hu, hu1⟩
  · rw [h]
    decide!
  · rw [hu]
    show Dbl.lt (Dbl.fin 0)
      (roundD (4951760157141521 / 4951760157141521099596496896 * u)) = true
    have hc : pow2 (-40) ≤ 4951760157141521 / 4951760157141521099596496896 * u := by
      have : pow2 (-40) ≤ (4951760157141521 / 4951760157141521099596496896 : ℚ) := by decide!
      nlinarith
    rcases roundD_ge (-40) (by decide) _ hc with h | ⟨w, hw, hw1⟩
    · rw [h]
      rfl
    · rw [hw]
      show decide ((0 : ℚ) < w) = true
      rw [decide_eq_true_eq]
      exact lt_of_lt_of_le (pow2_pos _) hw1

theorem rankFoldD_succ (sorted : List (ℚ × Int)) (n : Nat) (rt : Bool) (m : Nat) :
    rankFoldD sorted n rt (m + 1) = rankStepD sorted n rt (rankFoldD sorted n rt m) m := by
  simp [rankFoldD, List.range_succ, List.foldl_append]

theorem rankLoopD_eq_rankFoldD (sorted : List (ℚ × Int)) (n : Nat) (rt : Bool) :
    rankLoopD sorted n rt = rankFoldD sorted n rt n := rfl

theorem rankStepD_fst (sorted : List (ℚ × Int)) (n : Nat) (rt : Bool) (acc : IntArr × IntArr)
    (i : Nat) :
    (rankStepD sorted n rt acc i).1 = Function.update acc.1 (indexAt sorted i) (i : Int) := by
  unfold rankStepD
  simp only
  split
  · rfl
  · split <;> rfl

theorem rankStepD_snd_true (sorted : List (ℚ × Int)) (n : Nat) (acc : IntArr × IntArr)
    (i : Nat) :
    (rankStepD sorted n true acc i).2
      = Function.update acc.2 (i : Int) (if tieTestD sorted n i then 1 else 0) := by
  unfold rankStepD
  simp only [Bool.not_true, Bool.false_eq_true, if_false]
  split <;> rfl

/-- The ranks do not depend on the precision of the tie test. -/
theorem rankFoldD_fst (sorted : List (ℚ × Int)) (n : Nat) (rt : Bool) (m : Nat) :
    (rankFoldD sorted n rt m).1 = (rankFold sorted n rt m).1 := by
  induction m with
  | zero => rfl
  | succ m ih => rw [rankFoldD_succ, rankFold_succ, rankStepD_fst, rankStep_fst, ih]

/-- The tie flags after `m` passes, the tie test in double precision. -/
theorem rankFoldD_snd (sorted : List (ℚ × Int)) (n : Nat) (m : Nat) (q : Int) :
    (rankFoldD sorted n true m).2 q
      = if 0 ≤ q ∧ q < (m : Int) ∧ tieTestD sorted n q.toNat = true then 1 else 0 := by
  induction m with
  | zero =>
    simp only [rankFoldD, List.range_zero, List.foldl_nil, uninit]
    rw [if_neg]
    rintro ⟨h1, h2, _⟩
    simp at h2
    omega
  | succ m ih =>
    rw [rankFoldD_succ, rankStepD_snd_true]
    by_cases hq : q = (m : Int)
    · subst hq
      rw [Function.update_same]
      simp
    · rw [Function.update_noteq hq, ih]
      have : (q < ((m + 1 : Nat) : Int)) ↔ q < (m : Int) := by
        push_cast; omega
      simp only [this]

/-- The decision of lines 484-577 in double precision for a rectangle whose
centres are `cX`, `cY`. -/
theorem splittableD_iff_tests (x y : IntArr) (xt yt : Option IntArr) (crit : ℚ) (b : Bounds)
    (cnt : Int) (cases : List Int) (cX cY : Int)
    (hcx : tieCenter xt b.Xstart b.Xstop = (false, cX))
    (hcy : tieCenter yt b.Ystart b.Ystop = (false, cY)) :
    splittableD x y xt yt crit b cnt cases = true ↔
      if Dbl.lt (Dbl.fin crit) (testvalD ((List.range 4).map
            (fun i => (actual x y cX cY cases i, expectedD b cnt cX cY i)))) = false
          ∧ b.Xstop - b.Xstart > 30 ∧ b.Ystop - b.Ystart > 30 then
        Dbl.lt (Dbl.mul (Dbl.ofInt 3) (Dbl.fin crit))
          (testvalD ((List.range 16).map
            (fun j => (actual44 x y b cases j, expected44D b cnt j)))) = true
      else
        Dbl.lt (Dbl.fin crit) (testvalD ((List.range 4).map
          (fun i => (actual x y cX cY cases i, expectedD b cnt cX cY i)))) = true := by
  unfold splittableD
  simp only [hcx, hcy, Bool.or_self, Bool.false_eq_true, if_false]
  unfold chiTestsD
  simp only
  by_cases h2 : Dbl.lt (Dbl.fin crit) (testvalD ((List.range 4).map
      (fun i => (actual x y cX cY cases i, expectedD b cnt cX cY i)))) = true
  · simp [h2]
  · rw [Bool.not_eq_true] at h2
    by_cases hX : b.Xstop - b.Xstart > 30
    · by_cases hY : b.Ystop - b.Ystart > 30
      · simp [h2, hX, hY]
      · simp [h2, hX, hY]
    · simp [h2, hX]

/-- For a rank extent below `2^29` the products of line 540 (543) stay below
`2^31`, and the cuts lie between `start - 1` and `stop`. -/
theorem cut44_in_range (start stop : Int) (h0 : start ≤ stop) (h1 : stop - start + 1 < 2 ^ 29)
    (i : Nat) (hi : i < 4) :
    0 ≤ (stop - start + 1) * ((i : Int) + 1) ∧ (stop - start + 1) * ((i : Int) + 1) < 2 ^ 31 ∧
    start - 1 ≤ cut44 start stop i ∧ cut44 start stop i ≤ stop := by
  have hi4 : (i : Int) < 4 := by exact_mod_cast hi
  have hi0 : (0 : Int) ≤ (i : Int) := Int.natCast_nonneg i
  have hp0 : 0 ≤ (stop - start + 1) * ((i : Int) + 1) := by
    apply mul_nonneg <;> omega
  have hp1 : (stop - start + 1) * ((i : Int) + 1) ≤ (stop - start + 1) * 4 := by
    apply mul_le_mul_of_nonneg_left <;> omega
  have hd : Int.tdiv ((stop - start + 1) * ((i : Int) + 1)) 4
      = (stop - start + 1) * ((i : Int) + 1) / 4 :=
    Int.tdiv_eq_ediv hp0 (by decide)
  unfold cut44
  rw [hd]
  refine ⟨hp0, ?_, ?_, ?_⟩ <;> omega

/-! ## The claims -/

/-- C3: the partition loop terminates.  For every `n ≥ 1`, every pair of rank
permutations, every tie-flag configuration and every threshold, the loop
started from the initial state empties the stack and returns a value as soon as
it is allowed `fuelBound n` iterations. -/
theorem partition_loop_terminates (n : Nat) (hn : 1 ≤ n) (x y : IntArr)
    (hx : IsRankPerm x n) (hy : IsRankPerm y n) (x_tied y_tied : Option IntArr) (chi_crit : ℚ) :
    ∃ v : ℝ, ∀ fuel, fuelBound n ≤ fuel →
      mut_inf_loop Real.log n x y x_tied y_tied chi_crit fuel (initState n) = some v := by
  obtain ⟨v, _, h⟩ := loop_eq_rec Real.log n x y x_tied y_tied chi_crit hn hx hy
  exact ⟨v, h⟩

theorem partition_loop_terminates_witness :
    1 ≤ 3 ∧ IsRankPerm (fun k => 2 - k) 3 ∧ IsRankPerm (fun k => k) 3 ∧
    ∃ v : ℝ, ∀ fuel, fuelBound 3 ≤ fuel →
      mut_inf_loop Real.log 3 (fun k => 2 - k) (fun k => k) (some (fun _ => 1)) none 6 fuel
        (initState 3) = some v :=
  ⟨by decide, by decide, by decide,
    partition_loop_terminates 3 (by decide) (fun k => 2 - k) (fun k => k) (by decide) (by decide)
      (some (fun _ => 1)) none 6⟩

/-- C8: the rectangle invariant.  At the head of every iteration of the main
loop, for every stacked rectangle the entries `indices[DataStart..DataStop]`
are pairwise distinct and are exactly the cases `k` of `0..n-1` with
`Xstart ≤ x[k] ≤ Xstop` and `Ystart ≤ y[k] ≤ Ystop`, so that
`DataStop - DataStart + 1` is the number of cases inside the bounds; and the
data spans of distinct stacked rectangles are disjoint. -/
theorem rectangle_invariant (n : Nat) (hn : 1 ≤ n) (x y : IntArr)
    (hx : IsRankPerm x n) (hy : IsRankPerm y n) (x_tied y_tied : Option IntArr) (chi_crit : ℚ)
    (k : Nat) :
    (∀ r ∈ (loopState Real.log n x y x_tied y_tied chi_crit k (initState n)).stack,
      (spanList (loopState Real.log n x y x_tied y_tied chi_crit k (initState n)).indices
        r.DataStart r.DataStop).Nodup ∧
      (∀ c : Int,
        c ∈ spanList (loopState Real.log n x y x_tied y_tied chi_crit k (initState n)).indices
          r.DataStart r.DataStop ↔
        (0 ≤ c ∧ c < (n : Int) ∧ r.Xstart ≤ x c ∧ x c ≤ r.Xstop ∧
          r.Ystart ≤ y c ∧ y c ≤ r.Ystop)) ∧
      r.DataStop - r.DataStart + 1 = ((casesIn x y n r.toBounds).length : Int)) ∧
    (loopState Real.log n x y x_tied y_tied chi_crit k (initState n)).stack.Pairwise
      (fun a b => a.DataStop < b.DataStart ∨ b.DataStop < a.DataStart) := by
  have h := loopState_StackInv Real.log n x y x_tied y_tied chi_crit k (initState n)
    (initState_StackInv n x y hn hx hy)
  refine ⟨?_, h.1⟩
  intro r hr
  have hri := h.2 r hr
  refine ⟨hri.nodup, ?_, hri.count_eq⟩
  intro c
  rw [hri.mem_iff c]
  simp only [inBounds, Bool.and_eq_true, decide_eq_true_eq]
  tauto

theorem rectangle_invariant_witness :
    1 ≤ 3 ∧ IsRankPerm (fun k => 2 - k) 3 ∧ IsRankPerm (fun k => k) 3 ∧
    (loopState Real.log 3 (fun k => 2 - k) (fun k => k) none none 6 1 (initState 3)).stack.Pairwise
      (fun a b => a.DataStop < b.DataStart ∨ b.DataStop < a.DataStart) :=
  ⟨by decide, by decide, by decide,
    (rectangle_invariant 3 (by decide) (fun k => 2 - k) (fun k => k) (by decide) (by decide)
      none none 6 1).2⟩

/-- C10: the stack-driven loop computes the depth-first recursion.  For every
`n ≥ 1`, rank permutations, tie flags and threshold, the recursion `MI_rec`
started at the root rectangle with depth `n` has a value, and the loop returns
exactly that value. -/
theorem loop_refines_recursion (n : Nat) (hn : 1 ≤ n) (x y : IntArr)
    (hx : IsRankPerm x n) (hy : IsRankPerm y n) (x_tied y_tied : Option IntArr) (chi_crit : ℚ) :
    ∃ v : ℝ,
      MI_rec Real.log n x y x_tied y_tied chi_crit n (rootRect n).toBounds = some v ∧
      ∀ fuel, fuelBound n ≤ fuel →
        mut_inf_loop Real.log n x y x_tied y_tied chi_crit fuel (initState n) = some v :=
  loop_eq_rec Real.log n x y x_tied y_tied chi_crit hn hx hy

theorem loop_refines_recursion_witness :
    1 ≤ 4 ∧ IsRankPerm (fun k => 3 - k) 4 ∧ IsRankPerm (fun k => k) 4 ∧
    ∃ v : ℝ,
      MI_rec Real.log 4 (fun k => 3 - k) (fun k => k) none none (1 / 2) 4 (rootRect 4).toBounds
        = some v ∧
      ∀ fuel, fuelBound 4 ≤ fuel →
        mut_inf_loop Real.log 4 (fun k => 3 - k) (fun k => k) none none (1 / 2) fuel (initState 4)
          = some v :=
  ⟨by decide, by decide, by decide,
    loop_refines_recursion 4 (by decide) (fun k => 3 - k) (fun k => k) (by decide) (by decide)
      none none (1 / 2)⟩

/-- C5: a split never separates tied ranks.  Whenever the split decision for a
rectangle is positive, the centre used on each axis carries no tie flag
(`x_tied[centerX] = 0`, `y_tied[centerY] = 0` when the array exists), so a rank
`q` flagged as tied with `q+1` lies on the same side of the cut as `q+1`. -/
theorem split_point_outside_tie_group (x y : IntArr) (x_tied y_tied : Option IntArr)
    (chi_crit : ℚ) (b : Bounds) (cnt : Int) (cases : List Int)
    (h : splittable x y x_tied y_tied chi_crit b cnt cases = true) :
    (∀ t, x_tied = some t →
      t (tieCenter x_tied b.Xstart b.Xstop).2 = 0 ∧
      ∀ q, t q ≠ 0 → (q ≤ (tieCenter x_tied b.Xstart b.Xstop).2
        ↔ q + 1 ≤ (tieCenter x_tied b.Xstart b.Xstop).2)) ∧
    (∀ t, y_tied = some t →
      t (tieCenter y_tied b.Ystart b.Ystop).2 = 0 ∧
      ∀ q, t q ≠ 0 → (q ≤ (tieCenter y_tied b.Ystart b.Ystop).2
        ↔ q + 1 ≤ (tieCenter y_tied b.Ystart b.Ystop).2)) := by
  have hc := splittable_centers h
  constructor
  · intro t ht
    have h0 := tieCenter_untied hc.1 t ht
    refine ⟨h0, ?_⟩
    intro q hq
    have hne : q ≠ (tieCenter x_tied b.Xstart b.Xstop).2 := by
      intro he; exact hq (he ▸ h0)
    omega
  · intro t ht
    have h0 := tieCenter_untied hc.2 t ht
    refine ⟨h0, ?_⟩
    intro q hq
    have hne : q ≠ (tieCenter y_tied b.Ystart b.Ystop).2 := by
      intro he; exact hq (he ▸ h0)
    omega

theorem split_point_outside_tie_group_witness :
    splittable (fun k => k) (fun k => k) (some (fun q => if q = 3 then 1 else 0)) none 1
        { Xstart := 0, Xstop := 7, Ystart := 0, Ystop := 7 } 8 [0, 1, 2, 3, 4, 5, 6, 7] = true ∧
    (tieCenter (some (fun q => if q = 3 then 1 else 0)) 0 7).2 = 2 ∧
    (fun q : Int => if q = 3 then (1 : Int) else 0)
      (tieCenter (some (fun q => if q = 3 then 1 else 0)) 0 7).2 = 0 := by
  have hs : splittable (fun k => k) (fun k => k) (some (fun q => if q = 3 then 1 else 0)) none 1
      { Xstart := 0, Xstop := 7, Ystart := 0, Ystop := 7 } 8 [0, 1, 2, 3, 4, 5, 6, 7] = true := by
    simp [splittable, tieCenter, tieSearch, chiTests, chiExceeds, chiSquare, actual, expected,
      quadrant, trialXstart, trialXstop, trialYstart, trialYstop, List.range, List.range.loop,
      show Int.tdiv 7 2 = 3 by decide]
    simp only [abs_eq_max_neg]
    norm_num
  exact ⟨hs, by decide,
    ((split_point_outside_tie_group (fun k => k) (fun k => k)
      (some (fun q => if q = 3 then 1 else 0)) none 1
      { Xstart := 0, Xstop := 7, Ystart := 0, Ystop := 7 } 8 [0, 1, 2, 3, 4, 5, 6, 7] hs).1
      _ rfl).1⟩

/-- C7: the ranks are an order-consistent permutation.  With a sort that
rearranges the (value, index) pairs so that the values ascend, the rank array
computed by the constructor and the one computed by `mut_inf` (both by
`rankTransform`) are a permutation of `0..n-1`, and `value[i] < value[j]`
implies `rank[i] < rank[j]`. -/
theorem ranks_are_order_consistent_permutation (sort : List (ℚ × Int) → List (ℚ × Int))
    (hs : SortContract sort) (n : Nat) (vals : List ℚ) (_hlen : vals.length = n)
    (respect_ties : Bool) (crit : ℚ) :
    IsRankPerm (MutualInformationAdaptive.create sort n vals respect_ties crit).y n ∧
    IsRankPerm (rankTransform sort n vals respect_ties).1 n ∧
    ∀ i j : Nat, i < n → j < n → vals.getD i 0 < vals.getD j 0 →
      (rankTransform sort n vals respect_ties).1 (i : Int)
        < (rankTransform sort n vals respect_ties).1 (j : Int) := by
  have h := hs.isSortedLoad n vals
  refine ⟨h.isRankPerm respect_ties, h.isRankPerm respect_ties, ?_⟩
  intro i j hi hj hlt
  exact h.rank_lt respect_ties hi hj hlt

theorem ranks_are_order_consistent_permutation_witness :
    SortContract qsortdsi ∧ ([3, 1, 2] : List ℚ).length = 3 ∧
    IsRankPerm (rankTransform qsortdsi 3 [3, 1, 2] false).1 3 :=
  ⟨qsortdsi_contract, rfl,
    (ranks_are_order_consistent_permutation qsortdsi qsortdsi_contract 3 [3, 1, 2] rfl false
      6).2.1⟩

/-- C6 (counterexample): two samples of two values, sorted with ties respected.
For the values `2^1023` and `3 * 2^1022` the inequality `sorted[1] - sorted[0]
< 1e-12 * (1 + |sorted[0]| + |sorted[1]|)` is false, and the flag of rank 0 is
set: the sum `1.0+fabs(work[0])+fabs(work[1])` overflows to infinity.  For the
values `4951760157141521 / 2^93` (the `double` 5e-13) and `928455029465273 /
2^89` the inequality is true, and the flag of rank 0 is not set: the two sides
round to the same `double`. -/
theorem tie_flag_differs_from_exact_tolerance :
    (∃ tied : IntArr,
      (rankTransformD qsortdsi 2 [2 ^ 1023, 3 * 2 ^ 1022] true).2 = some tied ∧
      workAt (qsortdsi (loadPairs 2 [2 ^ 1023, 3 * 2 ^ 1022])) 0 = 2 ^ 1023 ∧
      workAt (qsortdsi (loadPairs 2 [2 ^ 1023, 3 * 2 ^ 1022])) 1 = 3 * 2 ^ 1022 ∧
      tied 0 = 1 ∧
      ¬ ((0 : Int) < 2 - 1 ∧
        (3 * 2 ^ 1022 - 2 ^ 1023 : ℚ) < 1 / 10 ^ 12 * (1 + |2 ^ 1023| + |3 * 2 ^ 1022|))) ∧
    (∃ tied : IntArr,
      (rankTransformD qsortdsi 2
        [4951760157141521 / 2 ^ 93, 928455029465273 / 2 ^ 89] true).2 = some tied ∧
      workAt (qsortdsi (loadPairs 2 [4951760157141521 / 2 ^ 93, 928455029465273 / 2 ^ 89])) 0
        = 4951760157141521 / 2 ^ 93 ∧
      workAt (qsortdsi (loadPairs 2 [4951760157141521 / 2 ^ 93, 928455029465273 / 2 ^ 89])) 1
        = 928455029465273 / 2 ^ 89 ∧
      tied 0 = 0 ∧
      ((0 : Int) < 2 - 1 ∧
        (928455029465273 / 2 ^ 89 - 4951760157141521 / 2 ^ 93 : ℚ)
          < 1 / 10 ^ 12 * (1 + |4951760157141521 / 2 ^ 93| + |928455029465273 / 2 ^ 89|))) := by
  refine ⟨⟨_, rfl, by decide!, by decide!, by decide!, ?_⟩,
    ⟨_, rfl, by decide!, by decide!, by decide!, ?_⟩⟩
  · rw [abs_of_pos (by positivity), abs_of_pos (by positivity)]
    norm_num
  · rw [abs_of_pos (by positivity), abs_of_pos (by positivity)]
    norm_num

/-- C6 (as amended): the tie flags, the test of lines 321-322 evaluated in
double precision.  With ties respected, the ranks are those of the exact
model; the flag of rank `i` is 1 exactly when `i < n-1` and the comparison
`sorted[i+1] - sorted[i] < 1.e-12 * (1.0 + fabs(sorted[i]) + fabs(sorted[i+1]))`
holds in double precision; every flag is 0 or 1, and the flag of the last rank
`n-1` is 0.  When the sorted values are equal on the positions `a..a+k-1`, the
flags at the `k-1` positions `a..a+k-2` are all set. -/
theorem tie_flags_in_double_precision (sort : List (ℚ × Int) → List (ℚ × Int)) (n : Nat)
    (vals : List ℚ) (a k : Nat) (hk : a + k ≤ n)
    (hblock : ∀ i, a ≤ i → i < a + k →
      workAt (sort (loadPairs n vals)) i = workAt (sort (loadPairs n vals)) a) :
    (rankTransformD sort n vals true).1 = (rankTransform sort n vals true).1 ∧
    ∃ tied : IntArr, (rankTransformD sort n vals true).2 = some tied ∧
      (∀ i : Nat, i < n → (tied (i : Int) = 1 ↔
        ((i : Int) < (n : Int) - 1 ∧
          Dbl.lt
            (Dbl.sub (Dbl.fin (workAt (sort (loadPairs n vals)) (i + 1)))
              (Dbl.fin (workAt (sort (loadPairs n vals)) i)))
            (Dbl.mul (roundD (1 / 10 ^ 12))
              (Dbl.add
                (Dbl.add (Dbl.fin 1) (Dbl.abs (Dbl.fin (workAt (sort (loadPairs n vals)) i))))
                (Dbl.abs (Dbl.fin (workAt (sort (loadPairs n vals)) (i + 1)))))) = true))) ∧
      (∀ i : Nat, i < n → tied (i : Int) = 0 ∨ tied (i : Int) = 1) ∧
      (1 ≤ n → tied ((n : Int) - 1) = 0) ∧
      (∀ i : Nat, a ≤ i → i + 1 < a + k → tied (i : Int) = 1) ∧
      (List.range (k - 1)).countP (fun (j : Nat) => tied ((a : Int) + (j : Int)) == 1) = k - 1 := by
  refine ⟨rankFoldD_fst _ n true n, (rankLoopD (sort (loadPairs n vals)) n true).2, rfl, ?_⟩
  have hform : ∀ i : Nat, i < n →
      (rankLoopD (sort (loadPairs n vals)) n true).2 (i : Int)
        = if tieTestD (sort (loadPairs n vals)) n i = true then 1 else 0 := by
    intro i hi
    rw [rankLoopD_eq_rankFoldD, rankFoldD_snd]
    have h1 : (0 : Int) ≤ (i : Int) := Int.natCast_nonneg i
    have h2 : (i : Int) < (n : Int) := by exact_mod_cast hi
    simp only [h1, h2, true_and, Int.toNat_ofNat]
  have hset : ∀ i : Nat, a ≤ i → i + 1 < a + k →
      (rankLoopD (sort (loadPairs n vals)) n true).2 (i : Int) = 1 := by
    intro i hai hik
    rw [hform i (by omega), if_pos]
    unfold tieTestD
    rw [Bool.and_eq_true, decide_eq_true_eq]
    refine ⟨by omega, ?_⟩
    rw [hblock (i + 1) (by omega) (by omega), hblock i hai (by omega)]
    exact tieCmpD_self _
  refine ⟨?_, ?_, ?_, hset, ?_⟩
  · intro i hi
    have hT : tieTestD (sort (loadPairs n vals)) n i = true ↔
        ((i : Int) < (n : Int) - 1 ∧
          Dbl.lt
            (Dbl.sub (Dbl.fin (workAt (sort (loadPairs n vals)) (i + 1)))
              (Dbl.fin (workAt (sort (loadPairs n vals)) i)))
            (Dbl.mul (roundD (1 / 10 ^ 12))
              (Dbl.add
                (Dbl.add (Dbl.fin 1) (Dbl.abs (Dbl.fin (workAt (sort (loadPairs n vals)) i))))
                (Dbl.abs (Dbl.fin (workAt (sort (loadPairs n vals)) (i + 1)))))) = true) := by
      unfold tieTestD tieCmpD
      rw [Bool.and_eq_true, decide_eq_true_eq]
    rw [hform i hi, ← hT]
    by_cases ht : tieTestD (sort (loadPairs n vals)) n i = true
    · rw [if_pos ht]; exact ⟨fun _ => ht, fun _ => rfl⟩
    · rw [if_neg ht]; exact ⟨fun h => absurd h (by decide), fun h => absurd h ht⟩
  · intro i hi
    rw [hform i hi]
    split
    · exact Or.inr rfl
    · exact Or.inl rfl
  · intro hn
    have := hform (n - 1) (by omega)
    rw [show ((n - 1 : Nat) : Int) = (n : Int) - 1 by omega] at this
    rw [this, if_neg]
    unfold tieTestD
    rw [Bool.and_eq_true, decide_eq_true_eq]
    intro hcon
    omega
  · rw [List.countP_eq_length_filter, List.filter_eq_self.mpr, List.length_range]
    intro j hj
    rw [List.mem_range] at hj
    have := hset (a + j) (by omega) (by omega)
    rw [beq_iff_eq]
    rw [← this]
    push_cast
    rfl

theorem tie_flags_in_double_precision_witness :
    0 + 3 ≤ 4 ∧
    (∀ i, 0 ≤ i → i < 0 + 3 →
      workAt (qsortdsi (loadPairs 4 [2, 1, 1, 1])) i
        = workAt (qsortdsi (loadPairs 4 [2, 1, 1, 1])) 0) ∧
    ∃ tied : IntArr, (rankTransformD qsortdsi 4 [2, 1, 1, 1] true).2 = some tied ∧
      tied 0 = 1 ∧ tied 1 = 1 ∧ tied 2 = 0 ∧ tied 3 = 0 := by
  have hsort : qsortdsi (loadPairs 4 [2, 1, 1, 1]) = [(1, 1), (1, 2), (1, 3), (2, 0)] := by
    simp [qsortdsi, loadPairs, List.range, List.range.loop, List.insertionSort,
      List.orderedInsert]
  have hb : ∀ i, 0 ≤ i → i < 0 + 3 →
      workAt (qsortdsi (loadPairs 4 [2, 1, 1, 1])) i
        = workAt (qsortdsi (loadPairs 4 [2, 1, 1, 1])) 0 := by
    intro i _ hi
    rw [hsort]
    interval_cases i <;> simp [workAt]
  obtain ⟨_, tied, h1, h2, h3, h4, h5, _⟩ :=
    tie_flags_in_double_precision qsortdsi 4 [2, 1, 1, 1] 0 3 (by decide) hb
  have hne : ¬ tied ((2 : Nat) : Int) = 1 := by
    rw [h2 2 (by decide), hsort]
    decide!
  exact ⟨by decide, hb, tied, h1, h5 0 (by decide) (by decide), h5 1 (by decide) (by decide),
    (h3 2 (by decide)).resolve_right hne, h4 (by decide)⟩

/-- C4: a variable with all values equal, ranked with ties respected.  For
`n ≥ 2`, whether that variable is the dependent one (at construction) or the
independent one (at the call), `mut_inf` is done after one iteration (the root
rectangle is accepted as a leaf) and returns exactly 0, whatever the other
variable, its tie mode and the threshold are. -/
theorem all_tied_variable_returns_zero (sort : List (ℚ × Int) → List (ℚ × Int))
    (hs : SortContract sort) (n : Nat) (hn : 2 ≤ n) (c : ℚ) (other : List ℚ)
    (respect_ties : Bool) (crit : ℚ) :
    mut_inf sort Real.log
        (MutualInformationAdaptive.create sort n (List.replicate n c) true crit)
        other respect_ties 1 = some 0 ∧
    mut_inf sort Real.log
        (MutualInformationAdaptive.create sort n other respect_ties crit)
        (List.replicate n c) true 1 = some 0 := by
  have htied : ∀ q, (0 : Int) ≤ q → q < (n : Int) - 1 →
      (rankLoop (sort (loadPairs n (List.replicate n c))) n true).2 q ≠ 0 :=
    fun q h0 hq => tied_of_constant hs n c q h0 hq
  have hcen : (tieCenter (some (rankLoop (sort (loadPairs n (List.replicate n c))) n true).2)
      0 ((n : Int) - 1)).1 = true :=
    tieCenter_allTied _ (le_refl _) (by omega) htied
  constructor
  · unfold mut_inf MutualInformationAdaptive.create
    refine loop_root_leaf n (by omega) _ _ _ _ _ ?_ 0
    exact splittable_of_yAllTied _ _ _ _ _ _ _ _ hcen
  · unfold mut_inf MutualInformationAdaptive.create
    refine loop_root_leaf n (by omega) _ _ _ _ _ ?_ 0
    exact splittable_of_xAllTied _ _ _ _ _ _ _ _ hcen

theorem all_tied_variable_returns_zero_witness :
    SortContract qsortdsi ∧ 2 ≤ 3 ∧
    mut_inf qsortdsi Real.log
        (MutualInformationAdaptive.create qsortdsi 3 (List.replicate 3 5) true 6)
        [1, 2, 3] false 1 = some 0 :=
  ⟨qsortdsi_contract, by decide,
    (all_tied_variable_returns_zero qsortdsi qsortdsi_contract 3 (by decide) 5 [1, 2, 3]
      false 6).1⟩

/-- C1 (as amended): in the scenario `n = 8`, dependent `[1..8]`, independent
`[8..1]`, `chiCriterion = 6`, ties not respected, the root rectangle is not
split, and `mut_inf` returns exactly 0 after one iteration. -/
theorem scenario8_returns_zero :
    splittable (rankTransform qsortdsi 8 [8, 7, 6, 5, 4, 3, 2, 1] false).1
      (MutualInformationAdaptive.create qsortdsi 8 [1, 2, 3, 4, 5, 6, 7, 8] false 6).y
      none none 6 (rootRect 8).toBounds 8 [0, 1, 2, 3, 4, 5, 6, 7] = false ∧
    ∀ fuel, mut_inf qsortdsi Real.log
      (MutualInformationAdaptive.create qsortdsi 8 [1, 2, 3, 4, 5, 6, 7, 8] false 6)
      [8, 7, 6, 5, 4, 3, 2, 1] false (fuel + 1) = some 0 :=
  ⟨scenario8_not_splittable, scenario8_result⟩

/-- C1 (counterexample): in the scenario no amount of iterations makes
`mut_inf` return a strictly positive estimate. -/
theorem scenario8_not_positive :
    ¬ ∃ (fuel : Nat) (v : ℝ), mut_inf qsortdsi Real.log
      (MutualInformationAdaptive.create qsortdsi 8 [1, 2, 3, 4, 5, 6, 7, 8] false 6)
      [8, 7, 6, 5, 4, 3, 2, 1] false fuel = some v ∧ 0 < v := by
  rintro ⟨fuel, v, hv, hpos⟩
  cases fuel with
  | zero =>
    simp [mut_inf, mut_inf_loop, initState] at hv
  | succ fuel =>
    rw [scenario8_result fuel] at hv
    cases hv
    exact lt_irrefl _ hpos

/-- C2 (as amended): shuffling the cases of a sample in which no two values of
the same variable are equal does not change the estimate.  For `n ≥ 1`, every
sort that meets the contract, every tie mode and threshold and every
permutation `pi` of `0..n-1`, the shuffled and the original sample return the
same value. -/
theorem shuffle_keeps_estimate_without_equal_values
    (sort : List (ℚ × Int) → List (ℚ × Int)) (hs : SortContract sort) (n : Nat) (hn : 1 ≤ n)
    (dep ind : List ℚ) (hdl : dep.length = n) (hil : ind.length = n) (hdn : dep.Nodup)
    (hin : ind.Nodup) (pi : List Nat) (hpi : pi.Perm (List.range n))
    (respect_ties_dep respect_ties_ind : Bool) (crit : ℚ) :
    ∃ v : ℝ, ∀ fuel, fuelBound n ≤ fuel →
      mut_inf sort Real.log
        (MutualInformationAdaptive.create sort n (permute pi dep) respect_ties_dep crit)
        (permute pi ind) respect_ties_ind fuel = some v ∧
      mut_inf sort Real.log
        (MutualInformationAdaptive.create sort n dep respect_ties_dep crit)
        ind respect_ties_ind fuel = some v :=
  shuffle_loop sort hs n hn dep ind hdl hil hdn hin pi hpi respect_ties_dep respect_ties_ind crit

theorem shuffle_keeps_estimate_without_equal_values_witness :
    SortContract qsortdsi ∧ 1 ≤ 3 ∧ ([3, 1, 2] : List ℚ).length = 3 ∧
    ([5, 4, 6] : List ℚ).length = 3 ∧ ([3, 1, 2] : List ℚ).Nodup ∧ ([5, 4, 6] : List ℚ).Nodup ∧
    [2, 0, 1].Perm (List.range 3) ∧
    ∃ v : ℝ, ∀ fuel, fuelBound 3 ≤ fuel →
      mut_inf qsortdsi Real.log
        (MutualInformationAdaptive.create qsortdsi 3 (permute [2, 0, 1] [3, 1, 2]) true 6)
        (permute [2, 0, 1] [5, 4, 6]) false fuel = some v ∧
      mut_inf qsortdsi Real.log
        (MutualInformationAdaptive.create qsortdsi 3 [3, 1, 2] true 6)
        [5, 4, 6] false fuel = some v :=
  ⟨qsortdsi_contract, by decide, rfl, rfl, by norm_num, by norm_num, by decide,
    shuffle_keeps_estimate_without_equal_values qsortdsi qsortdsi_contract 3 (by decide)
      [3, 1, 2] [5, 4, 6] rfl rfl (by norm_num) (by norm_num) [2, 0, 1] (by decide) true false 6⟩

/-- C2 (counterexample): four cases, dependent values `[0,1,2,3]`, independent
values all equal, threshold `1/2`, ties not respected.  Exchanging cases 1 and
2 changes the estimate from `ln 2` to 0. -/
theorem shuffle_changes_estimate_with_equal_values :
    [0, 2, 1, 3].Perm (List.range 4) ∧
    mut_inf qsortdsi Real.log
      (MutualInformationAdaptive.create qsortdsi 4 (permute [0, 2, 1, 3] [0, 1, 2, 3]) false
        (1 / 2))
      (permute [0, 2, 1, 3] [0, 0, 0, 0]) false 1 = some 0 ∧
    mut_inf qsortdsi Real.log
      (MutualInformationAdaptive.create qsortdsi 4 [0, 1, 2, 3] false (1 / 2))
      [0, 0, 0, 0] false 1 = some (Real.log 2) ∧
    mut_inf qsortdsi Real.log
      (MutualInformationAdaptive.create qsortdsi 4 (permute [0, 2, 1, 3] [0, 1, 2, 3]) false
        (1 / 2))
      (permute [0, 2, 1, 3] [0, 0, 0, 0]) false 1
    ≠ mut_inf qsortdsi Real.log
      (MutualInformationAdaptive.create qsortdsi 4 [0, 1, 2, 3] false (1 / 2))
      [0, 0, 0, 0] false 1 := by
  refine ⟨by decide, scenario4_shuffled 0, scenario4_original 0, ?_⟩
  rw [scenario4_shuffled 0, scenario4_original 0]
  intro h
  have h2 : (0 : ℝ) = Real.log 2 := Option.some.inj h
  have hpos : (0 : ℝ) < Real.log 2 := Real.log_pos (by norm_num)
  exact absurd h2 (ne_of_lt hpos)

/-- C9 (as amended): the term `pxy * ln(pxy / (px * py))` added for a cell with
`cnt ≥ 1` cases and rank extents `xext`, `yext` is non-negative exactly when
`xext * yext ≤ cnt * n`, that is when the cell holds at least as many cases as
a uniform spread would give it. -/
theorem contribution_nonneg_iff (n : Nat) (cnt xext yext : Int) (hn : 0 < n) (hc : 0 < cnt)
    (hx : 0 < xext) (hy : 0 < yext) :
    0 ≤ miTerm Real.log n cnt xext yext ↔ xext * yext ≤ cnt * (n : Int) :=
  miTerm_nonneg_iff_dense n cnt xext yext hn hc hx hy

theorem contribution_nonneg_iff_witness :
    0 < 13 ∧ (0 : Int) < 6 ∧ (0 : Int) < 6 ∧ (0 : Int) < 7 ∧
    (0 ≤ miTerm Real.log 13 6 6 7 ↔ (6 : Int) * 7 ≤ 6 * ((13 : Nat) : Int)) :=
  ⟨by decide, by decide, by decide, by decide,
    contribution_nonneg_iff 13 6 6 7 (by decide) (by decide) (by decide) (by decide)⟩

/-- C9 (counterexample): thirteen cases, `chiCriterion = 6`, ties not
respected.  The first iteration splits the root rectangle and adds the
contribution of a sub-rectangle with one case in a 7 by 7 rank square, which is
negative: the accumulator is smaller after the iteration than before. -/
theorem accumulator_decreases_on_sparse_cell :
    (loopState Real.log 13
      (rankTransform qsortdsi 13 [0, 7, 8, 9, 10, 11, 12, 1, 2, 3, 4, 5, 6] false).1
      (MutualInformationAdaptive.create qsortdsi 13
        [1, 2, 3, 4, 5, 6, 7, 8, 9, 10, 11, 12, 13] false 6).y
      none none 6 1 (initState 13)).MI
    < (loopState Real.log 13
      (rankTransform qsortdsi 13 [0, 7, 8, 9, 10, 11, 12, 1, 2, 3, 4, 5, 6] false).1
      (MutualInformationAdaptive.create qsortdsi 13
        [1, 2, 3, 4, 5, 6, 7, 8, 9, 10, 11, 12, 13] false 6).y
      none none 6 0 (initState 13)).MI := by
  rw [scenario13_first_step]
  exact miTerm_13_1_7_7_neg

/-- C11: no expected count is zero.  For `n ≥ 2` and rank permutations, every
rectangle on the stack at the head of an iteration holds a case and has
positive rank extents, so the argument of `log` in its leaf contribution is
positive.  When neither axis is all tied, the centres satisfy
`Xstart ≤ centerX ≤ Xstop-1` and `Ystart ≤ centerY ≤ Ystop-1`, the four trial
sub-rectangles have positive extents, `expected[i] > 0` for `i < 4`, the
argument of `log` of every non-empty sub-rectangle is positive, and when the
4x4 test is performed its 16 expected counts are positive. -/
theorem expected_counts_positive (n : Nat) (hn : 2 ≤ n) (x y : IntArr) (hx : IsRankPerm x n)
    (hy : IsRankPerm y n) (x_tied y_tied : Option IntArr) (chi_crit : ℚ) (k : Nat)
    (s : State ℝ) (hs : s = loopState Real.log n x y x_tied y_tied chi_crit k (initState n)) :
    ∀ r ∈ s.stack,
      (0 : ℝ) < logArg n (r.DataStop - r.DataStart + 1) (r.Xstop - r.Xstart + 1)
        (r.Ystop - r.Ystart + 1) ∧
      ∀ cX cY, tieCenter x_tied r.Xstart r.Xstop = (false, cX) →
        tieCenter y_tied r.Ystart r.Ystop = (false, cY) →
        r.Xstart ≤ cX ∧ cX ≤ r.Xstop - 1 ∧ r.Ystart ≤ cY ∧ cY ≤ r.Ystop - 1 ∧
        (∀ i, i < 4 →
          0 < trialXstop r.toBounds cX i - trialXstart r.toBounds cX i + 1 ∧
          0 < trialYstop r.toBounds cY i - trialYstart r.toBounds cY i + 1 ∧
          0 < expected r.toBounds (r.DataStop - r.DataStart + 1) cX cY i ∧
          (0 < actual x y cX cY (spanList s.indices r.DataStart r.DataStop) i →
            (0 : ℝ) < logArg n (actual x y cX cY (spanList s.indices r.DataStart r.DataStop) i)
              (trialXstop r.toBounds cX i - trialXstart r.toBounds cX i + 1)
              (trialYstop r.toBounds cY i - trialYstart r.toBounds cY i + 1))) ∧
        (r.Xstop - r.Xstart > 30 → r.Ystop - r.Ystart > 30 →
          ∀ j, j < 16 → 0 < expected44 r.toBounds (r.DataStop - r.DataStart + 1) j) := by
  subst hs
  intro r hr
  have hinv := loopState_StackInv Real.log n x y x_tied y_tied chi_crit k (initState n)
    (initState_StackInv n x y (by omega) hx hy)
  have h2 := loopState_count_ge_two Real.log n x y x_tied y_tied chi_crit hn hx hy k r hr
  exact rect_no_zero_division hn hx hy (hinv.2 r hr) h2 x_tied y_tied

theorem expected_counts_positive_witness :
    2 ≤ 3 ∧ IsRankPerm (fun k => 2 - k) 3 ∧ IsRankPerm (fun k => k) 3 ∧
    ∀ r ∈ (loopState Real.log 3 (fun k => 2 - k) (fun k => k) none none 6 0
        (initState 3)).stack,
      (0 : ℝ) < logArg 3 (r.DataStop - r.DataStart + 1) (r.Xstop - r.Xstart + 1)
        (r.Ystop - r.Ystart + 1) :=
  ⟨by decide, by decide, by decide, fun r hr =>
    (expected_counts_positive 3 (by decide) (fun k => 2 - k) (fun k => k) (by decide)
      (by decide) none none 6 0 _ rfl r hr).1⟩

/-- C16: the tie-aware split point.  On an axis with `0 ≤ start < stop` and
`mid = floor((start+stop)/2)`: when `tied[mid] = 0` the split point is `mid`;
otherwise the axis is declared not splittable if and only if `tied[i] ≠ 0` for
every `i` of `[start, stop-1]`, and when it is splittable the split point `c`
satisfies `start ≤ c ≤ stop-1`, `tied[c] = 0`, and `|c - mid|` is minimal among
the untied positions of `[start, stop-1]`. -/
theorem tie_aware_split_point (tied : IntArr) (start stop : Int) (h0 : 0 ≤ start)
    (hlt : start < stop) :
    (tied ((start + stop) / 2) = 0 →
      tieCenter (some tied) start stop = (false, (start + stop) / 2)) ∧
    (tied ((start + stop) / 2) ≠ 0 →
      ((tieCenter (some tied) start stop).1 = true ↔
        ∀ i, start ≤ i → i ≤ stop - 1 → tied i ≠ 0) ∧
      ((tieCenter (some tied) start stop).1 = false →
        start ≤ (tieCenter (some tied) start stop).2 ∧
        (tieCenter (some tied) start stop).2 ≤ stop - 1 ∧
        tied (tieCenter (some tied) start stop).2 = 0 ∧
        ∀ i, start ≤ i → i ≤ stop - 1 → tied i = 0 →
          |(tieCenter (some tied) start stop).2 - (start + stop) / 2|
            ≤ |i - (start + stop) / 2|)) := by
  have hmid : Int.tdiv (start + stop) 2 = (start + stop) / 2 :=
    Int.tdiv_eq_ediv (by omega) (by omega)
  constructor
  · intro ht
    unfold tieCenter
    simp only [hmid, ht, ne_eq, not_true_eq_false, if_false]
  · intro ht
    have hsearch := tieSearch_nearest tied start stop ((start + stop) / 2) (by omega) (by omega)
      ((start + stop) / 2 - start).toNat 1 (le_refl _) (by omega)
      (by rw [Int.toNat_of_nonneg (by omega)])
      (by
        intro q hq1 hq2 hq
        have : q = (start + stop) / 2 := by
          rw [abs_lt] at hq
          omega
        rw [this]; exact ht)
    have hcen : tieCenter (some tied) start stop
        = tieSearch tied start stop ((start + stop) / 2) ((start + stop) / 2 - start).toNat 1 := by
      unfold tieCenter
      simp only [hmid, ne_eq, ht, not_false_eq_true, if_true]
    rw [hcen]
    refine ⟨⟨fun h i hi1 hi2 => hsearch.1 h i hi1 (by omega), ?_⟩, ?_⟩
    · intro hall
      by_contra hcon
      have hf : (tieSearch tied start stop ((start + stop) / 2)
          ((start + stop) / 2 - start).toNat 1).1 = false := by
        simpa using hcon
      obtain ⟨g1, g2, g3, _⟩ := hsearch.2 hf
      exact hall _ g1 (by omega) g3
    · intro hf
      obtain ⟨g1, g2, g3, g4⟩ := hsearch.2 hf
      exact ⟨g1, by omega, g3, fun i hi1 hi2 hi0 => g4 i hi1 (by omega) hi0⟩

theorem tie_aware_split_point_witness :
    (0 : Int) ≤ 0 ∧ (0 : Int) < 7 ∧
    (tieCenter (some (fun q => if q = 3 ∨ q = 2 then 1 else 0)) 0 7).1 = false ∧
    (fun q : Int => if q = 3 ∨ q = 2 then (1 : Int) else 0)
      (tieCenter (some (fun q => if q = 3 ∨ q = 2 then 1 else 0)) 0 7).2 = 0 :=
  ⟨by decide, by decide, by decide,
    (((tie_aware_split_point (fun q => if q = 3 ∨ q = 2 then 1 else 0) 0 7 (by decide)
      (by decide)).2 (by decide)).2 (by decide)).2.2.1⟩

/-- C13 (counterexample): the constructor given one case and criterion zero
produces an estimator that holds exactly this configuration, and `mut_inf`
runs the partitioning with it and returns 0. -/
theorem constructor_accepts_zero_criterion :
    (MutualInformationAdaptive.create qsortdsi 1 [5] false 0).n = 1 ∧
    (MutualInformationAdaptive.create qsortdsi 1 [5] false 0).chi_crit = 0 ∧
    ∀ fuel, mut_inf qsortdsi Real.log (MutualInformationAdaptive.create qsortdsi 1 [5] false 0)
      [7] false (fuel + 1) = some 0 :=
  ⟨rfl, rfl, scenario1_result⟩

/-- C13 (as amended): the constructor checks nothing.  For every number of
cases and every criterion, `chiCriterion ≤ 0` and `n = 1` included, it produces
an estimator that stores both unchanged; and for `n ≥ 1` and a sort that meets
the contract `mut_inf` runs the partitioning with this configuration and
returns a value within `fuelBound n` iterations. -/
theorem constructor_stores_configuration_unchecked (sort : List (ℚ × Int) → List (ℚ × Int))
    (hs : SortContract sort) (n : Nat) (hn : 1 ≤ n) (dep_vals xraw : List ℚ)
    (respect_ties_dep respect_ties_ind : Bool) (crit : ℚ) :
    (MutualInformationAdaptive.create sort n dep_vals respect_ties_dep crit).n = n ∧
    (MutualInformationAdaptive.create sort n dep_vals respect_ties_dep crit).chi_crit = crit ∧
    ∃ v : ℝ, ∀ fuel, fuelBound n ≤ fuel →
      mut_inf sort Real.log
        (MutualInformationAdaptive.create sort n dep_vals respect_ties_dep crit)
        xraw respect_ties_ind fuel = some v := by
  obtain ⟨v, _, h⟩ := mut_inf_returns sort hs n hn dep_vals xraw respect_ties_dep
    respect_ties_ind crit
  exact ⟨rfl, rfl, v, h⟩

theorem constructor_stores_configuration_unchecked_witness :
    SortContract qsortdsi ∧ 1 ≤ 3 ∧
    (MutualInformationAdaptive.create qsortdsi 3 [3, 1, 2] true (-1)).chi_crit = -1 ∧
    ∃ v : ℝ, ∀ fuel, fuelBound 3 ≤ fuel →
      mut_inf qsortdsi Real.log (MutualInformationAdaptive.create qsortdsi 3 [3, 1, 2] true (-1))
        [1, 2, 3] false fuel = some v :=
  ⟨qsortdsi_contract, by decide,
    (constructor_stores_configuration_unchecked qsortdsi qsortdsi_contract 3 (by decide)
      [3, 1, 2] [1, 2, 3] true false (-1)).2⟩

/-- C14 (counterexample): thirteen cases, criterion 6, no ties.  The root is
split; sub-rectangles 1 and 2 hold six cases each and are regrouped, the one
case of sub-rectangle 0 is folded in and not written back.  After the first
iteration the span of the root holds case 12 twice and case 0 not at all: it
is not a permutation of what it held before. -/
theorem split_span_not_permutation :
    IsRankPerm (fun k => if k = 0 then 0 else if k ≤ 6 then k + 6 else k - 6) 13 ∧
    IsRankPerm (fun k => k) 13 ∧
    spanList (initState 13 : State ℝ).indices 0 12 = [0, 1, 2, 3, 4, 5, 6, 7, 8, 9, 10, 11, 12] ∧
    spanList (loopState Real.log 13
        (fun k => if k = 0 then 0 else if k ≤ 6 then k + 6 else k - 6) (fun k => k)
        none none 6 1 (initState 13)).indices 0 12
      = [7, 8, 9, 10, 11, 12, 1, 2, 3, 4, 5, 6, 12] ∧
    ¬ (spanList (loopState Real.log 13
        (fun k => if k = 0 then 0 else if k ≤ 6 then k + 6 else k - 6) (fun k => k)
        none none 6 1 (initState 13)).indices 0 12).Perm
      (spanList (initState 13 : State ℝ).indices 0 12) := by
  have h0 : spanList (initState 13 : State ℝ).indices 0 12
      = [0, 1, 2, 3, 4, 5, 6, 7, 8, 9, 10, 11, 12] := by
    simp [initState, spanList, spanN, List.range, List.range.loop]
  have h1 : spanList (loopState Real.log 13
        (fun k => if k = 0 then 0 else if k ≤ 6 then k + 6 else k - 6) (fun k => k)
        none none 6 1 (initState 13)).indices 0 12
      = [7, 8, 9, 10, 11, 12, 1, 2, 3, 4, 5, 6, 12] := by
    have h := (step_span Real.log 13 _ _ none none 6 (rootRect 13)
      { indices := fun i => i, stack := [], MI := 0 } corner13_splittable).1
    rw [corner13_runs] at h
    have e1 : (rootRect 13).DataStart = 0 := rfl
    have e2 : (rootRect 13).DataStop = 12 := by simp [rootRect]
    rw [e1, e2] at h
    simp only [loopState, initState]
    rw [h]
    simp [spanList, spanN, List.range, List.range.loop]
  refine ⟨by decide, by decide, h0, h1, ?_⟩
  rw [h0, h1]
  intro hp
  have := hp.symm.subset (List.mem_cons_self 0 _)
  simp at this

/-- C14 (as amended): a split rewrites only the runs of the pushed
sub-rectangles.  For every split, after the regrouping the data span of the
split rectangle holds contiguous runs, one per sub-rectangle with at least 3
cases in order 0..3, each holding the cases of that sub-rectangle in their
previous order (`pushedRuns`), followed by the previous entries of the
remaining positions; no entry of `indices` before the span or after the runs
is changed; and when no sub-rectangle holds 1 or 2 cases the span is a
permutation of its previous entries. -/
theorem split_rewrites_runs_of_pushed_subrectangles (n : Nat) (x y : IntArr)
    (x_tied y_tied : Option IntArr) (chi_crit : ℚ) (r : Rect) (s : State ℝ)
    (hsp : splittable x y x_tied y_tied chi_crit r.toBounds (r.DataStop - r.DataStart + 1)
      (spanList s.indices r.DataStart r.DataStop) = true) :
    spanList (step Real.log n x y x_tied y_tied chi_crit r s).indices r.DataStart r.DataStop
      = pushedRuns x y (tieCenter x_tied r.Xstart r.Xstop).2 (tieCenter y_tied r.Ystart r.Ystop).2
          (spanList s.indices r.DataStart r.DataStop) [0, 1, 2, 3]
        ++ spanList s.indices
          (r.DataStart + ((pushedRuns x y (tieCenter x_tied r.Xstart r.Xstop).2
            (tieCenter y_tied r.Ystart r.Ystop).2
            (spanList s.indices r.DataStart r.DataStop) [0, 1, 2, 3]).length : Int)) r.DataStop ∧
    (∀ q, q < r.DataStart ∨
        r.DataStart + ((pushedRuns x y (tieCenter x_tied r.Xstart r.Xstop).2
            (tieCenter y_tied r.Ystart r.Ystop).2
            (spanList s.indices r.DataStart r.DataStop) [0, 1, 2, 3]).length : Int) ≤ q →
      (step Real.log n x y x_tied y_tied chi_crit r s).indices q = s.indices q) ∧
    ((∀ i, i < 4 →
        actual x y (tieCenter x_tied r.Xstart r.Xstop).2 (tieCenter y_tied r.Ystart r.Ystop).2
          (spanList s.indices r.DataStart r.DataStop) i = 0 ∨
        3 ≤ actual x y (tieCenter x_tied r.Xstart r.Xstop).2 (tieCenter y_tied r.Ystart r.Ystop).2
          (spanList s.indices r.DataStart r.DataStop) i) →
      (spanList (step Real.log n x y x_tied y_tied chi_crit r s).indices
        r.DataStart r.DataStop).Perm (spanList s.indices r.DataStart r.DataStop)) := by
  obtain ⟨h1, h2⟩ := step_span Real.log n x y x_tied y_tied chi_crit r s hsp
  refine ⟨h1, h2, ?_⟩
  intro hall
  have hp := pushedRuns_perm x y (tieCenter x_tied r.Xstart r.Xstop).2
    (tieCenter y_tied r.Ystart r.Ystop).2 (spanList s.indices r.DataStart r.DataStop) hall
  have hlen := hp.length_eq
  rw [spanList_length] at hlen
  have hnil : spanList s.indices
      (r.DataStart + ((pushedRuns x y (tieCenter x_tied r.Xstart r.Xstop).2
        (tieCenter y_tied r.Ystart r.Ystop).2
        (spanList s.indices r.DataStart r.DataStop) [0, 1, 2, 3]).length : Int)) r.DataStop
      = [] := by
    apply List.length_eq_zero.mp
    rw [spanList_length, hlen]
    omega
  rw [h1, hnil, List.append_nil]
  exact hp

theorem split_rewrites_runs_of_pushed_subrectangles_witness :
    splittable (fun k => if k = 0 then 0 else if k ≤ 6 then k + 6 else k - 6) (fun k => k)
      none none 6 (rootRect 13).toBounds ((rootRect 13).DataStop - (rootRect 13).DataStart + 1)
      (spanList (fun i => i) (rootRect 13).DataStart (rootRect 13).DataStop) = true ∧
    ∀ q, q < (rootRect 13).DataStart ∨
        (rootRect 13).DataStart + ((pushedRuns
          (fun k => if k = 0 then 0 else if k ≤ 6 then k + 6 else k - 6) (fun k => k)
          (tieCenter none (rootRect 13).Xstart (rootRect 13).Xstop).2
          (tieCenter none (rootRect 13).Ystart (rootRect 13).Ystop).2
          (spanList (fun i => i) (rootRect 13).DataStart (rootRect 13).DataStop)
          [0, 1, 2, 3]).length : Int) ≤ q →
      (step Real.log 13 (fun k => if k = 0 then 0 else if k ≤ 6 then k + 6 else k - 6)
        (fun k => k) none none 6 (rootRect 13)
        { indices := fun i => i, stack := [], MI := 0 }).indices q = q :=
  ⟨corner13_splittable,
    (split_rewrites_runs_of_pushed_subrectangles 13
      (fun k => if k = 0 then 0 else if k ≤ 6 then k + 6 else k - 6) (fun k => k) none none 6
      (rootRect 13) { indices := fun i => i, stack := [], MI := 0 } corner13_splittable).2.1⟩

/-- C15 (counterexample): thirty-two cases, criterion 6, no ties.  After the
first iteration the rectangle on top of the stack has ranks 16..31 on both axes
and the data span 28..31, four cases.  It is split in the second iteration
(its cases all lie in its upper right sub-rectangle, statistic `7`), and the
one sub-rectangle pushed has the same data span 28..31: four cases again. -/
theorem pushed_subrectangle_keeps_every_case :
    IsRankPerm (fun k => if k ≤ 11 then k + 16 else if k ≤ 15 then k else
        if k ≤ 27 then k - 16 else k) 32 ∧
    IsRankPerm (fun k => k) 32 ∧
    (loopState Real.log 32 (fun k => if k ≤ 11 then k + 16 else if k ≤ 15 then k else
        if k ≤ 27 then k - 16 else k) (fun k => k) none none 6 1 (initState 32)).stack
      = [{ Xstart := 16, Xstop := 31, Ystart := 16, Ystop := 31, DataStart := 28, DataStop := 31 },
         { Xstart := 16, Xstop := 31, Ystart := 0, Ystop := 15, DataStart := 16, DataStop := 27 },
         { Xstart := 0, Xstop := 15, Ystart := 16, Ystop := 31, DataStart := 4, DataStop := 15 },
         { Xstart := 0, Xstop := 15, Ystart := 0, Ystop := 15, DataStart := 0, DataStop := 3 }] ∧
    splittable (fun k => if k ≤ 11 then k + 16 else if k ≤ 15 then k else
        if k ≤ 27 then k - 16 else k) (fun k => k) none none 6
      { Xstart := 16, Xstop := 31, Ystart := 16, Ystop := 31 } (31 - 28 + 1)
      (spanList (loopState Real.log 32 (fun k => if k ≤ 11 then k + 16 else
          if k ≤ 15 then k else if k ≤ 27 then k - 16 else k) (fun k => k) none none 6 1
        (initState 32)).indices 28 31) = true ∧
    (loopState Real.log 32 (fun k => if k ≤ 11 then k + 16 else if k ≤ 15 then k else
        if k ≤ 27 then k - 16 else k) (fun k => k) none none 6 2 (initState 32)).stack
      = [{ Xstart := 24, Xstop := 31, Ystart := 24, Ystop := 31, DataStart := 28, DataStop := 31 },
         { Xstart := 16, Xstop := 31, Ystart := 0, Ystop := 15, DataStart := 16, DataStop := 27 },
         { Xstart := 0, Xstop := 15, Ystart := 16, Ystop := 31, DataStart := 4, DataStop := 15 },
         { Xstart := 0, Xstop := 15, Ystart := 0, Ystop := 15, DataStart := 0, DataStop := 3 }] :=
  ⟨diag32_perm.1, diag32_perm.2, diag32_first_stack,
    (diag32_top_step _ diag32_top_span [] 0).1, diag32_second_stack⟩

/-- C15 (as amended): a split never enlarges the data span and always shrinks
the rank extents.  For rank permutations, any tie flags and threshold, and a
rectangle that satisfies the rectangle invariant (C8: every stacked rectangle
does), when the rectangle is split each sub-rectangle pushed holds at least 3
cases and at most as many as the split rectangle, strictly fewer exactly when
some case of the split rectangle lies outside the sub-rectangle, and its rank
extents on both axes are strictly smaller than those of the split rectangle. -/
theorem pushed_subrectangle_no_larger (n : Nat) (x y : IntArr) (hx : IsRankPerm x n)
    (hy : IsRankPerm y n) (x_tied y_tied : Option IntArr) (chi_crit : ℚ) (r : Rect)
    (s : State ℝ) (hr : RectInv x y n s.indices r)
    (hsp : splittable x y x_tied y_tied chi_crit r.toBounds (r.DataStop - r.DataStart + 1)
      (spanList s.indices r.DataStart r.DataStop) = true) :
    ∃ pushed : List Rect,
      (step Real.log n x y x_tied y_tied chi_crit r s).stack = pushed.reverse ++ s.stack ∧
      ∀ c ∈ pushed,
        3 ≤ c.DataStop - c.DataStart + 1 ∧
        c.DataStop - c.DataStart + 1 ≤ r.DataStop - r.DataStart + 1 ∧
        (c.DataStop - c.DataStart + 1 < r.DataStop - r.DataStart + 1 ↔
          ∃ k ∈ spanList s.indices r.DataStart r.DataStop, inBounds x y c.toBounds k = false) ∧
        c.Xstop - c.Xstart < r.Xstop - r.Xstart ∧
        c.Ystop - c.Ystart < r.Ystop - r.Ystart :=
  step_pushed_counts Real.log n x y x_tied y_tied chi_crit hx hy r s hr hsp

theorem pushed_subrectangle_no_larger_witness :
    IsRankPerm (fun k => 7 - k) 8 ∧ IsRankPerm (fun k => k) 8 ∧
    RectInv (fun k => 7 - k) (fun k => k) 8 (fun i => i) (rootRect 8) ∧
    splittable (fun k => 7 - k) (fun k => k) none none 1 (rootRect 8).toBounds
      ((rootRect 8).DataStop - (rootRect 8).DataStart + 1)
      (spanList (fun i => i) (rootRect 8).DataStart (rootRect 8).DataStop) = true ∧
    ∃ pushed : List Rect,
      (step Real.log 8 (fun k => 7 - k) (fun k => k) none none 1 (rootRect 8)
        { indices := fun i => i, stack := [], MI := 0 }).stack = pushed.reverse ++ [] ∧
      ∀ c ∈ pushed,
        3 ≤ c.DataStop - c.DataStart + 1 ∧
        c.DataStop - c.DataStart + 1 ≤ (rootRect 8).DataStop - (rootRect 8).DataStart + 1 ∧
        (c.DataStop - c.DataStart + 1 < (rootRect 8).DataStop - (rootRect 8).DataStart + 1 ↔
          ∃ k ∈ spanList (fun i => i) (rootRect 8).DataStart (rootRect 8).DataStop,
            inBounds (fun k => 7 - k) (fun k => k) c.toBounds k = false) ∧
        c.Xstop - c.Xstart < (rootRect 8).Xstop - (rootRect 8).Xstart ∧
        c.Ystop - c.Ystart < (rootRect 8).Ystop - (rootRect 8).Ystart :=
  ⟨by decide, by decide, rootRect_inv (by decide) (by decide) (by decide), antidiag8_splittable,
    pushed_subrectangle_no_larger 8 (fun k => 7 - k) (fun k => k) (by decide) (by decide)
      none none 1 (rootRect 8) { indices := fun i => i, stack := [], MI := 0 }
      (rootRect_inv (by decide) (by decide) (by decide)) antidiag8_splittable⟩

/-- C17 (counterexample): thirty-one cases, criterion 6, no ties.  The rank
extents of the root, `Xstop-Xstart+1` and `Ystop-Ystart+1`, are 31, above 30;
its 2x2 statistic is not above 6 and its 16 cell statistic is above 18; yet the
root is not split: the 4x4 test is not performed, because `Xstop-Xstart` is
not above 30.  The same holds with the statistics computed in double
precision. -/
theorem refined_test_skipped_at_extent_31 :
    IsRankPerm (fun k => if k ≤ 6 then k else if k ≤ 14 then k + 8 else
        if k ≤ 22 then k - 8 else k) 31 ∧
    IsRankPerm (fun k => k) 31 ∧
    tieCenter none (rootRect 31).Xstart (rootRect 31).Xstop = (false, 15) ∧
    tieCenter none (rootRect 31).Ystart (rootRect 31).Ystop = (false, 15) ∧
    (rootRect 31).Xstop - (rootRect 31).Xstart + 1 = 31 ∧
    (rootRect 31).Ystop - (rootRect 31).Ystart + 1 = 31 ∧
    chiSquare ((List.range 4).map (fun i =>
      (actual (fun k => if k ≤ 6 then k else if k ≤ 14 then k + 8 else
          if k ≤ 22 then k - 8 else k) (fun k => k) 15 15
        (spanList (fun i => i) 0 30) i, expected (rootRect 31).toBounds 31 15 15 i))) ≤ 6 ∧
    chiSquare ((List.range 16).map (fun j =>
      (actual44 (fun k => if k ≤ 6 then k else if k ≤ 14 then k + 8 else
          if k ≤ 22 then k - 8 else k) (fun k => k) (rootRect 31).toBounds
        (spanList (fun i => i) 0 30) j, expected44 (rootRect 31).toBounds 31 j))) > 3 * 6 ∧
    splittable (fun k => if k ≤ 6 then k else if k ≤ 14 then k + 8 else
        if k ≤ 22 then k - 8 else k) (fun k => k) none none 6 (rootRect 31).toBounds
      ((rootRect 31).DataStop - (rootRect 31).DataStart + 1)
      (spanList (fun i => i) (rootRect 31).DataStart (rootRect 31).DataStop) = false ∧
    Dbl.lt (Dbl.fin 6) (testvalD ((List.range 4).map (fun i =>
      (actual (fun k => if k ≤ 6 then k else if k ≤ 14 then k + 8 else
          if k ≤ 22 then k - 8 else k) (fun k => k) 15 15
        (spanList (fun i => i) 0 30) i, expectedD (rootRect 31).toBounds 31 15 15 i))))
      = false ∧
    Dbl.lt (Dbl.mul (Dbl.ofInt 3) (Dbl.fin 6)) (testvalD ((List.range 16).map (fun j =>
      (actual44 (fun k => if k ≤ 6 then k else if k ≤ 14 then k + 8 else
          if k ≤ 22 then k - 8 else k) (fun k => k) (rootRect 31).toBounds
        (spanList (fun i => i) 0 30) j, expected44D (rootRect 31).toBounds 31 j))))
      = true ∧
    splittableD (fun k => if k ≤ 6 then k else if k ≤ 14 then k + 8 else
        if k ≤ 22 then k - 8 else k) (fun k => k) none none 6 (rootRect 31).toBounds
      ((rootRect 31).DataStop - (rootRect 31).DataStart + 1)
      (spanList (fun i => i) (rootRect 31).DataStart (rootRect 31).DataStop) = false :=
  ⟨by decide, by decide, by decide, by decide, by decide, by decide, blocks31_tests.1,
    blocks31_tests.2, blocks31_not_splittable, by decide!, by decide!, by decide!⟩

/-- C17 (as amended): the two chi-square tests, computed in double precision
as lines 498-577 do.  For a rectangle whose axes are both splittable (centres
`cX`, `cY`) and whose rank extents are below `2^29`, so that the products of
lines 540 and 543 fit an `int`: the rectangle is split if and only if, when
the 2x2 statistic does not exceed `chi_crit` and `Xstop-Xstart > 30` and
`Ystop-Ystart > 30` (rank extents above 31), the 16 cell statistic exceeds
`3 * chi_crit`, and otherwise the 2x2 statistic exceeds `chi_crit`. -/
theorem refined_test_in_double_precision (x y : IntArr) (x_tied y_tied : Option IntArr)
    (chi_crit : ℚ) (b : Bounds) (cnt : Int) (cases : List Int) (cX cY : Int)
    (hcx : tieCenter x_tied b.Xstart b.Xstop = (false, cX))
    (hcy : tieCenter y_tied b.Ystart b.Ystop = (false, cY))
    (hX : b.Xstart ≤ b.Xstop ∧ b.Xstop - b.Xstart + 1 < 2 ^ 29)
    (hY : b.Ystart ≤ b.Ystop ∧ b.Ystop - b.Ystart + 1 < 2 ^ 29) :
    (∀ i : Nat, i < 4 →
      (0 ≤ (b.Xstop - b.Xstart + 1) * ((i : Int) + 1) ∧
        (b.Xstop - b.Xstart + 1) * ((i : Int) + 1) < 2 ^ 31 ∧
        b.Xstart - 1 ≤ cut44 b.Xstart b.Xstop i ∧ cut44 b.Xstart b.Xstop i ≤ b.Xstop) ∧
      (0 ≤ (b.Ystop - b.Ystart + 1) * ((i : Int) + 1) ∧
        (b.Ystop - b.Ystart + 1) * ((i : Int) + 1) < 2 ^ 31 ∧
        b.Ystart - 1 ≤ cut44 b.Ystart b.Ystop i ∧ cut44 b.Ystart b.Ystop i ≤ b.Ystop)) ∧
    (splittableD x y x_tied y_tied chi_crit b cnt cases = true ↔
      if Dbl.lt (Dbl.fin chi_crit) (testvalD ((List.range 4).map
            (fun i => (actual x y cX cY cases i, expectedD b cnt cX cY i)))) = false
          ∧ b.Xstop - b.Xstart > 30 ∧ b.Ystop - b.Ystart > 30 then
        Dbl.lt (Dbl.mul (Dbl.ofInt 3) (Dbl.fin chi_crit))
          (testvalD ((List.range 16).map
            (fun j => (actual44 x y b cases j, expected44D b cnt j)))) = true
      else
        Dbl.lt (Dbl.fin chi_crit) (testvalD ((List.range 4).map
          (fun i => (actual x y cX cY cases i, expectedD b cnt cX cY i)))) = true) :=
  ⟨fun i hi => ⟨cut44_in_range _ _ hX.1 hX.2 i hi, cut44_in_range _ _ hY.1 hY.2 i hi⟩,
    splittableD_iff_tests x y x_tied y_tied chi_crit b cnt cases cX cY hcx hcy⟩

theorem refined_test_in_double_precision_witness :
    tieCenter none (rootRect 3).toBounds.Xstart (rootRect 3).toBounds.Xstop = (false, 1) ∧
    tieCenter none (rootRect 3).toBounds.Ystart (rootRect 3).toBounds.Ystop = (false, 1) ∧
    ((rootRect 3).toBounds.Xstart ≤ (rootRect 3).toBounds.Xstop ∧
      (rootRect 3).toBounds.Xstop - (rootRect 3).toBounds.Xstart + 1 < 2 ^ 29) ∧
    ((rootRect 3).toBounds.Ystart ≤ (rootRect 3).toBounds.Ystop ∧
      (rootRect 3).toBounds.Ystop - (rootRect 3).toBounds.Ystart + 1 < 2 ^ 29) ∧
    chiSquare ((List.range 4).map (fun i =>
      (actual (fun k => k) (fun k => k) 1 1 (spanList (fun i => i) 0 2) i,
        expected (rootRect 3).toBounds 3 1 1 i))) = 3 / 16 ∧
    testvalD ((List.range 4).map (fun i =>
      (actual (fun k => k) (fun k => k) 1 1 (spanList (fun i => i) 0 2) i,
        expectedD (rootRect 3).toBounds 3 1 1 i)))
      = Dbl.fin (3377699720527873 / 18014398509481984) ∧
    splittable (fun k => k) (fun k => k) none none (3 / 16) (rootRect 3).toBounds 3
      (spanList (fun i => i) 0 2) = false ∧
    splittableD (fun k => k) (fun k => k) none none (3 / 16) (rootRect 3).toBounds 3
      (spanList (fun i => i) 0 2) = true := by
  refine ⟨by decide, by decide, by decide, by decide, ?_, by decide!, ?_,
    (refined_test_in_double_precision (fun k => k) (fun k => k) none none (3 / 16)
      (rootRect 3).toBounds 3 (spanList (fun i => i) 0 2) 1 1 (by decide) (by decide)
      (by decide) (by decide)).2.mpr (by decide!)⟩
  · simp [rootRect, spanList, spanN, chiSquare,
      actual, expected, quadrant, trialXstart, trialXstop, trialYstart, trialYstop,
      List.range, List.range.loop, List.countP_cons]
    simp only [abs_eq_max_neg]
    norm_num
  · simp [rootRect, splittable, tieCenter, chiTests, spanList, spanN, chiExceeds, chiSquare,
      actual, expected, quadrant, trialXstart, trialXstop, trialYstart, trialYstop,
      List.range, List.range.loop, show Int.tdiv 2 2 = 1 by decide, List.countP_cons]
    simp only [abs_eq_max_neg]
    norm_num

/-- C18: every case is accounted for exactly once.  For `n ≥ 1`, rank
permutations, any tie flags and threshold: the rectangles handled by the loop
and the array `indices` do not depend on the function used for `log`, and when
every logarithm is replaced by the constant 1, so that each term added to the
accumulator is the `pxy` of its contribution, the loop returns 1: the `pxy` of
all contributions sum to 1 and their case counts sum to `n`. -/
theorem every_case_counted_once (n : Nat) (hn : 1 ≤ n) (x y : IntArr) (hx : IsRankPerm x n)
    (hy : IsRankPerm y n) (x_tied y_tied : Option IntArr) (chi_crit : ℚ) :
    (∀ k,
      (loopState (fun _ : ℝ => 1) n x y x_tied y_tied chi_crit k (initState n)).indices
        = (loopState Real.log n x y x_tied y_tied chi_crit k (initState n)).indices ∧
      (loopState (fun _ : ℝ => 1) n x y x_tied y_tied chi_crit k (initState n)).stack
        = (loopState Real.log n x y x_tied y_tied chi_crit k (initState n)).stack) ∧
    ∀ fuel, fuelBound n ≤ fuel →
      mut_inf_loop (fun _ : ℝ => 1) n x y x_tied y_tied chi_crit fuel (initState n) = some 1 :=
  ⟨fun k => loopState_log (fun _ : ℝ => 1) Real.log n x y x_tied y_tied chi_crit k
      (initState n) (initState n) rfl rfl,
    fun fuel hfuel => loop_counts n hn x y hx hy x_tied y_tied chi_crit fuel hfuel⟩

theorem every_case_counted_once_witness :
    1 ≤ 8 ∧ IsRankPerm (fun k => 7 - k) 8 ∧ IsRankPerm (fun k => k) 8 ∧
    ∀ fuel, fuelBound 8 ≤ fuel →
      mut_inf_loop (fun _ : ℝ => 1) 8 (fun k => 7 - k) (fun k => k) none none 1 fuel
        (initState 8) = some 1 :=
  ⟨by decide, by decide, by decide,
    (every_case_counted_once 8 (by decide) (fun k => 7 - k) (fun k => k) (by decide)
      (by decide) none none 1).2⟩

/-- C19: the stack stays within its capacity when ties are not respected.  For
`x_tied` and `y_tied` both absent, `1 ≤ n ≤ 2^30`, rank permutations and any
threshold, after any number of iterations the stack holds at most
`3 * ceil(log2 n) + 1` rectangles (`Nat.clog 2 n` is `ceil(log2 n)`), hence at
most 91 and never more than the 256 entries of `stack`. -/
theorem stack_within_capacity_without_ties (n : Nat) (hn : 1 ≤ n) (hn30 : n ≤ 2 ^ 30)
    (x y : IntArr) (hx : IsRankPerm x n) (hy : IsRankPerm y n) (chi_crit : ℚ) (k : Nat) :
    (loopState Real.log n x y none none chi_crit k (initState n)).stack.length
      ≤ 3 * Nat.clog 2 n + 1 ∧
    (loopState Real.log n x y none none chi_crit k (initState n)).stack.length ≤ 91 ∧
    (loopState Real.log n x y none none chi_crit k (initState n)).stack.length ≤ 256 := by
  have h := loopState_stack_length Real.log n x y none chi_crit hn hx hy k
  have hc : Nat.clog 2 n ≤ 30 := by
    have := Nat.clog_mono_right 2 hn30
    rwa [Nat.clog_pow 2 30 (by decide)] at this
  exact ⟨h, by omega, by omega⟩

theorem stack_within_capacity_without_ties_witness :
    1 ≤ 8 ∧ 8 ≤ 2 ^ 30 ∧ IsRankPerm (fun k => 7 - k) 8 ∧ IsRankPerm (fun k => k) 8 ∧
    (loopState Real.log 8 (fun k => 7 - k) (fun k => k) none none 1 1 (initState 8)).stack.length
      ≤ 3 * Nat.clog 2 8 + 1 :=
  ⟨by decide, by decide, by decide, by decide,
    (stack_within_capacity_without_ties 8 (by decide) (by decide) (fun k => 7 - k) (fun k => k)
      (by decide) (by decide) 1 1).1⟩

/-- C20: over exact real arithmetic the returned value is not negative.  For
`n ≥ 1`, rank permutations, any tie flags and threshold, the loop returns a
value `v ≥ 0` as soon as it is allowed `fuelBound n` iterations. -/
theorem estimate_nonneg_over_reals (n : Nat) (hn : 1 ≤ n) (x y : IntArr) (hx : IsRankPerm x n)
    (hy : IsRankPerm y n) (x_tied y_tied : Option IntArr) (chi_crit : ℚ) :
    ∃ v : ℝ, 0 ≤ v ∧ ∀ fuel, fuelBound n ≤ fuel →
      mut_inf_loop Real.log n x y x_tied y_tied chi_crit fuel (initState n) = some v :=
  loop_nonneg n hn x y hx hy x_tied y_tied chi_crit

theorem estimate_nonneg_over_reals_witness :
    1 ≤ 13 ∧
    IsRankPerm (fun k => if k = 0 then 0 else if k ≤ 6 then k + 6 else k - 6) 13 ∧
    IsRankPerm (fun k => k) 13 ∧
    ∃ v : ℝ, 0 ≤ v ∧ ∀ fuel, fuelBound 13 ≤ fuel →
      mut_inf_loop Real.log 13 (fun k => if k = 0 then 0 else if k ≤ 6 then k + 6 else k - 6)
        (fun k => k) none none 6 fuel (initState 13) = some v :=
  ⟨by decide, by decide, by decide,
    estimate_nonneg_over_reals 13 (by decide)
      (fun k => if k = 0 then 0 else if k ≤ 6 then k + 6 else k - 6) (fun k => k)
      (by decide) (by decide) none none 6⟩

/-- C21: over exact real arithmetic the returned value is at most `ln n`.  For
`n ≥ 1`, rank permutations, any tie flags and threshold, the loop returns a
value `v ≤ log n` as soon as it is allowed `fuelBound n` iterations: a
contributing cell with `c` cases has at least `c` ranks on each axis, so the
argument of its logarithm is at most `n`, and the `pxy` sum to 1. -/
theorem estimate_at_most_log_n (n : Nat) (hn : 1 ≤ n) (x y : IntArr) (hx : IsRankPerm x n)
    (hy : IsRankPerm y n) (x_tied y_tied : Option IntArr) (chi_crit : ℚ) :
    ∃ v : ℝ, v ≤ Real.log (n : ℝ) ∧ ∀ fuel, fuelBound n ≤ fuel →
      mut_inf_loop Real.log n x y x_tied y_tied chi_crit fuel (initState n) = some v :=
  loop_le_log n hn x y hx hy x_tied y_tied chi_crit

theorem estimate_at_most_log_n_witness :
    1 ≤ 8 ∧ IsRankPerm (fun k => 7 - k) 8 ∧ IsRankPerm (fun k => k) 8 ∧
    ∃ v : ℝ, v ≤ Real.log ((8 : Nat) : ℝ) ∧ ∀ fuel, fuelBound 8 ≤ fuel →
      mut_inf_loop Real.log 8 (fun k => 7 - k) (fun k => k) (some (fun _ => 0)) none 1 fuel
        (initState 8) = some v :=
  ⟨by decide, by decide, by decide,
    estimate_at_most_log_n 8 (by decide) (fun k => 7 - k) (fun k => k) (by decide) (by decide)
      (some (fun _ => 0)) none 1⟩

/-- C22: the estimate is symmetric in the two variables over exact real
arithmetic.  For a sort that meets the contract, `n ≥ 1`, value arrays `a` and
`b` of length `n`, every tie mode and threshold: constructing with dependent
`a` and calling `mut_inf` with `b` returns the same real value as constructing
with dependent `b` and calling `mut_inf` with `a`. -/
theorem estimate_symmetric_in_variables (sort : List (ℚ × Int) → List (ℚ × Int))
    (hs : SortContract sort) (n : Nat) (hn : 1 ≤ n) (a b : List ℚ) (_hal : a.length = n)
    (_hbl : b.length = n) (respect_ties : Bool) (chi_crit : ℚ) :
    ∃ v : ℝ, ∀ fuel, fuelBound n ≤ fuel →
      mut_inf sort Real.log (MutualInformationAdaptive.create sort n a respect_ties chi_crit)
        b respect_ties fuel = some v ∧
      mut_inf sort Real.log (MutualInformationAdaptive.create sort n b respect_ties chi_crit)
        a respect_ties fuel = some v := by
  obtain ⟨v, h⟩ := loop_transpose n hn (rankTransform sort n b respect_ties).1
    (rankTransform sort n a respect_ties).1 (rankTransform_isRankPerm sort hs n b respect_ties)
    (rankTransform_isRankPerm sort hs n a respect_ties)
    (rankTransform sort n b respect_ties).2 (rankTransform sort n a respect_ties).2 chi_crit
  refine ⟨v, fun fuel hf => ?_⟩
  rw [mut_inf_create, mut_inf_create]
  exact h fuel hf

theorem estimate_symmetric_in_variables_witness :
    SortContract qsortdsi ∧ 1 ≤ 3 ∧ ([3, 1, 1] : List ℚ).length = 3 ∧
    ([1, 2, 3] : List ℚ).length = 3 ∧
    ∃ v : ℝ, ∀ fuel, fuelBound 3 ≤ fuel →
      mut_inf qsortdsi Real.log (MutualInformationAdaptive.create qsortdsi 3 [3, 1, 1] true 6)
        [1, 2, 3] true fuel = some v ∧
      mut_inf qsortdsi Real.log (MutualInformationAdaptive.create qsortdsi 3 [1, 2, 3] true 6)
        [3, 1, 1] true fuel = some v :=
  ⟨qsortdsi_contract, by decide, rfl, rfl,
    estimate_symmetric_in_variables qsortdsi qsortdsi_contract 3 (by decide) [3, 1, 1] [1, 2, 3]
      rfl rfl true 6⟩

end MutInf
